import Mathlib

/-!
Verification development for the task-list-and-time repository.

The repository keeps an outline/task document as a tree of `Node` objects
(src/unnamed/part_001), tracks per-task time through `TodoItem`
(src/src/models/todoItem.ts) and a `Task` model, and resumes in-progress
tracking sessions on load (the `savedTrackingStateList` selector in
src/unnamed/part_001).

The tree code is imperative and aliasing-heavy (parent back-references,
in-place mutation of `children` arrays), so it is embedded against an
explicit heap: addresses are natural numbers, the heap maps an address to
a node record, and every operation threads the heap state explicitly.

The `Time` duration class and the `Task` class are referenced by the
sources under src/ but their own files are not included there; they are
modelled from the specification and marked as such in their doc comments.
-/

/-! ## Time (duration value) -/

/-- Modelled from the spec: the `Time` duration class (src/models/time.ts is
not under src/). Four integer components, §3 of the spec: "immutable-in-spirit
value with four integer components {seconds, minutes, hours, days}". -/
structure Time where
  seconds : Nat
  minutes : Nat
  hours : Nat
  days : Nat
deriving DecidableEq, Repr

/-- Modelled from the spec: normalization of a duration, §3: "each normalized
(0 ≤ seconds,minutes < 60; 0 ≤ hours < 24; days ≥ 0) after any arithmetic";
§4.4 `add`: "seconds overflow (≥60) carries into minutes, minutes into hours,
hours (≥24) into days; days accumulate without upper bound". -/
def Time.normalize (t : Time) : Time :=
  let m := t.minutes + t.seconds / 60
  let h := t.hours + m / 60
  let d := t.days + h / 24
  ⟨t.seconds % 60, m % 60, h % 24, d⟩

/-- Modelled from the spec: `Time.add`, §4.4: "component-wise addition with
carry". -/
def Time.add (a b : Time) : Time :=
  Time.normalize ⟨a.seconds + b.seconds, a.minutes + b.minutes,
    a.hours + b.hours, a.days + b.days⟩

/-- Modelled from the spec: `Time.parseMs`, §4.4 construction (c): "a
millisecond count (normalized by integer division: ms→minutes, with any
remainder discounted — sub-minute precision is not retained)". -/
def Time.parseMs (ms : Nat) : Time :=
  Time.normalize ⟨0, ms / 60000, 0, 0⟩

/-- Modelled from the spec: the zero duration (`new Time()`), §4.4
construction (b): "absence of any group yields a zero duration". -/
def Time.zero : Time := ⟨0, 0, 0, 0⟩

/-- Modelled from the spec: `toMinutes`, §4.4: "total duration expressed as
whole minutes (days*24*60 + hours*60 + minutes; seconds truncated)". -/
def Time.toMinutes (t : Time) : Nat :=
  t.days * 24 * 60 + t.hours * 60 + t.minutes

/-- Modelled from the spec: `isEmpty`, §4.4: "true iff all four components
are zero". -/
def Time.isEmpty (t : Time) : Bool :=
  t.seconds = 0 && t.minutes = 0 && t.hours = 0 && t.days = 0

/-! ## TodoItem (src/src/models/todoItem.ts) -/

/-- The `TODO_STATE` constant of src/src/models/todoItem.ts:
`{ STOP, RUNNING, COMPLETE }`. -/
inductive TodoState where
  | STOP
  | RUNNING
  | COMPLETE
deriving DecidableEq, Repr

/-- The `TodoItem` class of src/src/models/todoItem.ts. The constructor
assigns `estimatedTimes` but never `actualTimes`, so `actualTimes` is an
`Option`: `none` embeds the JavaScript `undefined`. -/
structure TodoItem where
  id : Nat
  title : String
  todoState : TodoState
  estimatedTimes : Time
  actualTimes : Option Time
  trackingStartTime : Nat
deriving DecidableEq, Repr

/-- The `TodoItem` constructor (todoItem.ts lines 57-63): sets `id`, `title`,
`todoState = STOP`, `trackingStartTime = 0`, `estimatedTimes = time`, and
leaves `actualTimes` unassigned. `id` stands for the value produced by the
static counter `TodoItem.getId()`. -/
def TodoItem.new (id : Nat) (title : String) (time : Time) : TodoItem :=
  { id := id
    title := title
    todoState := TodoState.STOP
    estimatedTimes := time
    actualTimes := none
    trackingStartTime := 0 }

/-- `TodoItem.trackingStart` (todoItem.ts lines 65-68): unconditionally
stores the current wall-clock milliseconds (`now` embeds `Date.now()`) and
sets the state to RUNNING. -/
def TodoItem.trackingStart (now : Nat) (t : TodoItem) : TodoItem :=
  { t with trackingStartTime := now, todoState := TodoState.RUNNING }

/-- `TodoItem.trackingEnd` (todoItem.ts lines 70-76): computes
`Date.now() - this.trackingStartTime`, converts it with `Time.parseMs`, and
calls `this.actualTimes.add(...)`. When `actualTimes` is undefined the
method dereferences undefined and throws, embedded as `Except.error ()`;
nothing is mutated in that case because the throw happens before any
assignment. -/
def TodoItem.trackingEnd (now : Nat) (t : TodoItem) : Except Unit TodoItem :=
  let elapsedTime := Time.parseMs (now - t.trackingStartTime)
  match t.actualTimes with
  | none => Except.error ()
  | some a =>
      Except.ok { t with
        actualTimes := some (a.add elapsedTime)
        todoState := TodoState.STOP
        trackingStartTime := 0 }

/-- `TodoItem.complete` (todoItem.ts lines 78-80): sets `todoState` to
COMPLETE, touching no other field. -/
def TodoItem.complete (t : TodoItem) : TodoItem :=
  { t with todoState := TodoState.COMPLETE }

/-! ## Task (spec §4.3 state machine; src/models/task.ts is not under src/) -/

/-- Modelled from the spec: the tracking states of the Task state machine,
§4.3: "States: STOPPED, RUNNING". -/
inductive TaskState where
  | STOPPED
  | RUNNING
deriving DecidableEq, Repr

/-- Modelled from the spec: the `Task` entity (src/models/task.ts is not
under src/; only callers such as src/unnamed/part_002 are). Fields from §3:
id, title, completion boolean, estimatedTime, actualTime, trackingStartTime
in milliseconds, indent. -/
structure TaskObj where
  id : Nat
  title : String
  taskState : TaskState
  completion : Bool
  estimatedTime : Time
  actualTime : Time
  trackingStartTime : Nat
  indent : Nat
deriving DecidableEq, Repr

/-- Modelled from the spec: `Task.trackingStart`, §4.3: "records
`Date.now()`-equivalent wall-clock ms into trackingStartTime, transitions to
RUNNING, returns the timestamp for the caller to persist". -/
def TaskObj.trackingStart (now : Nat) (t : TaskObj) : TaskObj × Nat :=
  ({ t with trackingStartTime := now, taskState := TaskState.RUNNING }, now)

/-- Modelled from the spec: `Task.trackingStop`, §4.3: "computes elapsed =
now − startTimestamp, converts to a Duration, adds it to actualTime,
transitions to STOPPED, clears trackingStartTime". -/
def TaskObj.trackingStop (startTimestamp now : Nat) (t : TaskObj) : TaskObj :=
  { t with
    actualTime := t.actualTime.add (Time.parseMs (now - startTimestamp))
    taskState := TaskState.STOPPED
    trackingStartTime := 0 }

/-- Modelled from the spec: `Task.setComplete`, §4.3: "sets completion; no
state-machine restriction". -/
def TaskObj.setComplete (flag : Bool) (t : TaskObj) : TaskObj :=
  { t with completion := flag }

/-! ## Tracking records (savedTrackingStateList, src/unnamed/part_001) -/

/-- The `TimeObject` shape of src/unnamed/part_001 (lines 75-80): the raw
persisted form of a Time. -/
structure TimeObject where
  _seconds : Nat
  _minutes : Nat
  _hours : Nat
  _days : Nat
deriving DecidableEq, Repr

/-- A persisted `TrackingState` record as read back from storage
(src/unnamed/part_001 lines 68-73), with `elapsedTime` still in its raw
`TimeObject` form, as the selector receives it. -/
structure StoredTracking where
  line : Nat
  isTracking : Bool
  trackingStartTime : Nat
  elapsedTime : TimeObject
deriving DecidableEq, Repr

/-- A rehydrated `TrackingState` record with `elapsedTime` converted to a
`Time` instance, as the selector returns it. -/
structure TrackingState where
  line : Nat
  isTracking : Bool
  trackingStartTime : Nat
  elapsedTime : Time
deriving DecidableEq, Repr

/-- The body of the map in the `savedTrackingStateList` selector
(src/unnamed/part_001 lines 92-110): convert the raw time object with
`new Time(obj._seconds, obj._minutes, obj._hours, obj._days)`, and when
`isTracking` add `Time.parseMs(Date.now() - trackingStartTime)` onto it. -/
def restoreTracking (now : Nat) (tr : StoredTracking) : TrackingState :=
  let e := Time.mk tr.elapsedTime._seconds tr.elapsedTime._minutes
    tr.elapsedTime._hours tr.elapsedTime._days
  if tr.isTracking then
    { line := tr.line
      isTracking := tr.isTracking
      trackingStartTime := tr.trackingStartTime
      elapsedTime := e.add (Time.parseMs (now - tr.trackingStartTime)) }
  else
    { line := tr.line
      isTracking := tr.isTracking
      trackingStartTime := tr.trackingStartTime
      elapsedTime := e }

/-- The `savedTrackingStateList` selector (src/unnamed/part_001 lines
84-111): `if (!trackings) return []`, otherwise map `restoreTracking` over
the list. `none` embeds a missing/null storage value. -/
def savedTrackingStateList (now : Nat) (trackings : Option (List StoredTracking)) :
    List TrackingState :=
  match trackings with
  | none => []
  | some l => l.map (restoreTracking now)

/-! ## Claims about tracking (C4, C5, C8, C9, C10) -/

/-- C4: for a task in the RUNNING tracking state, stopping tracking computes
elapsed = now − tracking start timestamp, converts it to a Duration, adds it
onto the accumulated actual time, transitions the state to STOPPED/STOP, and
resets `trackingStartTime` to 0. Stated for both `TodoItem.trackingEnd`
(src/src/models/todoItem.ts lines 70-76, which reads its own stored
`trackingStartTime`) and the spec-modelled `TaskObj.trackingStop` (which
takes the start timestamp as an argument). -/
theorem C4_trackingStop (t : TodoItem) (a : Time) (now : Nat) (tk : TaskObj)
    (startTs : Nat)
    (hrun : t.todoState = TodoState.RUNNING)
    (hact : t.actualTimes = some a)
    (hrun2 : tk.taskState = TaskState.RUNNING) :
    TodoItem.trackingEnd now t =
      Except.ok { t with
        actualTimes := some (a.add (Time.parseMs (now - t.trackingStartTime)))
        todoState := TodoState.STOP
        trackingStartTime := 0 } ∧
    TaskObj.trackingStop startTs now tk =
      { tk with
        actualTime := tk.actualTime.add (Time.parseMs (now - startTs))
        taskState := TaskState.STOPPED
        trackingStartTime := 0 } := by
  refine ⟨?_, rfl⟩
  simp [TodoItem.trackingEnd, hact]

/-- Witness for C4: a concrete RUNNING item that started tracking at
60000 ms, stopped at 180000 ms, accumulates exactly 2 minutes. -/
theorem C4_trackingStop_witness :
    TodoItem.trackingEnd 180000
        ⟨1, "a", TodoState.RUNNING, Time.zero, some Time.zero, 60000⟩ =
      Except.ok ⟨1, "a", TodoState.STOP, Time.zero, some ⟨0, 2, 0, 0⟩, 0⟩ ∧
    TaskObj.trackingStop 60000 180000
        ⟨1, "a", TaskState.RUNNING, false, Time.zero, Time.zero, 60000, 0⟩ =
      ⟨1, "a", TaskState.STOPPED, false, Time.zero, ⟨0, 2, 0, 0⟩, 0, 0⟩ := by
  have h := C4_trackingStop
    ⟨1, "a", TodoState.RUNNING, Time.zero, some Time.zero, 60000⟩
    Time.zero 180000
    ⟨1, "a", TaskState.RUNNING, false, Time.zero, Time.zero, 60000, 0⟩
    60000 rfl rfl rfl
  exact ⟨h.1, h.2⟩

/-- C5: on load, `savedTrackingStateList` adds the wall-clock gap since
`trackingStartTime`, converted to a Duration, onto the stored `elapsedTime`
baseline exactly when `isTracking` is true; records with `isTracking = false`
get the converted baseline unchanged; a record 120000 ms old with a zero
baseline yields exactly 2 minutes. -/
theorem C5_trackingResume (now : Nat) (l : List StoredTracking)
    (tr : StoredTracking) :
    savedTrackingStateList now (some l) = l.map (restoreTracking now) ∧
    savedTrackingStateList now none = [] ∧
    (tr.isTracking = true →
      (restoreTracking now tr).elapsedTime =
        (Time.mk tr.elapsedTime._seconds tr.elapsedTime._minutes
          tr.elapsedTime._hours tr.elapsedTime._days).add
          (Time.parseMs (now - tr.trackingStartTime))) ∧
    (tr.isTracking = false →
      (restoreTracking now tr).elapsedTime =
        Time.mk tr.elapsedTime._seconds tr.elapsedTime._minutes
          tr.elapsedTime._hours tr.elapsedTime._days) ∧
    (tr.isTracking = true → tr.elapsedTime = ⟨0, 0, 0, 0⟩ →
      tr.trackingStartTime + 120000 = now →
      (restoreTracking now tr).elapsedTime = ⟨0, 2, 0, 0⟩) := by
  refine ⟨rfl, rfl, ?_, ?_, ?_⟩
  · intro h; simp [restoreTracking, h]
  · intro h; simp [restoreTracking, h]
  · intro h1 h2 h3
    have hms : now - tr.trackingStartTime = 120000 := by omega
    simp [restoreTracking, h1, h2, hms]
    decide

/-- Witness for C5: one concrete in-progress record and one idle record. -/
theorem C5_trackingResume_witness :
    savedTrackingStateList 120000 (some [⟨7, true, 0, ⟨0, 0, 0, 0⟩⟩]) =
      [⟨7, true, 0, ⟨0, 0, 0, 0⟩⟩].map (restoreTracking 120000) ∧
    (restoreTracking 120000 ⟨7, true, 0, ⟨0, 0, 0, 0⟩⟩).elapsedTime =
      ⟨0, 2, 0, 0⟩ ∧
    (restoreTracking 120000 ⟨9, false, 0, ⟨1, 2, 3, 4⟩⟩).elapsedTime =
      ⟨1, 2, 3, 4⟩ := by
  have h1 := C5_trackingResume 120000 [⟨7, true, 0, ⟨0, 0, 0, 0⟩⟩]
    ⟨7, true, 0, ⟨0, 0, 0, 0⟩⟩
  have h2 := C5_trackingResume 120000 [] ⟨9, false, 0, ⟨1, 2, 3, 4⟩⟩
  exact ⟨h1.1, h1.2.2.2.2 rfl rfl rfl, h2.2.2.2.1 rfl⟩

/-- C8: `setComplete` sets only the completion flag; it is a total operation
with no state-machine restriction, and it leaves the tracking state,
`trackingStartTime`, and every other field unchanged — in particular marking
a RUNNING task complete does not stop tracking. Stated on the spec-modelled
`TaskObj` (the Task class itself is not under src/; its caller
`toggleItemCompletion` in src/unnamed/part_002 stops tracking explicitly
before calling `setComplete`). -/
theorem C8_setCompleteFrame (t : TaskObj) (flag : Bool) :
    (TaskObj.setComplete flag t).completion = flag ∧
    (TaskObj.setComplete flag t).taskState = t.taskState ∧
    (TaskObj.setComplete flag t).trackingStartTime = t.trackingStartTime ∧
    (TaskObj.setComplete flag t).actualTime = t.actualTime ∧
    (TaskObj.setComplete flag t).estimatedTime = t.estimatedTime ∧
    (TaskObj.setComplete flag t).id = t.id ∧
    (TaskObj.setComplete flag t).title = t.title ∧
    (TaskObj.setComplete flag t).indent = t.indent :=
  ⟨rfl, rfl, rfl, rfl, rfl, rfl, rfl, rfl⟩

/-- C9: a freshly constructed `TodoItem` (the only way `TodoItem.parse`
produces items — both branches of `parse`, todoItem.ts lines 29 and 33,
return `new TodoItem(...)`) has an undefined `actualTimes`, and the first
`trackingEnd()` on it dereferences undefined and throws instead of
accumulating elapsed time. -/
theorem C9_freshTrackingEndThrows (id : Nat) (title : String) (time : Time)
    (now : Nat) :
    (TodoItem.new id title time).actualTimes = none ∧
    TodoItem.trackingEnd now (TodoItem.new id title time) =
      Except.error () :=
  ⟨rfl, rfl⟩

/-- C10: `trackingStart` is unguarded — from any state it unconditionally
overwrites `trackingStartTime` with the current wall-clock milliseconds and
sets the state to RUNNING, with no error or no-op branch; a second call while
RUNNING silently replaces the previous session start point. -/
theorem C10_trackingStartUnguarded (t : TodoItem) (now : Nat) :
    TodoItem.trackingStart now t =
      { t with trackingStartTime := now, todoState := TodoState.RUNNING } ∧
    (TodoItem.trackingStart now t).trackingStartTime = now ∧
    (TodoItem.trackingStart now t).todoState = TodoState.RUNNING ∧
    (TodoItem.trackingStart now t).actualTimes = t.actualTimes ∧
    (TodoItem.trackingStart now t).estimatedTimes = t.estimatedTimes ∧
    (TodoItem.trackingStart now t).id = t.id ∧
    (TodoItem.trackingStart now t).title = t.title :=
  ⟨rfl, rfl, rfl, rfl, rfl, rfl, rfl⟩

/-! ## Heap model for Node (src/unnamed/part_001)

JavaScript `Node` objects alias each other through `parent` back-references
and shared `children` arrays, and the structural operations mutate them in
place, so the embedding is an explicit heap: an address is a plain `Nat`,
the state maps addresses to node records (and task-payload records), and a
fresh-address counter serves allocation. A missing address reads as a fixed
default record; every theorem works under well-formedness hypotheses that
make such reads unreachable, exactly as in the running program. -/

/-- The `NODE_TYPE` constant of src/unnamed/part_001 (lines 409-414). -/
inductive NodeType where
  | TASK
  | HEADING
  | OTHER
  | ROOT
deriving DecidableEq, Repr

/-- A node's `data` field: a reference to a heap-allocated Task payload for
TASK nodes, or an immutable string (plain text, or a heading's text). -/
inductive NData where
  | task (a : Nat)
  | text (s : String)
deriving DecidableEq, Repr

/-- One `Node` object (part_001 lines 441-448), including the `level` field
of the `HeadingNode` subclass (`none` for plain nodes). `id` abstracts the
`Math.random()` string. -/
structure NodeObj where
  type : NodeType
  line : Nat
  data : NData
  parent : Option Nat
  children : List Nat
  collapsed : Bool
  id : Nat
  level : Option Nat
deriving DecidableEq, Repr

/-- Default record returned for a dangling address (unreachable under the
well-formedness hypotheses of every theorem below). -/
def NodeObj.dflt : NodeObj :=
  ⟨NodeType.OTHER, 0, NData.text "", none, [], false, 0, none⟩

/-- Default task payload for a dangling task address (unreachable under the
well-formedness hypotheses). -/
def TaskObj.dflt : TaskObj :=
  ⟨0, "", TaskState.STOPPED, false, Time.zero, Time.zero, 0, 0⟩

/-- The heap: node store, task-payload store, and fresh-address counters. -/
structure St where
  nodes : Nat → Option NodeObj
  tasks : Nat → Option TaskObj
  nextN : Nat
  nextT : Nat

/-- Read a node record. -/
def getN (st : St) (a : Nat) : NodeObj := (st.nodes a).getD NodeObj.dflt

/-- Read a task payload. -/
def getT (st : St) (a : Nat) : TaskObj := (st.tasks a).getD TaskObj.dflt

/-- Overwrite the node record at an address (a JavaScript field mutation). -/
def setNode (st : St) (a : Nat) (n : NodeObj) : St :=
  { st with nodes := fun x => if x = a then some n else st.nodes x }

/-- Allocate a fresh node object. -/
def allocNode (st : St) (n : NodeObj) : St × Nat :=
  ({ st with
      nodes := fun x => if x = st.nextN then some n else st.nodes x
      nextN := st.nextN + 1 },
    st.nextN)

/-- Allocate a fresh task object. -/
def allocTask (st : St) (t : TaskObj) : St × Nat :=
  ({ st with
      tasks := fun x => if x = st.nextT then some t else st.tasks x
      nextT := st.nextT + 1 },
    st.nextT)

/-- `Node.clone` / `HeadingNode.clone` (part_001 lines 488-497 and 640-652):
allocate a fresh node carrying the same `type`, `line`, `id`, `collapsed`,
`level`, the same `parent` reference, and a shallow copy of the `children`
list (the same child addresses). A Task payload is deep-cloned
(`c.data = this.data.clone()`): a fresh task object holding the same field
values (`Task.clone` itself is not under src/; the spec, §3, calls the clone
of a Task payload a deep copy). -/
def cloneMethod (st : St) (a : Nat) : St × Nat :=
  let n := getN st a
  match n.data with
  | NData.task ta =>
      let p := allocTask st (getT st ta)
      allocNode p.1 { n with data := NData.task p.2 }
  | NData.text _ => allocNode st n

/-- The module-level `clone` helper (part_001 lines 659-666): clone each node
with its `clone()` method, point its `parent` at the supplied new parent, and
recursively clone the (shared, still original) children with the fresh node
as their parent, storing the fresh children list. `fuel` bounds the
recursion; every theorem supplies at least the tree size, which the
terminating JavaScript recursion always has. -/
def cloneList : Nat → St → List Nat → Option Nat → St × List Nat
  | 0, st, _, _ => (st, [])
  | _ + 1, st, [], _ => (st, [])
  | fuel + 1, st, a :: rest, parent =>
      let p1 := cloneMethod st a
      let st1 := setNode p1.1 p1.2 { getN p1.1 p1.2 with parent := parent }
      let p2 := cloneList fuel st1 (getN st1 p1.2).children (some p1.2)
      let st2 := setNode p2.1 p1.2 { getN p2.1 p1.2 with children := p2.2 }
      let p3 := cloneList fuel st2 rest parent
      (p3.1, p1.2 :: p3.2)

/-- `const [cloned] = clone([this])`, the first line of `filter`, `replace`
and `append` (part_001 lines 507, 536, 576). -/
def cloneRoot (fuel : Nat) (st : St) (a : Nat) : St × Nat :=
  let p := cloneList fuel st [a] none
  (p.1, p.2.headD 0)

/-- The BFS loop of `Node.find` (part_001 lines 515-533). The predicate may
raise (`Except.error`); the try/catch wraps the whole while loop, so an
error aborts the remaining traversal and `find` returns null. -/
def findLoop (P : NodeObj → Except Unit Bool) :
    Nat → St → List Nat → Option Nat
  | 0, _, _ => none
  | _ + 1, _, [] => none
  | fuel + 1, st, e :: queue =>
      let n := getN st e
      match P n with
      | Except.error _ => none
      | Except.ok true => some e
      | Except.ok false => findLoop P fuel st (queue ++ n.children)

/-- `Node.find` (part_001 lines 515-533): breadth-first search from the
receiver over the live heap. -/
def Node.find (fuel : Nat) (st : St) (a : Nat)
    (P : NodeObj → Except Unit Bool) : Option Nat :=
  findLoop P fuel st [a]

/-- The BFS enumeration phase of `Node.filter` (part_001 lines 541-548):
pop an element, record it, push its (current) children. -/
def bfsFlatten : Nat → St → List Nat → List Nat
  | 0, _, _ => []
  | _ + 1, _, [] => []
  | fuel + 1, st, e :: queue =>
      e :: bfsFlatten fuel st (queue ++ (getN st e).children)

/-- One iteration of filter's pruning loop (part_001 lines 553-560): call the
predicate on the node's current record; when it does not match and the node
currently has no children, rewrite the parent's children list, dropping every
child whose `id` equals this node's. A node without a parent (the cloned
root) makes `parent.children` a property access on undefined: a TypeError,
embedded as `Except.error`, raised before any mutation of this step. -/
def pruneStep (P : NodeObj → Except Unit Bool) (st : St) (a : Nat) :
    Except Unit St :=
  let n := getN st a
  match P n with
  | Except.error _ => Except.error ()
  | Except.ok mtch =>
      if mtch = false ∧ n.children = [] then
        match n.parent with
        | none => Except.error ()
        | some p =>
            let pn := getN st p
            Except.ok (setNode st p
              { pn with
                children := pn.children.filter
                  (fun c => (getN st c).id != n.id) })
      else Except.ok st

/-- Filter's `reverse.forEach` (part_001 lines 550-560): process the reverse
BFS list left to right; the first raised error (a predicate exception, or
the root's TypeError) escapes the forEach into the catch, keeping every
mutation made so far and skipping the rest. Returns the final state and
whether an error escaped. -/
def pruneFold (P : NodeObj → Except Unit Bool) :
    St → List Nat → St × Bool
  | st, [] => (st, false)
  | st, a :: rest =>
      match pruneStep P st a with
      | Except.error _ => (st, true)
      | Except.ok st1 => pruneFold P st1 rest

/-- Modelled from the spec: the `flat` helper imported by part_001 from the
flattenedNode module, which is not under src/. Spec §4.2: "a depth-first
pre-order traversal that also records each node's nesting depth (root
excluded, depth 0 = its direct children)". The renumbering phase of `filter`
uses only the node order, so the embedding returns the addresses in that
order. -/
def flatAddrs : Nat → St → Nat → List Nat
  | 0, _, _ => []
  | fuel + 1, st, a =>
      (getN st a).children.flatMap (fun c => c :: flatAddrs fuel st c)

/-- Filter's renumbering phase (part_001 lines 562-566):
`flattenFiltered.forEach((f, index) => { f.node.line = index + 1 })`. -/
def renumber (st : St) (l : List Nat) : St :=
  l.enum.foldl (fun s p => setNode s p.2 { getN s p.2 with line := p.1 + 1 }) st

/-- `Node.filter` (part_001 lines 535-573): clone the receiver, enumerate the
clone's nodes by BFS, process them in reverse BFS order pruning childless
non-matching nodes, then recompute line numbers by re-flattening; the try
block wraps BFS, pruning and renumbering, so an escaped error skips the
renumbering and the clone is returned as it stands. -/
def Node.filter (fuel : Nat) (st : St) (a : Nat)
    (P : NodeObj → Except Unit Bool) : St × Nat :=
  let c := cloneRoot fuel st a
  let flatten := bfsFlatten fuel c.1 [c.2]
  let pr := pruneFold P c.1 flatten.reverse
  if pr.2 then (pr.1, c.2)
  else (renumber pr.1 (flatAddrs fuel pr.1 c.2), c.2)

/-- The mutation half of `Node.replace` (part_001 lines 579-592), applied
once `find` has produced a target on the clone: keep the target's `id`,
`line` and `children` on the replacement node, point its `parent` at the
target's parent, and substitute it into the parent's children list by id
equality; a target without a parent (the cloned root) leaves the clone
unmodified. -/
def replaceAt (st1 : St) (cloned target nodeA : Nat) : St × Nat :=
  let tn := getN st1 target
  match tn.parent with
  | none => (st1, cloned)
  | some p =>
      let nn := getN st1 nodeA
      let st2 := setNode st1 nodeA
        { nn with
          id := tn.id
          line := tn.line
          parent := some p
          children := tn.children }
      let pn := getN st2 p
      let st3 := setNode st2 p
        { pn with
          children := pn.children.map
            (fun x => if (getN st2 x).id = tn.id then nodeA else x) }
      (st3, cloned)

/-- `Node.replace` (part_001 lines 575-593): clone the receiver, find the
first BFS match on the clone; if none, return the clone unchanged;
otherwise substitute via `replaceAt`. -/
def Node.replace (fuel : Nat) (st : St) (a : Nat) (nodeA : Nat)
    (P : NodeObj → Except Unit Bool) : St × Nat :=
  let c := cloneRoot fuel st a
  match Node.find fuel c.1 c.2 P with
  | none => (c.1, c.2)
  | some target => replaceAt c.1 c.2 target nodeA

/-! ## Pure view of heap trees

An `ATree` records which address each node of a well-formed heap tree lives
at, together with the node's scalar fields (`NCore`). `OkT st p t` states
that the heap `st` really contains the tree `t` with parent back-references
pointing at the enclosing node (`p` for the root). All correctness theorems
about the structural operations are phrased through this extraction. -/

/-- The scalar fields of a node: everything except the `parent` and
`children` links. -/
structure NCore where
  type : NodeType
  line : Nat
  data : NData
  collapsed : Bool
  id : Nat
  level : Option Nat
deriving DecidableEq, Repr

/-- Project a node record to its scalar fields. -/
def NodeObj.core (n : NodeObj) : NCore :=
  ⟨n.type, n.line, n.data, n.collapsed, n.id, n.level⟩

/-- Rebuild a node record from scalar fields plus links. -/
def NCore.toObj (c : NCore) (parent : Option Nat) (children : List Nat) :
    NodeObj :=
  ⟨c.type, c.line, c.data, parent, children, c.collapsed, c.id, c.level⟩

/-- A pure addressed tree: the shape one well-formed heap tree extracts to. -/
inductive ATree where
  | mk (addr : Nat) (core : NCore) (children : List ATree)

/-- The address of the root node. -/
def ATree.addr : ATree → Nat
  | .mk a _ _ => a

/-- The scalar fields of the root node. -/
def ATree.core : ATree → NCore
  | .mk _ c _ => c

/-- The child subtrees. -/
def ATree.children : ATree → List ATree
  | .mk _ _ ch => ch

mutual

/-- The heap `st` contains tree `t`, whose root's `parent` field is `p`. -/
def OkT (st : St) (p : Option Nat) : ATree → Prop
  | ATree.mk a c ch =>
      st.nodes a = some (c.toObj p (ch.map ATree.addr)) ∧ OkF st a ch

/-- The heap `st` contains every tree of the forest, with parent `a`. -/
def OkF (st : St) (a : Nat) : List ATree → Prop
  | [] => True
  | t :: ts => OkT st (some a) t ∧ OkF st a ts

end

mutual

/-- Number of nodes of a tree. -/
def sizeT : ATree → Nat
  | ATree.mk _ _ ch => 1 + sizeF ch

/-- Number of nodes of a forest. -/
def sizeF : List ATree → Nat
  | [] => 0
  | t :: ts => sizeT t + sizeF ts

end

mutual

/-- All node addresses of a tree, in depth-first pre-order. -/
def addrsT : ATree → List Nat
  | ATree.mk a _ ch => a :: addrsF ch

/-- All node addresses of a forest, in depth-first pre-order. -/
def addrsF : List ATree → List Nat
  | [] => []
  | t :: ts => addrsT t ++ addrsF ts

end

mutual

/-- All node ids of a tree. -/
def idsT : ATree → List Nat
  | ATree.mk _ c ch => c.id :: idsF ch

/-- All node ids of a forest. -/
def idsF : List ATree → List Nat
  | [] => []
  | t :: ts => idsT t ++ idsF ts

end

mutual

/-- All task-payload addresses referenced by a tree. -/
def taskAddrsT : ATree → List Nat
  | ATree.mk _ c ch =>
      (match c.data with | NData.task ta => [ta] | NData.text _ => []) ++
        taskAddrsF ch

/-- All task-payload addresses referenced by a forest. -/
def taskAddrsF : List ATree → List Nat
  | [] => []
  | t :: ts => taskAddrsT t ++ taskAddrsF ts

end

/-- `sizeF` distributes over append. -/
theorem sizeF_append (xs ys : List ATree) :
    sizeF (xs ++ ys) = sizeF xs + sizeF ys := by
  induction xs with
  | nil => simp [sizeF]
  | cons t ts ih => simp [sizeF, ih]; omega

/-- A tree's size is one plus its children's. -/
theorem sizeT_eq (t : ATree) : sizeT t = 1 + sizeF t.children := by
  cases t; simp [sizeT, ATree.children]

/-- Level-order (BFS) address enumeration of a forest: the pure counterpart
of the BFS queue loops in `find` and `filter`. -/
def bfsF : List ATree → List Nat
  | [] => []
  | t :: rest => t.addr :: bfsF (rest ++ t.children)
termination_by F => sizeF F
decreasing_by
  simp only [sizeF_append, sizeF]
  have h := sizeT_eq t
  omega

/-- First match of a breadth-first search over a forest: the pure counterpart
of `Node.find` for a predicate that never raises. -/
def bfsFindF (q : NCore → Bool) : List ATree → Option ATree
  | [] => none
  | t :: rest => if q t.core then some t else bfsFindF q (rest ++ t.children)
termination_by F => sizeF F
decreasing_by
  simp only [sizeF_append, sizeF]
  have h := sizeT_eq t
  omega

mutual

/-- The pure meaning of filter's bottom-up pruning: prune the subtrees, then
keep a child exactly when it satisfies the predicate or still has a child. -/
def pruneT (q : NCore → Bool) : ATree → ATree
  | ATree.mk a c ch => ATree.mk a c (pruneF q ch)

/-- Prune a forest: prune each tree, keep it when the predicate holds of its
root or a child survived. -/
def pruneF (q : NCore → Bool) : List ATree → List ATree
  | [] => []
  | t :: ts =>
      let u := pruneT q t
      if q u.core || !(u.children.isEmpty) then u :: pruneF q ts
      else pruneF q ts

end

mutual

/-- The line numbers of a tree in depth-first pre-order. -/
def preLinesT : ATree → List Nat
  | ATree.mk _ c ch => c.line :: preLinesF ch

/-- The line numbers of a forest in depth-first pre-order. -/
def preLinesF : List ATree → List Nat
  | [] => []
  | t :: ts => preLinesT t ++ preLinesF ts

end

mutual

/-- Assign consecutive line numbers in depth-first pre-order, starting at
`k`: the pure meaning of filter's renumbering phase. Returns the relabelled
tree and the next unused number. -/
def relabelT (k : Nat) : ATree → ATree × Nat
  | ATree.mk a c ch =>
      let p := relabelF (k + 1) ch
      (ATree.mk a { c with line := k } p.1, p.2)

/-- Relabel a forest in depth-first pre-order starting at `k`. -/
def relabelF (k : Nat) : List ATree → List ATree × Nat
  | [] => ([], k)
  | t :: ts =>
      let p1 := relabelT k t
      let p2 := relabelF p1.2 ts
      (p1.1 :: p2.1, p2.2)

end

/-- `s` occurs as a subtree of `t` (possibly `t` itself). -/
inductive SubT : ATree → ATree → Prop where
  | refl (t : ATree) : SubT t t
  | step {t u s : ATree} (h : u ∈ ATree.children t) (h2 : SubT u s) : SubT t s

/-- Old addresses stay absent above the counter: the well-formed-heap
condition making fresh allocation really fresh. -/
structure WfSt (st : St) : Prop where
  nodesDom : ∀ a, st.nextN ≤ a → st.nodes a = none
  tasksDom : ∀ a, st.nextT ≤ a → st.tasks a = none

/-! ## Basic heap lemmas -/

theorem setNode_nodes_self (st : St) (a : Nat) (n : NodeObj) :
    (setNode st a n).nodes a = some n := by
  simp [setNode]

theorem setNode_nodes_ne (st : St) (a : Nat) (n : NodeObj) (b : Nat)
    (h : b ≠ a) : (setNode st a n).nodes b = st.nodes b := by
  simp [setNode, h]

theorem setNode_tasks (st : St) (a : Nat) (n : NodeObj) :
    (setNode st a n).tasks = st.tasks := rfl

theorem setNode_nextN (st : St) (a : Nat) (n : NodeObj) :
    (setNode st a n).nextN = st.nextN := rfl

theorem setNode_nextT (st : St) (a : Nat) (n : NodeObj) :
    (setNode st a n).nextT = st.nextT := rfl

theorem getN_setNode_self (st : St) (a : Nat) (n : NodeObj) :
    getN (setNode st a n) a = n := by
  simp [getN, setNode]

theorem getN_setNode_ne (st : St) (a : Nat) (n : NodeObj) (b : Nat)
    (h : b ≠ a) : getN (setNode st a n) b = getN st b := by
  simp [getN, setNode, h]

theorem getN_eq_of_nodes (st : St) (a : Nat) (n : NodeObj)
    (h : st.nodes a = some n) : getN st a = n := by
  simp [getN, h]

theorem WfSt.setNodePres (h : WfSt st) (ha : a < st.nextN) (n : NodeObj) :
    WfSt (setNode st a n) := by
  refine ⟨fun b hb => ?_, fun b hb => h.tasksDom b hb⟩
  have hb2 : st.nextN ≤ b := hb
  have hne : b ≠ a := by omega
  rw [setNode_nodes_ne st a n b hne]; exact h.nodesDom b hb2

theorem allocNode_snd (st : St) (n : NodeObj) : (allocNode st n).2 = st.nextN :=
  rfl

theorem allocNode_nextN (st : St) (n : NodeObj) :
    (allocNode st n).1.nextN = st.nextN + 1 := rfl

theorem allocNode_nextT (st : St) (n : NodeObj) :
    (allocNode st n).1.nextT = st.nextT := rfl

theorem allocNode_nodes_self (st : St) (n : NodeObj) :
    (allocNode st n).1.nodes st.nextN = some n := by
  simp [allocNode]

theorem allocNode_nodes_ne (st : St) (n : NodeObj) (b : Nat)
    (h : b ≠ st.nextN) : (allocNode st n).1.nodes b = st.nodes b := by
  simp [allocNode, h]

theorem allocNode_tasks (st : St) (n : NodeObj) :
    (allocNode st n).1.tasks = st.tasks := rfl

theorem WfSt.allocNodePres (h : WfSt st) (n : NodeObj) :
    WfSt (allocNode st n).1 := by
  refine ⟨fun b hb => ?_, fun b hb => h.tasksDom b hb⟩
  have hb2 : st.nextN + 1 ≤ b := hb
  rw [allocNode_nodes_ne st n b (by omega)]
  exact h.nodesDom b (by omega)

theorem allocTask_snd (st : St) (t : TaskObj) : (allocTask st t).2 = st.nextT :=
  rfl

theorem allocTask_nextT (st : St) (t : TaskObj) :
    (allocTask st t).1.nextT = st.nextT + 1 := rfl

theorem allocTask_nextN (st : St) (t : TaskObj) :
    (allocTask st t).1.nextN = st.nextN := rfl

theorem allocTask_tasks_self (st : St) (t : TaskObj) :
    (allocTask st t).1.tasks st.nextT = some t := by
  simp [allocTask]

theorem allocTask_tasks_ne (st : St) (t : TaskObj) (b : Nat)
    (h : b ≠ st.nextT) : (allocTask st t).1.tasks b = st.tasks b := by
  simp [allocTask, h]

theorem allocTask_nodes (st : St) (t : TaskObj) :
    (allocTask st t).1.nodes = st.nodes := rfl

theorem WfSt.allocTaskPres (h : WfSt st) (t : TaskObj) :
    WfSt (allocTask st t).1 := by
  refine ⟨fun b hb => h.nodesDom b hb, fun b hb => ?_⟩
  have hb2 : st.nextT + 1 ≤ b := hb
  rw [allocTask_tasks_ne st t b (by omega)]
  exact h.tasksDom b (by omega)

/-! ## Lemmas about the extraction predicate -/

/-- `OkF` is pointwise `OkT`. -/
theorem OkF_iff (st : St) (a : Nat) (F : List ATree) :
    OkF st a F ↔ ∀ t ∈ F, OkT st (some a) t := by
  induction F with
  | nil => simp [OkF]
  | cons t ts ih => simp [OkF, ih]

mutual

/-- Every address of an extracted tree is a live address. -/
theorem OkT_addr_lt (st : St) (p : Option Nat) (t : ATree) (hwf : WfSt st)
    (h : OkT st p t) : ∀ b ∈ addrsT t, b < st.nextN := by
  cases t with
  | mk a c ch =>
    intro b hb
    simp only [addrsT, List.mem_cons] at hb
    obtain ⟨h1, h2⟩ := h
    rcases hb with hb | hb
    · subst hb
      by_contra hge
      rw [hwf.nodesDom b (by omega)] at h1
      exact Option.noConfusion h1
    · exact OkF_addr_lt st a ch hwf h2 b hb

/-- Every address of an extracted forest is a live address. -/
theorem OkF_addr_lt (st : St) (a : Nat) (F : List ATree) (hwf : WfSt st)
    (h : OkF st a F) : ∀ b ∈ addrsF F, b < st.nextN := by
  cases F with
  | nil => intro b hb; simp [addrsF] at hb
  | cons t ts =>
    intro b hb
    simp only [addrsF, List.mem_append] at hb
    rcases hb with hb | hb
    · exact OkT_addr_lt st (some a) t hwf h.1 b hb
    · exact OkF_addr_lt st a ts hwf h.2 b hb

end

mutual

/-- Extraction only depends on the heap at the tree's own addresses. -/
theorem OkT_mono (st st2 : St) (p : Option Nat) (t : ATree)
    (h : OkT st p t)
    (hsame : ∀ b ∈ addrsT t, st2.nodes b = st.nodes b) : OkT st2 p t := by
  cases t with
  | mk a c ch =>
    obtain ⟨h1, h2⟩ := h
    refine ⟨?_, ?_⟩
    · rw [hsame a (by simp [addrsT])]; exact h1
    · exact OkF_mono st st2 a ch h2
        (fun b hb => hsame b (by simp [addrsT]; right; exact hb))

/-- Forest version of `OkT_mono`. -/
theorem OkF_mono (st st2 : St) (a : Nat) (F : List ATree)
    (h : OkF st a F)
    (hsame : ∀ b ∈ addrsF F, st2.nodes b = st.nodes b) : OkF st2 a F := by
  cases F with
  | nil => trivial
  | cons t ts =>
    refine ⟨?_, ?_⟩
    · exact OkT_mono st st2 (some a) t h.1
        (fun b hb => hsame b (by simp [addrsF]; left; exact hb))
    · exact OkF_mono st st2 a ts h.2
        (fun b hb => hsame b (by simp [addrsF]; right; exact hb))

end

/-! ## Correctness of the module clone helper -/

/-- How a payload is copied by `Node.clone`: strings by value; a Task
payload moves to a fresh task address holding the same task value. `stOld`
is the heap before cloning, `stNew` after. -/
def DClone (stOld stNew : St) : NData → NData → Prop
  | NData.text s, NData.text s2 => s2 = s
  | NData.task ta, NData.task ta2 =>
      stNew.tasks ta2 = some (getT stOld ta) ∧
      stOld.nextT ≤ ta2 ∧ ta2 < stNew.nextT
  | _, _ => False

/-- `DClone` survives further heap growth on the new side. -/
theorem DClone_weakenNew (stO stN stN2 : St) (d d2 : NData)
    (h : DClone stO stN d d2)
    (hpres : ∀ b, b < stN.nextT → stN2.tasks b = stN.tasks b)
    (hle : stN.nextT ≤ stN2.nextT) : DClone stO stN2 d d2 := by
  cases d with
  | task ta =>
    cases d2 with
    | task ta2 =>
      obtain ⟨h1, h2, h3⟩ := h
      exact ⟨by rw [hpres ta2 h3]; exact h1, h2, by omega⟩
    | text s2 => exact h.elim
  | text s =>
    cases d2 with
    | task ta2 => exact h.elim
    | text s2 => exact h

/-- `DClone` weakens to an earlier old heap that agrees on the live task
addresses. -/
theorem DClone_weakenOld (stO stO2 stN : St) (d d2 : NData)
    (h : DClone stO2 stN d d2)
    (htask : ∀ ta, d = NData.task ta → ta < stO.nextT)
    (hpres : ∀ b, b < stO.nextT → stO2.tasks b = stO.tasks b)
    (hle : stO.nextT ≤ stO2.nextT) : DClone stO stN d d2 := by
  cases d with
  | task ta =>
    cases d2 with
    | task ta2 =>
      obtain ⟨h1, h2, h3⟩ := h
      have hlt : ta < stO.nextT := htask ta rfl
      refine ⟨?_, by omega, h3⟩
      rw [h1]
      have : getT stO2 ta = getT stO ta := by
        simp [getT, hpres ta hlt]
      rw [this]
    | text s2 => exact h.elim
  | text s =>
    cases d2 with
    | task ta2 => exact h.elim
    | text s2 => exact h

mutual

/-- The clone relation between an original tree and its deep clone: the
addresses are new, the scalar fields coincide, the payload is copied per
`DClone`, and children correspond pairwise in order. -/
def CRel (stOld stNew : St) : ATree → ATree → Prop
  | ATree.mk _ c ch, ATree.mk _ c2 ch2 =>
      c2.type = c.type ∧ c2.line = c.line ∧ c2.collapsed = c.collapsed ∧
      c2.id = c.id ∧ c2.level = c.level ∧
      DClone stOld stNew c.data c2.data ∧
      CRelF stOld stNew ch ch2

/-- Pairwise clone relation between forests. -/
def CRelF (stOld stNew : St) : List ATree → List ATree → Prop
  | [], [] => True
  | t :: ts, u :: us => CRel stOld stNew t u ∧ CRelF stOld stNew ts us
  | _, _ => False

end

mutual

/-- `CRel` weakens on both sides: to an earlier old heap agreeing below its
task counter, and to a later new heap preserving the clone's task cells. -/
theorem CRel_weaken (stO stO2 stN stN2 : St) (t t2 : ATree)
    (h : CRel stO2 stN t t2)
    (htask : ∀ b ∈ taskAddrsT t, b < stO.nextT)
    (hpresO : ∀ b, b < stO.nextT → stO2.tasks b = stO.tasks b)
    (hleO : stO.nextT ≤ stO2.nextT)
    (hpresN : ∀ b, b < stN.nextT → stN2.tasks b = stN.tasks b)
    (hleN : stN.nextT ≤ stN2.nextT) : CRel stO stN2 t t2 := by
  cases t with
  | mk a c ch =>
  cases t2 with
  | mk a2 c2 ch2 =>
    obtain ⟨e1, e2, e3, e4, e5, hd, hch⟩ := h
    refine ⟨e1, e2, e3, e4, e5, ?_, ?_⟩
    · refine DClone_weakenNew stO stN stN2 _ _
        (DClone_weakenOld stO stO2 stN _ _ hd ?_ hpresO hleO) hpresN hleN
      intro ta hta
      exact htask ta (by simp [taskAddrsT, hta])
    · refine CRelF_weaken stO stO2 stN stN2 ch ch2 hch ?_ hpresO hleO hpresN hleN
      intro b hb
      exact htask b (by simp [taskAddrsT]; right; exact hb)

/-- Forest version of `CRel_weaken`. -/
theorem CRelF_weaken (stO stO2 stN stN2 : St) (F F2 : List ATree)
    (h : CRelF stO2 stN F F2)
    (htask : ∀ b ∈ taskAddrsF F, b < stO.nextT)
    (hpresO : ∀ b, b < stO.nextT → stO2.tasks b = stO.tasks b)
    (hleO : stO.nextT ≤ stO2.nextT)
    (hpresN : ∀ b, b < stN.nextT → stN2.tasks b = stN.tasks b)
    (hleN : stN.nextT ≤ stN2.nextT) : CRelF stO stN2 F F2 := by
  cases F with
  | nil =>
    cases F2 with
    | nil => trivial
    | cons u us => exact h.elim
  | cons t ts =>
    cases F2 with
    | nil => exact h.elim
    | cons u us =>
      refine ⟨?_, ?_⟩
      · refine CRel_weaken stO stO2 stN stN2 t u h.1 ?_ hpresO hleO hpresN hleN
        intro b hb
        exact htask b (by simp [taskAddrsF]; left; exact hb)
      · refine CRelF_weaken stO stO2 stN stN2 ts us h.2 ?_ hpresO hleO hpresN hleN
        intro b hb
        exact htask b (by simp [taskAddrsF]; right; exact hb)

end

/-- A forest of size zero is empty. -/
theorem sizeF_le_zero (F : List ATree) (h : sizeF F ≤ 0) : F = [] := by
  cases F with
  | nil => rfl
  | cons t ts =>
    exfalso
    have h1 := sizeT_eq t
    simp [sizeF] at h
    omega

/-- An address of a member tree is an address of the forest. -/
theorem mem_addrsF (F : List ATree) (u : ATree) (b : Nat)
    (hu : u ∈ F) (hb : b ∈ addrsT u) : b ∈ addrsF F := by
  induction F with
  | nil => simp at hu
  | cons t ts ih =>
    simp only [List.mem_cons] at hu
    simp only [addrsF, List.mem_append]
    rcases hu with hu | hu
    · subst hu; exact Or.inl hb
    · exact Or.inr (ih hu)

/-- What `Node.clone` does to one node, given its record: the fresh node at
the old `nextN` carries the same record up to payload copying. -/
theorem cloneMethod_spec (st : St) (a : Nat) (rec : NodeObj)
    (hwf : WfSt st) (hrec : st.nodes a = some rec)
    (htask : ∀ ta, rec.data = NData.task ta → ta < st.nextT) :
    (cloneMethod st a).2 = st.nextN ∧
    ∃ d2 : NData,
      (cloneMethod st a).1.nodes st.nextN = some { rec with data := d2 } ∧
      (cloneMethod st a).1.nextN = st.nextN + 1 ∧
      st.nextT ≤ (cloneMethod st a).1.nextT ∧
      (∀ b, b ≠ st.nextN → (cloneMethod st a).1.nodes b = st.nodes b) ∧
      (∀ b, b < st.nextT → (cloneMethod st a).1.tasks b = st.tasks b) ∧
      WfSt (cloneMethod st a).1 ∧
      DClone st (cloneMethod st a).1 rec.data d2 := by
  have hget : getN st a = rec := getN_eq_of_nodes st a rec hrec
  rcases hdata : rec.data with ta | s
  · -- Task payload: allocate a fresh task, then the fresh node.
    have hme : cloneMethod st a =
        allocNode (allocTask st (getT st ta)).1
          { rec with data := NData.task (allocTask st (getT st ta)).2 } := by
      simp [cloneMethod, hget, hdata]
    rw [hme]
    refine ⟨rfl, NData.task st.nextT, ?_, rfl, ?_, ?_, ?_, ?_, ?_⟩
    · rw [allocTask_snd]
      have : (allocTask st (getT st ta)).1.nextN = st.nextN := rfl
      rw [← this]
      exact allocNode_nodes_self _ _
    · rw [allocNode_nextT, allocTask_nextT]; omega
    · intro b hb
      rw [allocNode_nodes_ne _ _ b (by rw [allocTask_nextN]; exact hb)]
      rfl
    · intro b hb
      rw [show ((allocNode (allocTask st (getT st ta)).1
          { rec with data := NData.task (allocTask st (getT st ta)).2 }).1.tasks) =
          (allocTask st (getT st ta)).1.tasks from rfl]
      exact allocTask_tasks_ne st _ b (by omega)
    · exact (hwf.allocTaskPres _).allocNodePres _
    · refine ⟨?_, le_refl _, ?_⟩
      · rw [show ((allocNode (allocTask st (getT st ta)).1
            { rec with data := NData.task (allocTask st (getT st ta)).2 }).1.tasks) =
            (allocTask st (getT st ta)).1.tasks from rfl]
        exact allocTask_tasks_self st _
      · rw [allocNode_nextT, allocTask_nextT]; omega
  · -- String payload: copied by value.
    have hme : cloneMethod st a = allocNode st rec := by
      simp [cloneMethod, hget, hdata]
    rw [hme]
    refine ⟨rfl, NData.text s, ?_, rfl, le_refl _, ?_, ?_, ?_, ?_⟩
    · rw [show ({ rec with data := NData.text s }) = rec by rw [← hdata]]
      exact allocNode_nodes_self st rec
    · intro b hb; exact allocNode_nodes_ne st rec b hb
    · intro b _; rw [allocNode_tasks]
    · exact hwf.allocNodePres rec
    · rfl

/-- Unfolding of `OkT` at a constructor. -/
theorem OkT_def (st : St) (p : Option Nat) (a : Nat) (c : NCore)
    (ch : List ATree) :
    OkT st p (ATree.mk a c ch) ↔
      (st.nodes a = some (c.toObj p (ch.map ATree.addr)) ∧ OkF st a ch) :=
  Iff.rfl

/-- Unfolding of `CRel` at constructors. -/
theorem CRel_def (stO stN : St) (a : Nat) (c : NCore) (ch : List ATree)
    (a2 : Nat) (c2 : NCore) (ch2 : List ATree) :
    CRel stO stN (ATree.mk a c ch) (ATree.mk a2 c2 ch2) ↔
      (c2.type = c.type ∧ c2.line = c.line ∧ c2.collapsed = c.collapsed ∧
       c2.id = c.id ∧ c2.level = c.level ∧
       DClone stO stN c.data c2.data ∧ CRelF stO stN ch ch2) :=
  Iff.rfl

/-- Unfolding of `CRelF` at cons. -/
theorem CRelF_cons_iff (stO stN : St) (t u : ATree) (ts us : List ATree) :
    CRelF stO stN (t :: ts) (u :: us) ↔
      (CRel stO stN t u ∧ CRelF stO stN ts us) :=
  Iff.rfl

/-- The step equation of `cloneList` on a nonempty list. -/
theorem cloneList_cons_eq (fuel : Nat) (st : St) (a : Nat) (rest : List Nat)
    (par : Option Nat) :
    cloneList (fuel + 1) st (a :: rest) par =
      (let p1 := cloneMethod st a
       let st1 := setNode p1.1 p1.2 { getN p1.1 p1.2 with parent := par }
       let p2 := cloneList fuel st1 (getN st1 p1.2).children (some p1.2)
       let st2 := setNode p2.1 p1.2 { getN p2.1 p1.2 with children := p2.2 }
       let p3 := cloneList fuel st2 rest par
       (p3.1, p1.2 :: p3.2)) :=
  rfl

/-- Everything the module `clone` helper guarantees about its output: the
returned addresses extract to a forest `F2` at fresh, distinct addresses;
the original heap below the old counters is untouched; the copies are
well-formed with parents rebuilt to `par`; and `F2` is the clone of the
input forest. -/
structure CloneConcl (st : St) (F : List ATree) (par : Option Nat)
    (st2 : St) (bs : List Nat) (F2 : List ATree) : Prop where
  addrs_eq : bs = F2.map ATree.addr
  wf : WfSt st2
  nextN_le : st.nextN ≤ st2.nextN
  nextT_le : st.nextT ≤ st2.nextT
  nodes_pres : ∀ b, b < st.nextN → st2.nodes b = st.nodes b
  tasks_pres : ∀ b, b < st.nextT → st2.tasks b = st.tasks b
  ok : ∀ t ∈ F2, OkT st2 par t
  fresh : ∀ b ∈ addrsF F2, st.nextN ≤ b ∧ b < st2.nextN
  nodup : (addrsF F2).Nodup
  rel : CRelF st st2 F F2

/-- `taskAddrsF` unfolds on cons. -/
theorem taskAddrsF_cons (t : ATree) (ts : List ATree) :
    taskAddrsF (t :: ts) = taskAddrsT t ++ taskAddrsF ts := rfl

/-- A task address of the children forest is one of the tree. -/
theorem mem_taskAddrsT_of_child (a : Nat) (c : NCore) (ch : List ATree)
    (x : Nat) (hx : x ∈ taskAddrsF ch) : x ∈ taskAddrsT (ATree.mk a c ch) := by
  have h : taskAddrsT (ATree.mk a c ch) =
      (match c.data with
       | NData.task ta => [ta]
       | NData.text _ => []) ++ taskAddrsF ch := rfl
  rw [h]
  exact List.mem_append_right _ hx

/-- Correctness of the module `clone` helper (part_001 lines 659-666) over an
extracted forest: the clone lives at fresh distinct addresses, leaves the
original heap untouched, is well-formed with parents rebuilt to `par`, and
stands in the clone relation to the source. -/
theorem cloneList_spec (fuel : Nat) :
    ∀ (st : St) (F : List ATree) (q par : Option Nat),
    WfSt st → (∀ t ∈ F, OkT st q t) →
    (∀ b ∈ taskAddrsF F, b < st.nextT) →
    sizeF F ≤ fuel →
    ∃ F2, CloneConcl st F par (cloneList fuel st (F.map ATree.addr) par).1
      (cloneList fuel st (F.map ATree.addr) par).2 F2 := by
  induction fuel with
  | zero =>
    intro st F q par hwf hok htask hsz
    have hF : F = [] := sizeF_le_zero F hsz
    subst hF
    exact ⟨[], rfl, hwf, le_refl _, le_refl _, fun b _ => rfl, fun b _ => rfl,
      by simp, by simp [addrsF], by simp [addrsF], trivial⟩
  | succ fuel ih =>
    intro st F q par hwf hok htask hsz
    cases F with
    | nil =>
      exact ⟨[], rfl, hwf, le_refl _, le_refl _, fun b _ => rfl, fun b _ => rfl,
        by simp, by simp [addrsF], by simp [addrsF], trivial⟩
    | cons t ts =>
      cases t with
      | mk a c ch =>
      obtain ⟨hrec, hchF⟩ := (OkT_def st q a c ch).1 (hok _ (by simp))
      obtain ⟨hsnd, d2, hnodesB, hnextN1, hnextT1, hpresN1, hpresT1, hwfm, hdc⟩ :=
        cloneMethod_spec st a (c.toObj q (ch.map ATree.addr)) hwf hrec
          (fun ta hta => htask ta (by
            have hcd : c.data = NData.task ta := hta
            simp [taskAddrsF, taskAddrsT, hcd]))
      simp only [sizeF, sizeT] at hsz
      rw [List.map_cons, show ATree.addr (ATree.mk a c ch) = a from rfl,
        cloneList_cons_eq]
      dsimp only
      set bb := (cloneMethod st a).2 with hbbdef
      set stm := (cloneMethod st a).1 with hstmdef
      set st1 := setNode stm bb { getN stm bb with parent := par } with hst1def
      set c2 : NCore := ⟨c.type, c.line, d2, c.collapsed, c.id, c.level⟩
        with hc2def
      have hgetm : getN stm bb =
          { c.toObj q (ch.map ATree.addr) with data := d2 } := by
        rw [hsnd]
        exact getN_eq_of_nodes _ _ _ hnodesB
      have hst1bb : st1.nodes bb = some (c2.toObj par (ch.map ATree.addr)) := by
        rw [hst1def]
        rw [show ({ getN stm bb with parent := par } : NodeObj) =
          c2.toObj par (ch.map ATree.addr) from by rw [hgetm]; rfl]
        exact setNode_nodes_self _ _ _
      have hst1N : st1.nextN = st.nextN + 1 := by
        rw [hst1def, setNode_nextN, hnextN1]
      have hst1T : st1.nextT = stm.nextT := by rw [hst1def, setNode_nextT]
      have hgch : (getN st1 bb).children = ch.map ATree.addr := by
        rw [getN_eq_of_nodes st1 bb _ hst1bb]
        rfl
      rw [hgch]
      set st3p := cloneList fuel st1 (ch.map ATree.addr) (some bb) with hst3pdef
      have hwf1 : WfSt st1 := by
        rw [hst1def]
        exact hwfm.setNodePres (by omega) _
      have hchOkst1 : ∀ u ∈ ch, OkT st1 (some a) u := by
        intro u hu
        have hu0 : OkT st (some a) u := (OkF_iff st a ch).1 hchF u hu
        refine OkT_mono st st1 (some a) u hu0 ?_
        intro x hx
        have hxlt : x < st.nextN := OkT_addr_lt st (some a) u hwf hu0 x hx
        rw [hst1def, setNode_nodes_ne _ _ _ x (by omega)]
        exact hpresN1 x (by omega)
      have htask1 : ∀ x ∈ taskAddrsF ch, x < st1.nextT := by
        intro x hx
        have hxl : x < st.nextT := htask x (by
          rw [taskAddrsF_cons]
          exact List.mem_append_left _ (mem_taskAddrsT_of_child a c ch x hx))
        omega
      obtain ⟨F2ch, co1⟩ := ih st1 ch (some a) (some bb) hwf1 hchOkst1 htask1
        (by omega)
      rw [← hst3pdef] at co1
      have hle1N := co1.nextN_le
      have hle1T := co1.nextT_le
      set st4 := setNode st3p.1 bb { getN st3p.1 bb with children := st3p.2 }
        with hst4def
      have hst3bb : st3p.1.nodes bb = some (c2.toObj par (ch.map ATree.addr)) := by
        rw [co1.nodes_pres bb (by omega)]
        exact hst1bb
      have hrecQ : ({ getN st3p.1 bb with children := st3p.2 } : NodeObj) =
          c2.toObj par (F2ch.map ATree.addr) := by
        rw [getN_eq_of_nodes _ _ _ hst3bb, co1.addrs_eq]
        rfl
      have hst4bb : st4.nodes bb = some (c2.toObj par (F2ch.map ATree.addr)) := by
        rw [hst4def, hrecQ]
        exact setNode_nodes_self _ _ _
      have hst4N : st4.nextN = st3p.1.nextN := by rw [hst4def, setNode_nextN]
      have hst4T : st4.nextT = st3p.1.nextT := by rw [hst4def, setNode_nextT]
      have hwf4 : WfSt st4 := by
        rw [hst4def]
        exact co1.wf.setNodePres (by omega) _
      have hok4 : ∀ u ∈ ts, OkT st4 q u := by
        intro u hu
        have hu0 : OkT st q u := hok u (by simp [hu])
        refine OkT_mono st st4 q u hu0 ?_
        intro x hx
        have hxlt : x < st.nextN := OkT_addr_lt st q u hwf hu0 x hx
        rw [hst4def, setNode_nodes_ne _ _ _ x (by omega)]
        rw [co1.nodes_pres x (by omega)]
        rw [hst1def, setNode_nodes_ne _ _ _ x (by omega)]
        exact hpresN1 x (by omega)
      have htask4 : ∀ x ∈ taskAddrsF ts, x < st4.nextT := by
        intro x hx
        have hxl : x < st.nextT := htask x (by
          rw [taskAddrsF_cons]
          exact List.mem_append_right _ hx)
        omega
      obtain ⟨F2ts, co2⟩ := ih st4 ts q par hwf4 hok4 htask4 (by omega)
      set st5p := cloneList fuel st4 (ts.map ATree.addr) par with hst5pdef
      have hle2N := co2.nextN_le
      have hle2T := co2.nextT_le
      refine ⟨ATree.mk bb c2 F2ch :: F2ts, ?_, co2.wf, by omega, by omega,
        ?_, ?_, ?_, ?_, ?_, ?_⟩
      · rw [co2.addrs_eq]
        simp [ATree.addr]
      · intro x hx
        rw [co2.nodes_pres x (by omega)]
        rw [hst4def, setNode_nodes_ne _ _ _ x (by omega)]
        rw [co1.nodes_pres x (by omega)]
        rw [hst1def, setNode_nodes_ne _ _ _ x (by omega)]
        exact hpresN1 x (by omega)
      · intro x hx
        rw [co2.tasks_pres x (by omega)]
        rw [hst4def, setNode_tasks]
        rw [co1.tasks_pres x (by omega)]
        rw [hst1def, setNode_tasks]
        exact hpresT1 x hx
      · intro u hu
        rcases List.mem_cons.1 hu with hu | hu
        · subst hu
          refine (OkT_def _ _ _ _ _).2 ⟨?_, ?_⟩
          · rw [co2.nodes_pres bb (by omega)]
            exact hst4bb
          · refine (OkF_iff _ _ _).2 ?_
            intro u2 hu2
            have h3 : OkT st3p.1 (some bb) u2 := co1.ok u2 hu2
            refine OkT_mono _ _ _ _ h3 ?_
            intro x hx
            have hxr := co1.fresh x (mem_addrsF F2ch u2 x hu2 hx)
            rw [co2.nodes_pres x (by omega)]
            rw [hst4def, setNode_nodes_ne _ _ _ x (by omega)]
        · exact co2.ok u hu
      · intro x hx
        have hx2 : x = bb ∨ x ∈ addrsF F2ch ∨ x ∈ addrsF F2ts := by
          have h : addrsF (ATree.mk bb c2 F2ch :: F2ts) =
              (bb :: addrsF F2ch) ++ addrsF F2ts := rfl
          rw [h] at hx
          simpa using hx
        rcases hx2 with hx2 | hx2 | hx2
        · subst hx2; omega
        · have := co1.fresh x hx2; omega
        · have := co2.fresh x hx2; omega
      · have h : addrsF (ATree.mk bb c2 F2ch :: F2ts) =
            (bb :: addrsF F2ch) ++ addrsF F2ts := rfl
        rw [h, List.cons_append]
        refine List.nodup_cons.2 ⟨?_, ?_⟩
        · intro hmem
          rcases List.mem_append.1 hmem with hm | hm
          · have := co1.fresh _ hm; omega
          · have := co2.fresh _ hm; omega
        · refine List.Nodup.append co1.nodup co2.nodup ?_
          intro x hx1 hx2
          have h1 := co1.fresh x hx1
          have h2 := co2.fresh x hx2
          omega
      · refine (CRelF_cons_iff _ _ _ _ _ _).2 ⟨?_, ?_⟩
        · refine (CRel_def _ _ _ _ _ _ _ _).2 ⟨rfl, rfl, rfl, rfl, rfl, ?_, ?_⟩
          · refine DClone_weakenNew st stm st5p.1 _ _ hdc ?_ (by omega)
            intro x hxl
            rw [co2.tasks_pres x (by omega)]
            rw [hst4def, setNode_tasks]
            rw [co1.tasks_pres x (by omega)]
            rw [hst1def, setNode_tasks]
          · refine CRelF_weaken st st1 st3p.1 st5p.1 ch F2ch co1.rel ?_ ?_
              (by omega) ?_ (by omega)
            · intro x hx
              exact htask x (by
                rw [taskAddrsF_cons]
                exact List.mem_append_left _ (mem_taskAddrsT_of_child a c ch x hx))
            · intro x hxl
              rw [hst1def, setNode_tasks]
              exact hpresT1 x hxl
            · intro x hxl
              rw [co2.tasks_pres x (by omega)]
              rw [hst4def, setNode_tasks]
        · refine CRelF_weaken st st4 st5p.1 st5p.1 ts F2ts co2.rel ?_ ?_
            (by omega) (fun x _ => rfl) (le_refl _)
          · intro x hx
            exact htask x (by
              rw [taskAddrsF_cons]
              exact List.mem_append_right _ hx)
          · intro x hxl
            rw [hst4def, setNode_tasks]
            rw [co1.tasks_pres x (by omega)]
            rw [hst1def, setNode_tasks]
            exact hpresT1 x hxl

/-- `addrsF` of a singleton forest. -/
theorem addrsF_single (t : ATree) : addrsF [t] = addrsT t := by
  simp [addrsF]

/-- Correctness of `const [cloned] = clone([this])`: the returned address
roots a fresh, well-formed deep copy of the receiver whose root parent is
cleared, and the pre-existing heap is untouched. -/
theorem cloneRoot_spec (fuel : Nat) (st : St) (t : ATree) (q : Option Nat)
    (hwf : WfSt st) (hok : OkT st q t)
    (htask : ∀ b ∈ taskAddrsT t, b < st.nextT) (hsz : sizeT t ≤ fuel) :
    ∃ u : ATree,
      (cloneRoot fuel st t.addr).2 = u.addr ∧
      WfSt (cloneRoot fuel st t.addr).1 ∧
      st.nextN ≤ (cloneRoot fuel st t.addr).1.nextN ∧
      st.nextT ≤ (cloneRoot fuel st t.addr).1.nextT ∧
      (∀ b, b < st.nextN →
        (cloneRoot fuel st t.addr).1.nodes b = st.nodes b) ∧
      (∀ b, b < st.nextT →
        (cloneRoot fuel st t.addr).1.tasks b = st.tasks b) ∧
      OkT (cloneRoot fuel st t.addr).1 none u ∧
      (∀ b ∈ addrsT u,
        st.nextN ≤ b ∧ b < (cloneRoot fuel st t.addr).1.nextN) ∧
      (addrsT u).Nodup ∧
      CRel st (cloneRoot fuel st t.addr).1 t u := by
  have hmap : [t.addr] = [t].map ATree.addr := by simp
  have hok1 : ∀ u ∈ ([t] : List ATree), OkT st q u := by
    intro u hu
    rcases List.mem_singleton.1 hu with h
    subst h; exact hok
  have htask1 : ∀ b ∈ taskAddrsF [t], b < st.nextT := by
    intro b hb
    rw [taskAddrsF_cons] at hb
    rcases List.mem_append.1 hb with hb | hb
    · exact htask b hb
    · simp [taskAddrsF] at hb
  have hsz1 : sizeF [t] ≤ fuel := by
    have h : sizeF [t] = sizeT t := by simp [sizeF]
    omega
  obtain ⟨F2, co⟩ := cloneList_spec fuel st [t] q none hwf hok1 htask1 hsz1
  cases F2 with
  | nil => exact absurd co.rel (by cases t; exact fun h => h.elim)
  | cons u us =>
    cases us with
    | cons u2 us2 =>
      exfalso
      have h := co.rel
      rcases t with ⟨a0, c0, ch0⟩
      exact h.2.elim
    | nil =>
      refine ⟨u, ?_, ?_, ?_, ?_, ?_, ?_, ?_, ?_, ?_, ?_⟩
      · show (cloneList fuel st [t.addr] none).2.headD 0 = u.addr
        rw [hmap, co.addrs_eq]
        rfl
      · show WfSt (cloneList fuel st [t.addr] none).1
        rw [hmap]; exact co.wf
      · show st.nextN ≤ (cloneList fuel st [t.addr] none).1.nextN
        rw [hmap]; exact co.nextN_le
      · show st.nextT ≤ (cloneList fuel st [t.addr] none).1.nextT
        rw [hmap]; exact co.nextT_le
      · show ∀ b, b < st.nextN →
          (cloneList fuel st [t.addr] none).1.nodes b = st.nodes b
        rw [hmap]; exact co.nodes_pres
      · show ∀ b, b < st.nextT →
          (cloneList fuel st [t.addr] none).1.tasks b = st.tasks b
        rw [hmap]; exact co.tasks_pres
      · show OkT (cloneList fuel st [t.addr] none).1 none u
        rw [hmap]; exact co.ok u (by simp)
      · show ∀ b ∈ addrsT u,
          st.nextN ≤ b ∧ b < (cloneList fuel st [t.addr] none).1.nextN
        rw [hmap]
        intro b hb
        exact co.fresh b (by rw [addrsF_single]; exact hb)
      · have h := co.nodup
        rw [addrsF_single] at h
        exact h
      · show CRel st (cloneList fuel st [t.addr] none).1 t u
        rw [hmap]
        rcases t with ⟨a0, c0, ch0⟩
        exact co.rel.1

/-- Overwrite the task record at an address (a JavaScript mutation of a Task
object's fields, e.g. by `trackingStop`). -/
def setTask (st : St) (a : Nat) (t : TaskObj) : St :=
  { st with tasks := fun x => if x = a then some t else st.tasks x }

theorem setTask_tasks_ne (st : St) (a : Nat) (t : TaskObj) (b : Nat)
    (h : b ≠ a) : (setTask st a t).tasks b = st.tasks b := by
  simp [setTask, h]

mutual

/-- Task addresses of a clone sit at or above the old task counter. -/
theorem CRel_taskAddrs_ge (stO stN : St) (t u : ATree)
    (h : CRel stO stN t u) : ∀ b ∈ taskAddrsT u, stO.nextT ≤ b := by
  cases t with
  | mk a c ch =>
  cases u with
  | mk a2 c2 ch2 =>
    intro b hb
    obtain ⟨e1, e2, e3, e4, e5, hd, hch⟩ := h
    have hsplit : taskAddrsT (ATree.mk a2 c2 ch2) =
        (match c2.data with
         | NData.task ta => [ta]
         | NData.text _ => []) ++ taskAddrsF ch2 := rfl
    rw [hsplit] at hb
    rcases List.mem_append.1 hb with hb | hb
    · rcases hd2 : c2.data with ta2 | s2
      · rw [hd2] at hb
        rcases hd1 : c.data with ta | s
        · rw [hd1, hd2] at hd
          rcases List.mem_singleton.1 hb with h
          subst h
          exact hd.2.1
        · rw [hd1, hd2] at hd
          exact hd.elim
      · rw [hd2] at hb
        simp at hb
    · exact CRelF_taskAddrs_ge stO stN ch ch2 hch b hb

/-- Forest version of `CRel_taskAddrs_ge`. -/
theorem CRelF_taskAddrs_ge (stO stN : St) (F F2 : List ATree)
    (h : CRelF stO stN F F2) : ∀ b ∈ taskAddrsF F2, stO.nextT ≤ b := by
  cases F with
  | nil =>
    cases F2 with
    | nil => intro b hb; simp [taskAddrsF] at hb
    | cons u us => exact h.elim
  | cons t ts =>
    cases F2 with
    | nil => exact h.elim
    | cons u us =>
      intro b hb
      rw [taskAddrsF_cons] at hb
      rcases List.mem_append.1 hb with hb | hb
      · exact CRel_taskAddrs_ge stO stN t u h.1 b hb
      · exact CRelF_taskAddrs_ge stO stN ts us h.2 b hb

end

mutual

/-- In an extracted tree, every node's parent field is the root's parent or
another address of the tree. -/
theorem OkT_parent_in (st : St) (p : Option Nat) (t : ATree)
    (h : OkT st p t) :
    ∀ x ∈ addrsT t, (getN st x).parent = p ∨
      ∃ pp ∈ addrsT t, (getN st x).parent = some pp := by
  cases t with
  | mk a c ch =>
    intro x hx
    obtain ⟨h1, h2⟩ := h
    rcases List.mem_cons.1 hx with hx | hx
    · subst hx
      left
      rw [getN_eq_of_nodes _ _ _ h1]
      rfl
    · have h3 := OkF_parent_in st a ch h2 x hx
      rcases h3 with h3 | ⟨pp, hpp, h3⟩
      · right
        exact ⟨a, by simp [addrsT], h3⟩
      · right
        exact ⟨pp, by simp [addrsT]; right; exact hpp, h3⟩

/-- Forest version of `OkT_parent_in`: the parent field of every node is the
forest's common parent or an address inside the forest. -/
theorem OkF_parent_in (st : St) (a : Nat) (F : List ATree)
    (h : OkF st a F) :
    ∀ x ∈ addrsF F, (getN st x).parent = some a ∨
      ∃ pp ∈ addrsF F, (getN st x).parent = some pp := by
  cases F with
  | nil => intro x hx; simp [addrsF] at hx
  | cons t ts =>
    intro x hx
    rw [show addrsF (t :: ts) = addrsT t ++ addrsF ts from rfl] at hx
    rcases List.mem_append.1 hx with hx | hx
    · have h3 := OkT_parent_in st (some a) t h.1 x hx
      rcases h3 with h3 | ⟨pp, hpp, h3⟩
      · exact Or.inl h3
      · right
        refine ⟨pp, ?_, h3⟩
        rw [show addrsF (t :: ts) = addrsT t ++ addrsF ts from rfl]
        exact List.mem_append_left _ hpp
    · have h3 := OkF_parent_in st a ts h.2 x hx
      rcases h3 with h3 | ⟨pp, hpp, h3⟩
      · exact Or.inl h3
      · right
        refine ⟨pp, ?_, h3⟩
        rw [show addrsF (t :: ts) = addrsT t ++ addrsF ts from rfl]
        exact List.mem_append_right _ hpp

end

/-! ## Claim C2: deep cloning -/

/-- C2 (amended): the module-level `clone` helper (part_001 lines 659-666) —
the deep clone that `append`, `filter` and `replace` actually apply to the
receiver — is deep: the copy's node addresses and task-payload addresses are
disjoint from the original's, parent back-references in the copy point only
into the copy, the original tree's nodes and task payloads are unchanged,
and overwriting any node or task object of the copy still leaves every node
and task payload of the original unchanged. -/
theorem C2_cloneDeep (fuel : Nat) (st : St) (t : ATree) (q : Option Nat)
    (hwf : WfSt st) (hok : OkT st q t)
    (htask : ∀ b ∈ taskAddrsT t, b < st.nextT) (hsz : sizeT t ≤ fuel) :
    ∃ u : ATree,
      (cloneRoot fuel st t.addr).2 = u.addr ∧
      OkT (cloneRoot fuel st t.addr).1 none u ∧
      CRel st (cloneRoot fuel st t.addr).1 t u ∧
      (∀ b ∈ addrsT u, b ∉ addrsT t) ∧
      (∀ b ∈ taskAddrsT u, b ∉ taskAddrsT t) ∧
      (∀ x ∈ addrsT u, (getN (cloneRoot fuel st t.addr).1 x).parent = none ∨
        ∃ pp ∈ addrsT u, (getN (cloneRoot fuel st t.addr).1 x).parent = some pp) ∧
      (∀ b ∈ addrsT t, (cloneRoot fuel st t.addr).1.nodes b = st.nodes b) ∧
      (∀ b ∈ taskAddrsT t, (cloneRoot fuel st t.addr).1.tasks b = st.tasks b) ∧
      (∀ x ∈ addrsT u, ∀ n : NodeObj, ∀ b ∈ addrsT t,
        (setNode (cloneRoot fuel st t.addr).1 x n).nodes b = st.nodes b) ∧
      (∀ x ∈ taskAddrsT u, ∀ tk : TaskObj, ∀ b ∈ taskAddrsT t,
        (setTask (cloneRoot fuel st t.addr).1 x tk).tasks b = st.tasks b) := by
  obtain ⟨u, haddr, hwf2, hN, hT, hpresN, hpresT, hok2, hfresh, hnodup, hrel⟩ :=
    cloneRoot_spec fuel st t q hwf hok htask hsz
  have haddrT : ∀ b ∈ addrsT t, b < st.nextN :=
    OkT_addr_lt st q t hwf hok
  have htasku : ∀ b ∈ taskAddrsT u, st.nextT ≤ b :=
    CRel_taskAddrs_ge st _ t u hrel
  refine ⟨u, haddr, hok2, hrel, ?_, ?_, ?_, ?_, ?_, ?_, ?_⟩
  · intro b hb hbt
    have h1 := hfresh b hb
    have h2 := haddrT b hbt
    omega
  · intro b hb hbt
    have h1 := htasku b hb
    have h2 := htask b hbt
    omega
  · exact OkT_parent_in _ none u hok2
  · intro b hb
    exact hpresN b (haddrT b hb)
  · intro b hb
    exact hpresT b (htask b hb)
  · intro x hx n b hb
    have h1 := hfresh x hx
    have h2 := haddrT b hb
    rw [setNode_nodes_ne _ _ _ b (by omega)]
    exact hpresN b h2
  · intro x hx tk b hb
    have h1 := htasku x hx
    have h2 := htask b hb
    rw [setTask_tasks_ne _ _ _ b (by omega)]
    exact hpresT b h2

/-- Example heap for the clone counterexample: a ROOT node at address 0
whose only child, a TASK node, lives at address 1 with its payload at task
address 0. -/
def exRoot : NodeObj :=
  ⟨NodeType.ROOT, 0, NData.text "", none, [1], false, 10, none⟩

/-- The child node of the example heap. -/
def exChild : NodeObj :=
  ⟨NodeType.TASK, 1, NData.task 0, some 0, [], false, 11, none⟩

/-- The example heap itself. -/
def exSt : St :=
  { nodes := fun x => if x = 0 then some exRoot
      else if x = 1 then some exChild else none
    tasks := fun x => if x = 0 then
      some ⟨1, "t", TaskState.STOPPED, false, Time.zero, Time.zero, 0, 0⟩
      else none
    nextN := 2
    nextT := 1 }

/-- C2 counterexample: the `Node.clone` method itself (part_001 lines
488-497) is not deep. Cloning the example root yields a node whose
`children` still holds address 1 — the original's child Node object — and
cloning the child yields a node whose `parent` still points at address 0,
the original root, not into any new subtree. So a bare `clone()` call
shares Node objects with, and keeps parent references into, the original. -/
theorem C2_clone_counterexample :
    (getN (cloneMethod exSt 0).1 (cloneMethod exSt 0).2).children = [1] ∧
    exSt.nodes 1 = some exChild ∧
    (getN (cloneMethod exSt 1).1 (cloneMethod exSt 1).2).parent = some 0 ∧
    exSt.nodes 0 = some exRoot := by
  refine ⟨?_, rfl, ?_, rfl⟩
  · rfl
  · rfl

/-- Witness for C2: the deep-clone theorem applied to the example heap's
child subtree (a TASK node with a payload). -/
theorem C2_cloneDeep_witness :
    ∃ u : ATree,
      (cloneRoot 5 exSt 1).2 = u.addr ∧
      OkT (cloneRoot 5 exSt 1).1 none u ∧
      CRel exSt (cloneRoot 5 exSt 1).1
        (ATree.mk 1 ⟨NodeType.TASK, 1, NData.task 0, false, 11, none⟩ []) u ∧
      (∀ b ∈ addrsT u,
        b ∉ addrsT (ATree.mk 1 ⟨NodeType.TASK, 1, NData.task 0, false, 11, none⟩ [])) ∧
      (∀ b ∈ taskAddrsT u,
        b ∉ taskAddrsT (ATree.mk 1 ⟨NodeType.TASK, 1, NData.task 0, false, 11, none⟩ [])) ∧
      (∀ x ∈ addrsT u, (getN (cloneRoot 5 exSt 1).1 x).parent = none ∨
        ∃ pp ∈ addrsT u, (getN (cloneRoot 5 exSt 1).1 x).parent = some pp) ∧
      (∀ b ∈ addrsT (ATree.mk 1 ⟨NodeType.TASK, 1, NData.task 0, false, 11, none⟩ []),
        (cloneRoot 5 exSt 1).1.nodes b = exSt.nodes b) ∧
      (∀ b ∈ taskAddrsT (ATree.mk 1 ⟨NodeType.TASK, 1, NData.task 0, false, 11, none⟩ []),
        (cloneRoot 5 exSt 1).1.tasks b = exSt.tasks b) ∧
      (∀ x ∈ addrsT u, ∀ n : NodeObj,
        ∀ b ∈ addrsT (ATree.mk 1 ⟨NodeType.TASK, 1, NData.task 0, false, 11, none⟩ []),
        (setNode (cloneRoot 5 exSt 1).1 x n).nodes b = exSt.nodes b) ∧
      (∀ x ∈ taskAddrsT u, ∀ tk : TaskObj,
        ∀ b ∈ taskAddrsT (ATree.mk 1 ⟨NodeType.TASK, 1, NData.task 0, false, 11, none⟩ []),
        (setTask (cloneRoot 5 exSt 1).1 x tk).tasks b = exSt.tasks b) := by
  have h := C2_cloneDeep 5 exSt
    (ATree.mk 1 ⟨NodeType.TASK, 1, NData.task 0, false, 11, none⟩ []) (some 0)
    ⟨by
      intro a ha
      have h2 : (2 : Nat) ≤ a := ha
      simp [exSt, show a ≠ 0 by omega, show a ≠ 1 by omega], by
      intro a ha
      have h2 : (1 : Nat) ≤ a := ha
      simp [exSt, show a ≠ 0 by omega]⟩
    ((OkT_def _ _ _ _ _).2 ⟨by rfl, trivial⟩)
    (by intro b hb; simp [taskAddrsT, taskAddrsF] at hb; subst hb; simp [exSt])
    (by simp [sizeT, sizeF])
  exact h

/-! ## Correctness of Node.find -/

/-- Every tree of the forest is extracted in the heap (with some parent). -/
def OkAny (st : St) (F : List ATree) : Prop := ∀ t ∈ F, ∃ p, OkT st p t

/-- The BFS loop of `find` computes the pure breadth-first first match when
the predicate never raises. `qp` is the pure value of the predicate on a
node's scalar fields. -/
theorem findLoop_eq_pure (qp : NCore → Bool) (P : NodeObj → Except Unit Bool)
    (hP : ∀ n, P n = Except.ok (qp n.core)) (st : St) :
    ∀ (fuel : Nat) (F : List ATree), OkAny st F → sizeF F ≤ fuel →
    findLoop P fuel st (F.map ATree.addr) =
      (bfsFindF qp F).map ATree.addr := by
  intro fuel
  induction fuel with
  | zero =>
    intro F hany hsz
    rw [sizeF_le_zero F hsz]
    simp [findLoop, bfsFindF]
  | succ fuel ih =>
    intro F hany hsz
    cases F with
    | nil => simp [findLoop, bfsFindF]
    | cons t rest =>
      cases t with
      | mk a c ch =>
      obtain ⟨p, hokt⟩ := hany (ATree.mk a c ch) (by simp)
      obtain ⟨hrec, hchOk⟩ := (OkT_def st p a c ch).1 hokt
      have hget : getN st a = c.toObj p (ch.map ATree.addr) :=
        getN_eq_of_nodes _ _ _ hrec
      have hih : qp c = false →
          findLoop P fuel st
            (List.map ATree.addr rest ++ List.map ATree.addr ch) =
          (bfsFindF qp (rest ++ ch)).map ATree.addr := by
        intro _
        rw [← List.map_append]
        refine ih (rest ++ ch) ?_ ?_
        · intro u hu
          rcases List.mem_append.1 hu with hu | hu
          · exact hany u (by simp [hu])
          · exact ⟨some a, (OkF_iff st a ch).1 hchOk u hu⟩
        · rw [sizeF_append]
          simp only [sizeF, sizeT] at hsz
          omega
      simp only [List.map_cons, ATree.addr]
      simp only [findLoop, hget, hP]
      rw [show (c.toObj p (ch.map ATree.addr)).core = c from rfl]
      simp only [bfsFindF]
      rw [show (ATree.mk a c ch).core = c from rfl]
      rcases hq : qp c with _ | _
      · dsimp only
        rw [if_neg (by simp)]
        rw [show (c.toObj p (ch.map ATree.addr)).children =
          ch.map ATree.addr from rfl]
        rw [show (ATree.mk a c ch).children = ch from rfl]
        exact hih hq
      · dsimp only
        rw [if_pos rfl]
        simp [ATree.addr]

/-- `Node.find` is the pure breadth-first first match on an extracted tree,
for a predicate that never raises. -/
theorem find_eq_pure (qp : NCore → Bool) (P : NodeObj → Except Unit Bool)
    (hP : ∀ n, P n = Except.ok (qp n.core)) (st : St) (fuel : Nat)
    (u : ATree) (p : Option Nat) (hok : OkT st p u) (hsz : sizeT u ≤ fuel) :
    Node.find fuel st u.addr P = (bfsFindF qp [u]).map ATree.addr := by
  rw [Node.find, show [u.addr] = [u].map ATree.addr from by simp]
  refine findLoop_eq_pure qp P hP st fuel [u] ?_ ?_
  · intro v hv
    rcases List.mem_singleton.1 hv with h
    subst h
    exact ⟨p, hok⟩
  · simp [sizeF]
    omega

/-- When the predicate raises on the first examined node, the exception
escapes the whole while loop into the catch and `find` returns null. -/
theorem find_error_first (st : St) (a : Nat) (P : NodeObj → Except Unit Bool)
    (fuel : Nat) (hf : 1 ≤ fuel)
    (herr : P (getN st a) = Except.error ()) :
    Node.find fuel st a P = none := by
  cases fuel with
  | zero => omega
  | succ f =>
    rw [Node.find]
    rw [show findLoop P (f + 1) st [a] =
      (match P (getN st a) with
       | Except.error _ => none
       | Except.ok true => some a
       | Except.ok false =>
           findLoop P f st ([] ++ (getN st a).children)) from rfl]
    rw [herr]

/-- A found subtree really occurs in the searched forest. -/
theorem bfsFindF_sub (qp : NCore → Bool) :
    ∀ (n : Nat) (F : List ATree), sizeF F ≤ n → ∀ sub,
    bfsFindF qp F = some sub → ∃ t ∈ F, SubT t sub := by
  intro n
  induction n with
  | zero =>
    intro F hsz sub hfind
    rw [sizeF_le_zero F hsz] at hfind
    simp [bfsFindF] at hfind
  | succ n ih =>
    intro F hsz sub hfind
    cases F with
    | nil => simp [bfsFindF] at hfind
    | cons t rest =>
      simp only [bfsFindF] at hfind
      by_cases hq : qp t.core
      · rw [if_pos hq] at hfind
        have heq : t = sub := by injection hfind
        subst heq
        exact ⟨t, by simp, SubT.refl t⟩
      · rw [if_neg hq] at hfind
        have hsz2 : sizeF (rest ++ t.children) ≤ n := by
          rw [sizeF_append]
          have h1 := sizeT_eq t
          simp only [sizeF] at hsz
          omega
        obtain ⟨w, hw, hsub⟩ := ih (rest ++ t.children) hsz2 sub hfind
        rcases List.mem_append.1 hw with hw | hw
        · exact ⟨w, by simp [hw], hsub⟩
        · exact ⟨t, by simp, SubT.step hw hsub⟩

/-- A strict subtree decomposes through the children list of an enclosing
node. -/
theorem SubT_cases (u sub : ATree) (h : SubT u sub) :
    sub = u ∨ ∃ w, SubT u w ∧ sub ∈ w.children := by
  induction h with
  | refl t => exact Or.inl rfl
  | step hmem hsub ih =>
    rcases ih with rfl | ⟨w, hw, hmemw⟩
    · right
      exact ⟨_, SubT.refl _, hmem⟩
    · right
      exact ⟨w, SubT.step hmem hw, hmemw⟩

/-- The extraction predicate restricts to any subtree. -/
theorem OkT_of_SubT (st : St) (u w : ATree) (hsub : SubT u w) :
    ∀ p, OkT st p u → ∃ p2, OkT st p2 w := by
  induction hsub with
  | refl t => exact fun p h => ⟨p, h⟩
  | step hmem hsub ih =>
    rename_i t v s
    intro p hok
    cases t with
    | mk a c ch =>
      obtain ⟨h1, h2⟩ := (OkT_def st p a c ch).1 hok
      exact ih (some a) ((OkF_iff st a ch).1 h2 v hmem)

/-- The root address is an address of the tree. -/
theorem mem_addrsT_self (t : ATree) : t.addr ∈ addrsT t := by
  cases t; simp [addrsT, ATree.addr]

/-- A child's addresses are addresses of the tree. -/
theorem child_addrs_subset (t v : ATree) (hv : v ∈ ATree.children t) :
    ∀ x ∈ addrsT v, x ∈ addrsT t := by
  cases t with
  | mk a c ch =>
    intro x hx
    simp only [ATree.children] at hv
    simp only [addrsT, List.mem_cons]
    exact Or.inr (mem_addrsF ch v x hv hx)

/-- Addresses of a subtree are addresses of the tree. -/
theorem SubT_addrs_subset (u w : ATree) (h : SubT u w) :
    ∀ x ∈ addrsT w, x ∈ addrsT u := by
  induction h with
  | refl t => exact fun x hx => hx
  | step hmem _ ih =>
    intro x hx
    exact child_addrs_subset _ _ hmem x (ih x hx)

mutual

/-- The id stored at any address of an extracted tree is one of its ids. -/
theorem OkT_id_mem (st : St) (p : Option Nat) (t : ATree) (h : OkT st p t) :
    ∀ x ∈ addrsT t, (getN st x).id ∈ idsT t := by
  cases t with
  | mk a c ch =>
    intro x hx
    obtain ⟨h1, h2⟩ := h
    rcases List.mem_cons.1 hx with hx | hx
    · subst hx
      rw [getN_eq_of_nodes _ _ _ h1]
      simp [idsT, NCore.toObj]
    · have h3 := OkF_id_mem st a ch h2 x hx
      simp only [idsT, List.mem_cons]
      exact Or.inr h3

/-- Forest version of `OkT_id_mem`. -/
theorem OkF_id_mem (st : St) (a : Nat) (F : List ATree) (h : OkF st a F) :
    ∀ x ∈ addrsF F, (getN st x).id ∈ idsF F := by
  cases F with
  | nil => intro x hx; simp [addrsF] at hx
  | cons t ts =>
    intro x hx
    rw [show addrsF (t :: ts) = addrsT t ++ addrsF ts from rfl] at hx
    rw [show idsF (t :: ts) = idsT t ++ idsF ts from rfl]
    rcases List.mem_append.1 hx with hx | hx
    · exact List.mem_append_left _ (OkT_id_mem st (some a) t h.1 x hx)
    · exact List.mem_append_right _ (OkF_id_mem st a ts h.2 x hx)

end

mutual

/-- With pairwise-distinct ids, the id stored at an address determines the
address within an extracted tree. -/
theorem OkT_idInj (st : St) (p : Option Nat) (t : ATree) (h : OkT st p t)
    (hnd : (idsT t).Nodup) :
    ∀ x ∈ addrsT t, ∀ y ∈ addrsT t,
      (getN st x).id = (getN st y).id → x = y := by
  cases t with
  | mk a c ch =>
    intro x hx y hy heq
    obtain ⟨h1, h2⟩ := h
    have hndc : c.id ∉ idsF ch ∧ (idsF ch).Nodup := by
      rw [show idsT (ATree.mk a c ch) = c.id :: idsF ch from rfl] at hnd
      exact ⟨(List.nodup_cons.1 hnd).1, (List.nodup_cons.1 hnd).2⟩
    have hida : (getN st a).id = c.id := by
      rw [getN_eq_of_nodes _ _ _ h1]; rfl
    rcases List.mem_cons.1 hx with hx | hx
    · rcases List.mem_cons.1 hy with hy | hy
      · rw [hx, hy]
      · exfalso
        rw [hx, hida] at heq
        have hm := OkF_id_mem st a ch h2 y hy
        rw [← heq] at hm
        exact hndc.1 hm
    · rcases List.mem_cons.1 hy with hy | hy
      · exfalso
        rw [hy, hida] at heq
        have hm := OkF_id_mem st a ch h2 x hx
        rw [heq] at hm
        exact hndc.1 hm
      · exact OkF_idInj st a ch h2 hndc.2 x hx y hy heq

/-- Forest version of `OkT_idInj`. -/
theorem OkF_idInj (st : St) (a : Nat) (F : List ATree) (h : OkF st a F)
    (hnd : (idsF F).Nodup) :
    ∀ x ∈ addrsF F, ∀ y ∈ addrsF F,
      (getN st x).id = (getN st y).id → x = y := by
  cases F with
  | nil => intro x hx; simp [addrsF] at hx
  | cons t ts =>
    intro x hx y hy heq
    rw [show addrsF (t :: ts) = addrsT t ++ addrsF ts from rfl] at hx hy
    rw [show idsF (t :: ts) = idsT t ++ idsF ts from rfl] at hnd
    obtain ⟨hnd1, hnd2, hdisj⟩ := List.nodup_append.1 hnd
    rcases List.mem_append.1 hx with hx | hx
    · rcases List.mem_append.1 hy with hy | hy
      · exact OkT_idInj st (some a) t h.1 hnd1 x hx y hy heq
      · exfalso
        have m1 := OkT_id_mem st (some a) t h.1 x hx
        have m2 := OkF_id_mem st a ts h.2 y hy
        rw [heq] at m1
        exact hdisj m1 m2
    · rcases List.mem_append.1 hy with hy | hy
      · exfalso
        have m1 := OkF_id_mem st a ts h.2 x hx
        have m2 := OkT_id_mem st (some a) t h.1 y hy
        rw [← heq] at m2
        exact hdisj m2 m1
      · exact OkF_idInj st a ts h.2 hnd2 x hx y hy heq

end

mutual

/-- A clone has the same id list as its original. -/
theorem CRel_ids (stO stN : St) (t u : ATree) (h : CRel stO stN t u) :
    idsT u = idsT t := by
  cases t with
  | mk a c ch =>
  cases u with
  | mk a2 c2 ch2 =>
    obtain ⟨e1, e2, e3, e4, e5, hd, hch⟩ := h
    rw [show idsT (ATree.mk a2 c2 ch2) = c2.id :: idsF ch2 from rfl]
    rw [show idsT (ATree.mk a c ch) = c.id :: idsF ch from rfl]
    rw [e4, CRelF_ids stO stN ch ch2 hch]

/-- Forest version of `CRel_ids`. -/
theorem CRelF_ids (stO stN : St) (F F2 : List ATree)
    (h : CRelF stO stN F F2) : idsF F2 = idsF F := by
  cases F with
  | nil =>
    cases F2 with
    | nil => rfl
    | cons u us => exact h.elim
  | cons t ts =>
    cases F2 with
    | nil => exact h.elim
    | cons u us =>
      rw [show idsF (u :: us) = idsT u ++ idsF us from rfl]
      rw [show idsF (t :: ts) = idsT t ++ idsF ts from rfl]
      rw [CRel_ids stO stN t u h.1, CRelF_ids stO stN ts us h.2]

end

mutual

/-- A clone has the same size as its original. -/
theorem CRel_size (stO stN : St) (t u : ATree) (h : CRel stO stN t u) :
    sizeT u = sizeT t := by
  cases t with
  | mk a c ch =>
  cases u with
  | mk a2 c2 ch2 =>
    obtain ⟨e1, e2, e3, e4, e5, hd, hch⟩ := h
    rw [show sizeT (ATree.mk a2 c2 ch2) = 1 + sizeF ch2 from rfl]
    rw [show sizeT (ATree.mk a c ch) = 1 + sizeF ch from rfl]
    rw [CRelF_size stO stN ch ch2 hch]

/-- Forest version of `CRel_size`. -/
theorem CRelF_size (stO stN : St) (F F2 : List ATree)
    (h : CRelF stO stN F F2) : sizeF F2 = sizeF F := by
  cases F with
  | nil =>
    cases F2 with
    | nil => rfl
    | cons u us => exact h.elim
  | cons t ts =>
    cases F2 with
    | nil => exact h.elim
    | cons u us =>
      rw [show sizeF (u :: us) = sizeT u + sizeF us from rfl]
      rw [show sizeF (t :: ts) = sizeT t + sizeF ts from rfl]
      rw [CRel_size stO stN t u h.1, CRelF_size stO stN ts us h.2]

end

/-! ## Claim C6: replace -/

/-- The record an extracted tree stores at its root address. -/
theorem OkT_record (st : St) (p : Option Nat) (w : ATree) (h : OkT st p w) :
    st.nodes w.addr = some (w.core.toObj p (w.children.map ATree.addr)) := by
  cases w with
  | mk a c ch => exact h.1

/-- Children of an extracted tree are extracted with it as parent. -/
theorem OkT_children (st : St) (p : Option Nat) (w : ATree) (h : OkT st p w) :
    ∀ v ∈ ATree.children w, OkT st (some w.addr) v := by
  cases w with
  | mk a c ch =>
    intro v hv
    exact (OkF_iff st a ch).1 h.2 v hv

/-- Unfolding of `Node.replace` through `find`. -/
theorem replace_eq (fuel : Nat) (st : St) (a : Nat) (nodeA : Nat)
    (P : NodeObj → Except Unit Bool) :
    Node.replace fuel st a nodeA P =
      (match Node.find fuel (cloneRoot fuel st a).1 (cloneRoot fuel st a).2 P
       with
       | none => ((cloneRoot fuel st a).1, (cloneRoot fuel st a).2)
       | some target =>
           replaceAt (cloneRoot fuel st a).1 (cloneRoot fuel st a).2 target
             nodeA) := rfl

/-- `replaceAt` on a parentless target returns the clone unchanged. -/
theorem replaceAt_none (st1 : St) (cloned target nodeA : Nat)
    (h : (getN st1 target).parent = none) :
    replaceAt st1 cloned target nodeA = (st1, cloned) := by
  simp [replaceAt, h]

/-- `replaceAt` on a target with a parent: the two mutations, written out. -/
theorem replaceAt_some (st1 : St) (cloned target nodeA : Nat) (p : Nat)
    (h : (getN st1 target).parent = some p) :
    replaceAt st1 cloned target nodeA =
      (setNode
        (setNode st1 nodeA
          { getN st1 nodeA with
            id := (getN st1 target).id
            line := (getN st1 target).line
            parent := some p
            children := (getN st1 target).children })
        p
        { getN (setNode st1 nodeA
            { getN st1 nodeA with
              id := (getN st1 target).id
              line := (getN st1 target).line
              parent := some p
              children := (getN st1 target).children }) p with
          children :=
            (getN (setNode st1 nodeA
              { getN st1 nodeA with
                id := (getN st1 target).id
                line := (getN st1 target).line
                parent := some p
                children := (getN st1 target).children }) p).children.map
              (fun x =>
                if (getN (setNode st1 nodeA
                    { getN st1 nodeA with
                      id := (getN st1 target).id
                      line := (getN st1 target).line
                      parent := some p
                      children := (getN st1 target).children }) x).id =
                  (getN st1 target).id
                then nodeA else x) },
        cloned) := by
  simp only [replaceAt, h]

/-- What `replaceAt` does to the heap when the target has a parent: the
replacement node takes the target's `id`, `line`, `children` and the
target's parent; the parent's children list is mapped in place, sending
every entry whose id equals the target's to the replacement; nothing else
changes. -/
theorem replaceAt_spec (st1 : St) (cloned target nodeA : Nat) (p : Nat)
    (h : (getN st1 target).parent = some p) (hnp : nodeA ≠ p) :
    (replaceAt st1 cloned target nodeA).2 = cloned ∧
    (replaceAt st1 cloned target nodeA).1.nodes nodeA =
      some { getN st1 nodeA with
        id := (getN st1 target).id
        line := (getN st1 target).line
        parent := some p
        children := (getN st1 target).children } ∧
    (replaceAt st1 cloned target nodeA).1.nodes p =
      some { getN st1 p with
        children := (getN st1 p).children.map
          (fun x => if x = nodeA then nodeA
            else if (getN st1 x).id = (getN st1 target).id then nodeA
            else x) } ∧
    (∀ b, b ≠ nodeA → b ≠ p →
      (replaceAt st1 cloned target nodeA).1.nodes b = st1.nodes b) := by
  rw [replaceAt_some st1 cloned target nodeA p h]
  refine ⟨rfl, ?_, ?_, ?_⟩
  · rw [show (setNode
        (setNode st1 nodeA
          { getN st1 nodeA with
            id := (getN st1 target).id
            line := (getN st1 target).line
            parent := some p
            children := (getN st1 target).children })
        p _, cloned).1 = setNode
        (setNode st1 nodeA
          { getN st1 nodeA with
            id := (getN st1 target).id
            line := (getN st1 target).line
            parent := some p
            children := (getN st1 target).children })
        p _ from rfl]
    rw [setNode_nodes_ne _ _ _ nodeA hnp]
    exact setNode_nodes_self _ _ _
  · rw [show (setNode
        (setNode st1 nodeA
          { getN st1 nodeA with
            id := (getN st1 target).id
            line := (getN st1 target).line
            parent := some p
            children := (getN st1 target).children })
        p _, cloned).1 = setNode
        (setNode st1 nodeA
          { getN st1 nodeA with
            id := (getN st1 target).id
            line := (getN st1 target).line
            parent := some p
            children := (getN st1 target).children })
        p _ from rfl]
    rw [setNode_nodes_self]
    have hg : getN (setNode st1 nodeA
        { getN st1 nodeA with
          id := (getN st1 target).id
          line := (getN st1 target).line
          parent := some p
          children := (getN st1 target).children }) p = getN st1 p :=
      getN_setNode_ne _ _ _ p (Ne.symm hnp)
    rw [hg]
    have hmap : (getN st1 p).children.map
        (fun x => if (getN (setNode st1 nodeA
          { getN st1 nodeA with
            id := (getN st1 target).id
            line := (getN st1 target).line
            parent := some p
            children := (getN st1 target).children }) x).id =
          (getN st1 target).id then nodeA else x) =
        (getN st1 p).children.map
        (fun x => if x = nodeA then nodeA
          else if (getN st1 x).id = (getN st1 target).id then nodeA
          else x) := by
      refine List.map_congr_left ?_
      intro x _
      by_cases hx : x = nodeA
      · subst hx
        rw [if_pos rfl, getN_setNode_self]
        rw [show ({ getN st1 x with
          id := (getN st1 target).id
          line := (getN st1 target).line
          parent := some p
          children := (getN st1 target).children } : NodeObj).id =
          (getN st1 target).id from rfl]
        rw [if_pos rfl]
      · rw [if_neg hx, getN_setNode_ne _ _ _ x hx]
    rw [hmap]
  · intro b h1 h2
    rw [show (setNode
        (setNode st1 nodeA
          { getN st1 nodeA with
            id := (getN st1 target).id
            line := (getN st1 target).line
            parent := some p
            children := (getN st1 target).children })
        p _, cloned).1 = setNode
        (setNode st1 nodeA
          { getN st1 nodeA with
            id := (getN st1 target).id
            line := (getN st1 target).line
            parent := some p
            children := (getN st1 target).children })
        p _ from rfl]
    rw [setNode_nodes_ne _ _ _ b h2]
    rw [setNode_nodes_ne _ _ _ b h1]

/-- C6: `Node.replace` clones the receiver, finds the first BFS match of
the predicate on the clone, and: with no match, or with the clone's root as
the match, returns the unmodified clone; otherwise the replacement node is
given the matched node's `id`, `line` and `children`, its parent is the
matched node's parent, the parent's children list keeps its ordering with
the replacement substituted exactly at the matched node's position, and no
other node of the clone changes. Stated for a predicate that never raises,
over a tree with pairwise distinct ids (spec invariant 2). -/
theorem C6_replace (fuel : Nat) (st : St) (t : ATree) (q : Option Nat)
    (nodeA : Nat) (P : NodeObj → Except Unit Bool) (qp : NCore → Bool)
    (hwf : WfSt st) (hok : OkT st q t)
    (htask : ∀ b ∈ taskAddrsT t, b < st.nextT)
    (hids : (idsT t).Nodup) (hsz : sizeT t ≤ fuel)
    (hP : ∀ n, P n = Except.ok (qp n.core)) (hnodeA : nodeA < st.nextN) :
    ∃ u : ATree,
      (cloneRoot fuel st t.addr).2 = u.addr ∧
      OkT (cloneRoot fuel st t.addr).1 none u ∧
      CRel st (cloneRoot fuel st t.addr).1 t u ∧
      (bfsFindF qp [u] = none →
        Node.replace fuel st t.addr nodeA P = cloneRoot fuel st t.addr) ∧
      (bfsFindF qp [u] = some u →
        Node.replace fuel st t.addr nodeA P = cloneRoot fuel st t.addr) ∧
      (∀ sub, bfsFindF qp [u] = some sub → sub ≠ u →
        ∃ w, SubT u w ∧ sub ∈ ATree.children w ∧
          (Node.replace fuel st t.addr nodeA P).2 = u.addr ∧
          (Node.replace fuel st t.addr nodeA P).1.nodes nodeA =
            some { getN (cloneRoot fuel st t.addr).1 nodeA with
              id := sub.core.id
              line := sub.core.line
              parent := some w.addr
              children := sub.children.map ATree.addr } ∧
          (∃ pw, (Node.replace fuel st t.addr nodeA P).1.nodes w.addr =
            some (w.core.toObj pw
              ((w.children.map ATree.addr).map
                (fun x => if x = sub.addr then nodeA else x))) ∧
            (getN (cloneRoot fuel st t.addr).1 w.addr).parent = pw) ∧
          (∀ b, b ≠ nodeA → b ≠ w.addr →
            (Node.replace fuel st t.addr nodeA P).1.nodes b =
              (cloneRoot fuel st t.addr).1.nodes b)) := by
  obtain ⟨u, haddr, hwf2, hN, hT, hpresN, hpresT, hok2, hfresh, hnodup, hrel⟩ :=
    cloneRoot_spec fuel st t q hwf hok htask hsz
  have hszu : sizeT u ≤ fuel := by
    rw [CRel_size st _ t u hrel]; exact hsz
  have hfind : Node.find fuel (cloneRoot fuel st t.addr).1 u.addr P =
      (bfsFindF qp [u]).map ATree.addr :=
    find_eq_pure qp P hP _ fuel u none hok2 hszu
  have hidu : (idsT u).Nodup := by
    rw [CRel_ids st _ t u hrel]; exact hids
  refine ⟨u, haddr, hok2, hrel, ?_, ?_, ?_⟩
  · intro hnone
    have hfind2 : Node.find fuel (cloneRoot fuel st t.addr).1
        (cloneRoot fuel st t.addr).2 P = none := by
      rw [haddr, hfind, hnone]; rfl
    rw [replace_eq, hfind2]
  · intro hroot
    have hfind2 : Node.find fuel (cloneRoot fuel st t.addr).1
        (cloneRoot fuel st t.addr).2 P = some u.addr := by
      rw [haddr, hfind, hroot]; rfl
    rw [replace_eq, hfind2]
    show replaceAt (cloneRoot fuel st t.addr).1 (cloneRoot fuel st t.addr).2
      u.addr nodeA = cloneRoot fuel st t.addr
    rw [replaceAt_none]
    rw [getN_eq_of_nodes _ _ _ (OkT_record _ none u hok2)]
    rfl
  · intro sub hsub hne
    have hSubT : SubT u sub := by
      obtain ⟨t0, ht0, hsubT⟩ :=
        bfsFindF_sub qp (sizeF [u]) [u] (le_refl _) sub hsub
      rcases List.mem_singleton.1 ht0 with h
      subst h
      exact hsubT
    rcases SubT_cases u sub hSubT with h | ⟨w, hw, hmemw⟩
    · exact absurd h hne
    obtain ⟨pw, hokw⟩ :=
      OkT_of_SubT (cloneRoot fuel st t.addr).1 u w hw none hok2
    have hoksub : OkT (cloneRoot fuel st t.addr).1 (some w.addr) sub :=
      OkT_children _ pw w hokw sub hmemw
    have hgetsub : getN (cloneRoot fuel st t.addr).1 sub.addr =
        sub.core.toObj (some w.addr) (sub.children.map ATree.addr) :=
      getN_eq_of_nodes _ _ _ (OkT_record _ _ sub hoksub)
    have hgetw : getN (cloneRoot fuel st t.addr).1 w.addr =
        w.core.toObj pw (w.children.map ATree.addr) :=
      getN_eq_of_nodes _ _ _ (OkT_record _ pw w hokw)
    have hsubaddr : sub.addr ∈ addrsT u :=
      SubT_addrs_subset u w hw _
        (child_addrs_subset w sub hmemw _ (mem_addrsT_self sub))
    have hwaddr : w.addr ∈ addrsT u :=
      SubT_addrs_subset u w hw _ (mem_addrsT_self w)
    have hwfr := hfresh w.addr hwaddr
    have hnpw : nodeA ≠ w.addr := by omega
    have hfind2 : Node.find fuel (cloneRoot fuel st t.addr).1
        (cloneRoot fuel st t.addr).2 P = some sub.addr := by
      rw [haddr, hfind, hsub]; rfl
    have hrepl : Node.replace fuel st t.addr nodeA P =
        replaceAt (cloneRoot fuel st t.addr).1 (cloneRoot fuel st t.addr).2
          sub.addr nodeA := by
      rw [replace_eq, hfind2]
    have hpar : (getN (cloneRoot fuel st t.addr).1 sub.addr).parent =
        some w.addr := by
      rw [hgetsub]; rfl
    obtain ⟨hs2, hsA, hsP, hsFr⟩ :=
      replaceAt_spec (cloneRoot fuel st t.addr).1
        (cloneRoot fuel st t.addr).2 sub.addr nodeA w.addr hpar hnpw
    refine ⟨w, hw, hmemw, ?_, ?_, ?_, ?_⟩
    · rw [hrepl, hs2, haddr]
    · rw [hrepl, hsA, hgetsub]
      rfl
    · refine ⟨pw, ?_, by rw [hgetw]; rfl⟩
      rw [hrepl, hsP, hgetw]
      have hmapeq : (w.core.toObj pw (w.children.map ATree.addr)).children.map
          (fun x => if x = nodeA then nodeA
            else if (getN (cloneRoot fuel st t.addr).1 x).id =
              (getN (cloneRoot fuel st t.addr).1 sub.addr).id then nodeA
            else x) =
          (w.children.map ATree.addr).map
            (fun x => if x = sub.addr then nodeA else x) := by
        rw [show (w.core.toObj pw (w.children.map ATree.addr)).children =
          w.children.map ATree.addr from rfl]
        refine List.map_congr_left ?_
        intro x hx
        obtain ⟨v, hv, rfl⟩ := List.mem_map.1 hx
        have hvaddr : v.addr ∈ addrsT u :=
          SubT_addrs_subset u w hw _
            (child_addrs_subset w v hv _ (mem_addrsT_self v))
        have hvfr := hfresh v.addr hvaddr
        have hgv : getN (cloneRoot fuel st t.addr).1 v.addr =
            v.core.toObj (some w.addr) (v.children.map ATree.addr) :=
          getN_eq_of_nodes _ _ _
            (OkT_record _ _ v (OkT_children _ pw w hokw v hv))
        rw [if_neg (by omega)]
        rw [hgv, hgetsub]
        rw [show (v.core.toObj (some w.addr)
          (v.children.map ATree.addr)).id = v.core.id from rfl]
        rw [show (sub.core.toObj (some w.addr)
          (sub.children.map ATree.addr)).id = sub.core.id from rfl]
        refine if_congr ?_ rfl rfl
        constructor
        · intro hid
          refine OkT_idInj (cloneRoot fuel st t.addr).1 none u hok2 hidu
            v.addr hvaddr sub.addr hsubaddr ?_
          rw [hgv, hgetsub]
          exact hid
        · intro haeq
          have : getN (cloneRoot fuel st t.addr).1 v.addr =
              getN (cloneRoot fuel st t.addr).1 sub.addr := by rw [haeq]
          rw [hgv, hgetsub] at this
          rw [show v.core.id = (v.core.toObj (some w.addr)
            (v.children.map ATree.addr)).id from rfl, this]
          rfl
      rw [hmapeq]
      rfl
    · intro b h1 h2
      rw [hrepl]
      exact hsFr b h1 h2

/-- Concrete tree for the replace witness: a ROOT at address 0 with one
child at address 1. -/
def exT : ATree :=
  ATree.mk 0 ⟨NodeType.ROOT, 0, NData.text "", false, 100, none⟩
    [ATree.mk 1 ⟨NodeType.OTHER, 1, NData.text "x", false, 101, none⟩ []]

/-- Concrete heap for the replace witness: the two tree nodes plus a
detached replacement node at address 2. -/
def exSt2 : St :=
  { nodes := fun x =>
      if x = 0 then
        some ⟨NodeType.ROOT, 0, NData.text "", none, [1], false, 100, none⟩
      else if x = 1 then
        some ⟨NodeType.OTHER, 1, NData.text "x", some 0, [], false, 101, none⟩
      else if x = 2 then
        some ⟨NodeType.OTHER, 9, NData.text "new", none, [], false, 99, none⟩
      else none
    tasks := fun _ => none
    nextN := 3
    nextT := 0 }

/-- The pure predicate of the replace witness: line number 1. -/
def qp0 : NCore → Bool := fun c => c.line == 1

/-- The heap predicate of the replace witness. -/
def P0 : NodeObj → Except Unit Bool := fun n => Except.ok (qp0 n.core)

/-- Witness for C6: the replace theorem applied to the concrete heap. -/
theorem C6_replace_witness :
    ∃ u : ATree,
      (cloneRoot 9 exSt2 exT.addr).2 = u.addr ∧
      OkT (cloneRoot 9 exSt2 exT.addr).1 none u ∧
      CRel exSt2 (cloneRoot 9 exSt2 exT.addr).1 exT u ∧
      (bfsFindF qp0 [u] = none →
        Node.replace 9 exSt2 exT.addr 2 P0 = cloneRoot 9 exSt2 exT.addr) ∧
      (bfsFindF qp0 [u] = some u →
        Node.replace 9 exSt2 exT.addr 2 P0 = cloneRoot 9 exSt2 exT.addr) ∧
      (∀ sub, bfsFindF qp0 [u] = some sub → sub ≠ u →
        ∃ w, SubT u w ∧ sub ∈ ATree.children w ∧
          (Node.replace 9 exSt2 exT.addr 2 P0).2 = u.addr ∧
          (Node.replace 9 exSt2 exT.addr 2 P0).1.nodes 2 =
            some { getN (cloneRoot 9 exSt2 exT.addr).1 2 with
              id := sub.core.id
              line := sub.core.line
              parent := some w.addr
              children := sub.children.map ATree.addr } ∧
          (∃ pw, (Node.replace 9 exSt2 exT.addr 2 P0).1.nodes w.addr =
            some (w.core.toObj pw
              ((w.children.map ATree.addr).map
                (fun x => if x = sub.addr then 2 else x))) ∧
            (getN (cloneRoot 9 exSt2 exT.addr).1 w.addr).parent = pw) ∧
          (∀ b, b ≠ 2 → b ≠ w.addr →
            (Node.replace 9 exSt2 exT.addr 2 P0).1.nodes b =
              (cloneRoot 9 exSt2 exT.addr).1.nodes b)) := by
  refine C6_replace 9 exSt2 exT none 2 P0 qp0 ⟨?_, ?_⟩ ?_ ?_ ?_ ?_ ?_ ?_
  · intro a ha
    have h2 : (3 : Nat) ≤ a := ha
    simp [exSt2, show a ≠ 0 by omega, show a ≠ 1 by omega,
      show a ≠ 2 by omega]
  · intro a _
    rfl
  · exact ⟨rfl, ⟨rfl, trivial⟩, trivial⟩
  · intro b hb
    simp [taskAddrsT, taskAddrsF, exT] at hb
  · decide
  · decide
  · exact fun n => rfl
  · decide

/-! ## Claim C7: find and the error policy -/

/-- Unfolding of `Node.filter`. -/
theorem filter_eq (fuel : Nat) (st : St) (a : Nat)
    (P : NodeObj → Except Unit Bool) :
    Node.filter fuel st a P =
      (let c := cloneRoot fuel st a
       let flatten := bfsFlatten fuel c.1 [c.2]
       let pr := pruneFold P c.1 flatten.reverse
       if pr.2 then (pr.1, c.2)
       else (renumber pr.1 (flatAddrs fuel pr.1 c.2), c.2)) := rfl

/-- A raising predicate makes the pruning step raise. -/
theorem pruneStep_error (P : NodeObj → Except Unit Bool) (st : St) (a : Nat)
    (h : P (getN st a) = Except.error ()) :
    pruneStep P st a = Except.error () := by
  simp [pruneStep, h]

/-- A raising first step aborts the whole forEach with the state as it
stands. -/
theorem pruneFold_error_head (P : NodeObj → Except Unit Bool) (st : St)
    (x : Nat) (xs : List Nat) (h : pruneStep P st x = Except.error ()) :
    pruneFold P st (x :: xs) = (st, true) := by
  simp [pruneFold, h]

/-- Heap for the find counterexample: a root with two children; the
predicate will raise on the first child and match the second. -/
def exSt3 : St :=
  { nodes := fun x =>
      if x = 0 then
        some ⟨NodeType.ROOT, 0, NData.text "", none, [1, 2], false, 10, none⟩
      else if x = 1 then
        some ⟨NodeType.OTHER, 1, NData.text "a", some 0, [], false, 11, none⟩
      else if x = 2 then
        some ⟨NodeType.OTHER, 2, NData.text "b", some 0, [], false, 12, none⟩
      else none
    tasks := fun _ => none
    nextN := 3
    nextT := 0 }

/-- A predicate that raises on the node with id 11 and matches id 12. -/
def Pbad : NodeObj → Except Unit Bool :=
  fun n => if n.id = 11 then Except.error () else Except.ok (n.id == 12)

/-- C7 counterexample: the predicate raises on the first child (id 11)
while the second child (id 12) matches. Were the erroring node skipped and
the traversal continued, `find` would return address 2; instead the
exception aborts the whole BFS loop and `find` returns null. -/
theorem C7_find_counterexample :
    Node.find 9 exSt3 0 Pbad = none ∧
    Pbad (getN exSt3 2) = Except.ok true ∧
    Pbad (getN exSt3 1) = Except.error () := by
  refine ⟨?_, rfl, rfl⟩
  decide

/-- C7 (amended): `find` performs a breadth-first left-to-right search and
returns the first match when the predicate never raises; a predicate
exception is caught (never propagated — `find` and `filter` are total here)
but aborts the remaining traversal instead of skipping the node: `find`
returns null even if a later node matches, and `filter` with a raising
predicate returns the clone with pruning aborted and renumbering skipped. -/
theorem C7_findFilterErrors (fuel : Nat) (st : St) (u : ATree)
    (p : Option Nat) (P : NodeObj → Except Unit Bool) (qp : NCore → Bool)
    (hok : OkT st p u) (hsz : sizeT u ≤ fuel) :
    ((∀ n, P n = Except.ok (qp n.core)) →
      Node.find fuel st u.addr P = (bfsFindF qp [u]).map ATree.addr) ∧
    (P (getN st u.addr) = Except.error () → 1 ≤ fuel →
      Node.find fuel st u.addr P = none) ∧
    ((∀ n, P n = Except.error ()) → 1 ≤ fuel →
      Node.filter fuel st u.addr P =
        ((cloneRoot fuel st u.addr).1, (cloneRoot fuel st u.addr).2)) := by
  refine ⟨?_, ?_, ?_⟩
  · intro hP
    exact find_eq_pure qp P hP st fuel u p hok hsz
  · intro herr hf
    exact find_error_first st u.addr P fuel hf herr
  · intro hP hf
    cases fuel with
    | zero => omega
    | succ f =>
      rw [filter_eq]
      have hflat : bfsFlatten (f + 1) (cloneRoot (f + 1) st u.addr).1
          [(cloneRoot (f + 1) st u.addr).2] =
          (cloneRoot (f + 1) st u.addr).2 ::
            bfsFlatten f (cloneRoot (f + 1) st u.addr).1
              ([] ++ (getN (cloneRoot (f + 1) st u.addr).1
                (cloneRoot (f + 1) st u.addr).2).children) := rfl
      have hne : (bfsFlatten (f + 1) (cloneRoot (f + 1) st u.addr).1
          [(cloneRoot (f + 1) st u.addr).2]).reverse ≠ [] := by
        rw [hflat]
        simp
      obtain ⟨x, xs, hxx⟩ := List.exists_cons_of_ne_nil hne
      dsimp only
      rw [hxx, pruneFold_error_head P _ x xs
        (pruneStep_error P _ x (hP _))]
      rfl

/-- Witness for C7: its theorem applied to the concrete two-node heap. -/
theorem C7_findFilterErrors_witness :
    ((∀ n, P0 n = Except.ok (qp0 n.core)) →
      Node.find 9 exSt2 exT.addr P0 = (bfsFindF qp0 [exT]).map ATree.addr) ∧
    (P0 (getN exSt2 exT.addr) = Except.error () → 1 ≤ 9 →
      Node.find 9 exSt2 exT.addr P0 = none) ∧
    ((∀ n, P0 n = Except.error ()) → 1 ≤ 9 →
      Node.filter 9 exSt2 exT.addr P0 =
        ((cloneRoot 9 exSt2 exT.addr).1, (cloneRoot 9 exSt2 exT.addr).2)) :=
  C7_findFilterErrors 9 exSt2 exT none P0 qp0
    ⟨rfl, ⟨rfl, trivial⟩, trivial⟩ (by decide)

/-! ## Pure structure lemmas for the filter simulation -/

/-- A tree occurs in a forest. -/
def SubF (F : List ATree) (x : ATree) : Prop := ∃ t ∈ F, SubT t x

/-- Subtree-of is transitive. -/
theorem SubT_trans (u x y : ATree) (h1 : SubT u x) (h2 : SubT x y) :
    SubT u y := by
  induction h1 with
  | refl t => exact h2
  | step hmem _ ih => exact SubT.step hmem (ih h2)

/-- A child is a subtree. -/
theorem SubT_child (x v : ATree) (hv : v ∈ ATree.children x) : SubT x v :=
  SubT.step hv (SubT.refl v)

/-- Pruning keeps the root address. -/
theorem pruneT_addr (qp : NCore → Bool) (t : ATree) :
    (pruneT qp t).addr = t.addr := by
  cases t; rfl

/-- Pruning keeps the root's scalar fields. -/
theorem pruneT_core (qp : NCore → Bool) (t : ATree) :
    (pruneT qp t).core = t.core := by
  cases t; rfl

/-- The children of a pruned tree are the pruned children forest. -/
theorem pruneT_children (qp : NCore → Bool) (t : ATree) :
    (pruneT qp t).children = pruneF qp (ATree.children t) := by
  cases t; rfl

/-- Whether filter's bottom-up pruning keeps a node: it satisfies the
predicate or some child survived. -/
def survB (qp : NCore → Bool) (v : ATree) : Bool :=
  qp v.core || !(pruneF qp (ATree.children v)).isEmpty

/-- `pruneF` unfolds on cons through `survB`. -/
theorem pruneF_cons (qp : NCore → Bool) (t : ATree) (ts : List ATree) :
    pruneF qp (t :: ts) =
      if survB qp t then pruneT qp t :: pruneF qp ts else pruneF qp ts := by
  cases t with
  | mk a c ch =>
    rw [show pruneF qp (ATree.mk a c ch :: ts) =
      (if qp (pruneT qp (ATree.mk a c ch)).core ||
          !((pruneT qp (ATree.mk a c ch)).children.isEmpty) then
        pruneT qp (ATree.mk a c ch) :: pruneF qp ts
      else pruneF qp ts) from rfl]
    rfl

/-- `pruneF` is the survivors, each pruned, in order. -/
theorem pruneF_eq (qp : NCore → Bool) (F : List ATree) :
    pruneF qp F = (F.filter (survB qp)).map (pruneT qp) := by
  induction F with
  | nil => rfl
  | cons t ts ih =>
    rw [pruneF_cons]
    by_cases h : survB qp t
    · rw [if_pos h, List.filter_cons_of_pos h, List.map_cons, ih]
    · rw [if_neg h, List.filter_cons_of_neg h, ih]

/-- Pruning does not grow a forest. -/
theorem pruneF_size_le (qp : NCore → Bool) :
    ∀ (n : Nat) (F : List ATree), sizeF F ≤ n →
      sizeF (pruneF qp F) ≤ sizeF F := by
  intro n
  induction n with
  | zero =>
    intro F h
    rw [sizeF_le_zero F h]
    exact le_refl _
  | succ n ih =>
    intro F h
    cases F with
    | nil => exact le_refl _
    | cons t ts =>
      have h1 := sizeT_eq t
      simp only [sizeF] at h ⊢
      have hts : sizeF (pruneF qp ts) ≤ sizeF ts := ih ts (by omega)
      rw [pruneF_cons]
      by_cases hs : survB qp t
      · rw [if_pos hs]
        have h2 : sizeT (pruneT qp t) ≤ sizeT t := by
          have h3 := sizeT_eq (pruneT qp t)
          rw [pruneT_children] at h3
          have h4 : sizeF (pruneF qp (ATree.children t)) ≤
              sizeF (ATree.children t) := ih _ (by omega)
          omega
        simp only [sizeF]
        omega
      · rw [if_neg hs]
        omega

/-- Pruning does not grow a tree. -/
theorem pruneT_size_le (qp : NCore → Bool) (t : ATree) :
    sizeT (pruneT qp t) ≤ sizeT t := by
  have h1 := sizeT_eq (pruneT qp t)
  have h2 := sizeT_eq t
  rw [pruneT_children] at h1
  have h3 := pruneF_size_le qp (sizeF (ATree.children t)) (ATree.children t)
    (le_refl _)
  omega

/-- Members of a pruned forest are pruned survivors. -/
theorem mem_pruneF (qp : NCore → Bool) (F : List ATree) (x : ATree)
    (hx : x ∈ pruneF qp F) :
    ∃ v ∈ F, survB qp v = true ∧ x = pruneT qp v := by
  rw [pruneF_eq] at hx
  obtain ⟨v, hv, rfl⟩ := List.mem_map.1 hx
  exact ⟨v, List.mem_of_mem_filter hv, List.of_mem_filter hv, rfl⟩

/-- `addrsF` distributes over append. -/
theorem addrsF_append (xs ys : List ATree) :
    addrsF (xs ++ ys) = addrsF xs ++ addrsF ys := by
  induction xs with
  | nil => rfl
  | cons t ts ih =>
    rw [show addrsF ((t :: ts) ++ ys) = addrsT t ++ addrsF (ts ++ ys) from rfl]
    rw [show addrsF (t :: ts) = addrsT t ++ addrsF ts from rfl]
    rw [ih, List.append_assoc]

/-- The address list has one entry per node. -/
theorem addrsT_length (t : ATree) : (addrsT t).length = sizeT t := by
  have h : ∀ (n : Nat) (F : List ATree), sizeF F ≤ n →
      (addrsF F).length = sizeF F := by
    intro n
    induction n with
    | zero =>
      intro F h
      rw [sizeF_le_zero F h]
      rfl
    | succ n ih =>
      intro F h
      cases F with
      | nil => rfl
      | cons v vs =>
        cases v with
        | mk a c ch =>
          rw [show addrsF (ATree.mk a c ch :: vs) =
            addrsT (ATree.mk a c ch) ++ addrsF vs from rfl]
          rw [show addrsT (ATree.mk a c ch) = a :: addrsF ch from rfl]
          simp only [sizeF, sizeT] at h ⊢
          rw [List.length_append, List.length_cons,
            ih ch (by omega), ih vs (by omega)]
          omega
  cases t with
  | mk a c ch =>
    rw [show addrsT (ATree.mk a c ch) = a :: addrsF ch from rfl]
    rw [show sizeT (ATree.mk a c ch) = 1 + sizeF ch from rfl]
    rw [List.length_cons, h (sizeF ch) ch (le_refl _)]
    omega

/-- The root id is among a tree's ids. -/
theorem mem_idsT_self (t : ATree) : t.core.id ∈ idsT t := by
  cases t; simp [idsT, ATree.core]

/-- An id of a member tree is an id of the forest. -/
theorem mem_idsF (F : List ATree) (v : ATree) (x : Nat)
    (hv : v ∈ F) (hx : x ∈ idsT v) : x ∈ idsF F := by
  induction F with
  | nil => simp at hv
  | cons t ts ih =>
    rw [show idsF (t :: ts) = idsT t ++ idsF ts from rfl]
    rcases List.mem_cons.1 hv with hv | hv
    · subst hv; exact List.mem_append_left _ hx
    · exact List.mem_append_right _ (ih hv)

/-- In a forest with distinct addresses, siblings are determined by their
root address. -/
theorem sibling_addr_unique (F : List ATree) (hnd : (addrsF F).Nodup)
    (v v2 : ATree) (hv : v ∈ F) (hv2 : v2 ∈ F) (heq : v.addr = v2.addr) :
    v = v2 := by
  induction F with
  | nil => simp at hv
  | cons t ts ih =>
    rw [show addrsF (t :: ts) = addrsT t ++ addrsF ts from rfl] at hnd
    obtain ⟨hnd1, hnd2, hdisj⟩ := List.nodup_append.1 hnd
    rcases List.mem_cons.1 hv with hva | hvb
    · rcases List.mem_cons.1 hv2 with hvc | hvd
      · rw [hva, hvc]
      · exfalso
        rw [hva] at heq
        refine hdisj (mem_addrsT_self t) ?_
        rw [heq]
        exact mem_addrsF ts v2 _ hvd (mem_addrsT_self v2)
    · rcases List.mem_cons.1 hv2 with hvc | hvd
      · exfalso
        rw [hvc] at heq
        refine hdisj (mem_addrsT_self t) ?_
        rw [← heq]
        exact mem_addrsF ts v _ hvb (mem_addrsT_self v)
      · exact ih hnd2 hvb hvd

/-- In a forest with distinct ids, siblings are determined by their root
id. -/
theorem sibling_id_unique (F : List ATree) (hnd : (idsF F).Nodup)
    (v v2 : ATree) (hv : v ∈ F) (hv2 : v2 ∈ F)
    (heq : v.core.id = v2.core.id) : v = v2 := by
  induction F with
  | nil => simp at hv
  | cons t ts ih =>
    rw [show idsF (t :: ts) = idsT t ++ idsF ts from rfl] at hnd
    obtain ⟨hnd1, hnd2, hdisj⟩ := List.nodup_append.1 hnd
    rcases List.mem_cons.1 hv with hva | hvb
    · rcases List.mem_cons.1 hv2 with hvc | hvd
      · rw [hva, hvc]
      · exfalso
        rw [hva] at heq
        refine hdisj (mem_idsT_self t) ?_
        rw [heq]
        exact mem_idsF ts v2 _ hvd (mem_idsT_self v2)
    · rcases List.mem_cons.1 hv2 with hvc | hvd
      · exfalso
        rw [hvc] at heq
        refine hdisj (mem_idsT_self t) ?_
        rw [← heq]
        exact mem_idsF ts v _ hvb (mem_idsT_self v)
      · exact ih hnd2 hvb hvd

/-- A member of an address-distinct forest is address-distinct. -/
theorem mem_addrs_nodup (F : List ATree) (v : ATree) (hv : v ∈ F)
    (hnd : (addrsF F).Nodup) : (addrsT v).Nodup := by
  induction F with
  | nil => simp at hv
  | cons t ts ih =>
    rw [show addrsF (t :: ts) = addrsT t ++ addrsF ts from rfl] at hnd
    obtain ⟨hnd1, hnd2, _⟩ := List.nodup_append.1 hnd
    rcases List.mem_cons.1 hv with hva | hvb
    · rw [hva]; exact hnd1
    · exact ih hvb hnd2

/-- A member of an id-distinct forest is id-distinct. -/
theorem mem_ids_nodup (F : List ATree) (v : ATree) (hv : v ∈ F)
    (hnd : (idsF F).Nodup) : (idsT v).Nodup := by
  induction F with
  | nil => simp at hv
  | cons t ts ih =>
    rw [show idsF (t :: ts) = idsT t ++ idsF ts from rfl] at hnd
    obtain ⟨hnd1, hnd2, _⟩ := List.nodup_append.1 hnd
    rcases List.mem_cons.1 hv with hva | hvb
    · rw [hva]; exact hnd1
    · exact ih hvb hnd2

/-- Address distinctness passes from a tree to each child. -/
theorem child_addrs_nodup (t v : ATree) (hnd : (addrsT t).Nodup)
    (hv : v ∈ ATree.children t) : (addrsT v).Nodup := by
  cases t with
  | mk a c ch =>
    rw [show addrsT (ATree.mk a c ch) = a :: addrsF ch from rfl] at hnd
    exact mem_addrs_nodup ch v hv (List.nodup_cons.1 hnd).2

/-- Id distinctness passes from a tree to each child. -/
theorem child_ids_nodup (t v : ATree) (hnd : (idsT t).Nodup)
    (hv : v ∈ ATree.children t) : (idsT v).Nodup := by
  cases t with
  | mk a c ch =>
    rw [show idsT (ATree.mk a c ch) = c.id :: idsF ch from rfl] at hnd
    exact mem_ids_nodup ch v hv (List.nodup_cons.1 hnd).2

/-- Address distinctness restricts to subtrees. -/
theorem SubT_addrs_nodup (u x : ATree) (h : SubT u x) :
    (addrsT u).Nodup → (addrsT x).Nodup := by
  induction h with
  | refl t => exact fun h => h
  | step hmem _ ih =>
    intro hnd
    exact ih (child_addrs_nodup _ _ hnd hmem)

/-- Id distinctness restricts to subtrees. -/
theorem SubT_ids_nodup (u x : ATree) (h : SubT u x) :
    (idsT u).Nodup → (idsT x).Nodup := by
  induction h with
  | refl t => exact fun h => h
  | step hmem _ ih =>
    intro hnd
    exact ih (child_ids_nodup _ _ hnd hmem)

/-- The address of a non-root node of a tree sits inside the children
forest's addresses. -/
theorem inner_addr_mem (t x2 v2 : ATree) (h : SubT t x2)
    (hv2 : v2 ∈ ATree.children x2) :
    v2.addr ∈ addrsF (ATree.children t) := by
  cases h with
  | refl => exact mem_addrsF _ v2 _ hv2 (mem_addrsT_self v2)
  | step hmem hsub =>
    rename_i u1
    refine mem_addrsF _ u1 _ hmem ?_
    refine SubT_addrs_subset u1 x2 hsub _ ?_
    exact child_addrs_subset x2 v2 hv2 _ (mem_addrsT_self v2)

/-- Children addresses sit inside the tree's addresses. -/
theorem children_addrs_sub (w : ATree) (x : Nat)
    (hx : x ∈ addrsF (ATree.children w)) : x ∈ addrsT w := by
  cases w with
  | mk a c ch =>
    rw [show addrsT (ATree.mk a c ch) = a :: addrsF ch from rfl]
    exact List.mem_cons_of_mem a hx

/-- A member root's address never equals an address strictly inside any
member. -/
theorem root_not_inner (F : List ATree) (hnd : (addrsF F).Nodup)
    (v u2 : ATree) (hv : v ∈ F) (hu2 : u2 ∈ F) (x : Nat)
    (hx : x ∈ addrsF (ATree.children u2)) : v.addr ≠ x := by
  induction F with
  | nil => simp at hv
  | cons t ts ih =>
    rw [show addrsF (t :: ts) = addrsT t ++ addrsF ts from rfl] at hnd
    obtain ⟨hnd1, hnd2, hdisj⟩ := List.nodup_append.1 hnd
    rcases List.mem_cons.1 hv with hva | hvb
    · rcases List.mem_cons.1 hu2 with hua | hub
      · rw [hva]
        rw [hua] at hx
        cases t with
        | mk a c ch =>
          rw [show addrsT (ATree.mk a c ch) = a :: addrsF ch from rfl] at hnd1
          intro hcontra
          rw [show (ATree.mk a c ch).addr = a from rfl] at hcontra
          rw [← hcontra] at hx
          exact (List.nodup_cons.1 hnd1).1 hx
      · rw [hva]
        intro hcontra
        refine hdisj (mem_addrsT_self t) ?_
        rw [hcontra]
        exact mem_addrsF ts u2 _ hub (children_addrs_sub u2 x hx)
    · rcases List.mem_cons.1 hu2 with hua | hub
      · rw [hua] at hx
        intro hcontra
        refine hdisj (children_addrs_sub t x hx) ?_
        rw [← hcontra]
        exact mem_addrsF ts v _ hvb (mem_addrsT_self v)
      · exact ih hnd2 hvb hub
/-- Distinct addresses keep distinct member trees of a forest
address-disjoint. -/
theorem forest_addr_disjoint (F : List ATree) (hnd : (addrsF F).Nodup)
    (v v2 : ATree) (hv : v ∈ F) (hv2 : v2 ∈ F) (x : Nat)
    (hx : x ∈ addrsT v) (hx2 : x ∈ addrsT v2) : v = v2 := by
  induction F with
  | nil => simp at hv
  | cons t ts ih =>
    rw [show addrsF (t :: ts) = addrsT t ++ addrsF ts from rfl] at hnd
    obtain ⟨hnd1, hnd2, hdisj⟩ := List.nodup_append.1 hnd
    rcases List.mem_cons.1 hv with hva | hvb
    · rcases List.mem_cons.1 hv2 with hvc | hvd
      · rw [hva, hvc]
      · exfalso
        rw [hva] at hx
        exact hdisj hx (mem_addrsF ts v2 x hvd hx2)
    · rcases List.mem_cons.1 hv2 with hvc | hvd
      · exfalso
        rw [hvc] at hx2
        exact hdisj hx2 (mem_addrsF ts v x hvb hx)
      · exact ih hnd2 hvb hvd

/-- Distinct ids keep distinct member trees of a forest id-disjoint. -/
theorem forest_id_disjoint (F : List ATree) (hnd : (idsF F).Nodup)
    (v v2 : ATree) (hv : v ∈ F) (hv2 : v2 ∈ F) (x : Nat)
    (hx : x ∈ idsT v) (hx2 : x ∈ idsT v2) : v = v2 := by
  induction F with
  | nil => simp at hv
  | cons t ts ih =>
    rw [show idsF (t :: ts) = idsT t ++ idsF ts from rfl] at hnd
    obtain ⟨hnd1, hnd2, hdisj⟩ := List.nodup_append.1 hnd
    rcases List.mem_cons.1 hv with hva | hvb
    · rcases List.mem_cons.1 hv2 with hvc | hvd
      · rw [hva, hvc]
      · exfalso
        rw [hva] at hx
        exact hdisj hx (mem_idsF ts v2 x hvd hx2)
    · rcases List.mem_cons.1 hv2 with hvc | hvd
      · exfalso
        rw [hvc] at hx2
        exact hdisj hx2 (mem_idsF ts v x hvb hx)
      · exact ih hnd2 hvb hvd

/-- Child ids are among the tree's ids. -/
theorem child_ids_subset (t v : ATree) (hv : v ∈ ATree.children t) :
    ∀ x, x ∈ idsT v → x ∈ idsT t := by
  cases t with
  | mk a c ch =>
    intro x hx
    rw [show idsT (ATree.mk a c ch) = c.id :: idsF ch from rfl]
    exact List.mem_cons_of_mem _ (mem_idsF ch v x hv hx)

/-- Ids of subtrees are among the tree's ids. -/
theorem SubT_ids_subset (u w : ATree) (h : SubT u w) :
    ∀ x, x ∈ idsT w → x ∈ idsT u := by
  induction h with
  | refl t => exact fun x hx => hx
  | step hmem _ ih =>
    intro x hx
    exact child_ids_subset _ _ hmem x (ih x hx)

/-- In an address-distinct tree the subtree at an address is unique. -/
theorem subT_addr_unique (u w1 : ATree) (h1 : SubT u w1) :
    ∀ w2, (addrsT u).Nodup → SubT u w2 → w1.addr = w2.addr → w1 = w2 := by
  induction h1 with
  | refl t =>
    intro w2 hnd h2 heq
    cases h2 with
    | refl => rfl
    | step hmem hsub =>
      rename_i v
      exfalso
      have hx : w2.addr ∈ addrsF (ATree.children t) :=
        mem_addrsF _ v _ hmem
          (SubT_addrs_subset v w2 hsub _ (mem_addrsT_self w2))
      cases t with
      | mk a c ch =>
        rw [show addrsT (ATree.mk a c ch) = a :: addrsF ch from rfl] at hnd
        rw [show (ATree.mk a c ch).addr = a from rfl] at heq
        rw [← heq] at hx
        exact (List.nodup_cons.1 hnd).1 hx
  | step hmem hsub ih =>
    rename_i t v s
    intro w2 hnd h2 heq
    cases h2 with
    | refl =>
      exfalso
      have hx : s.addr ∈ addrsF (ATree.children t) :=
        mem_addrsF _ v _ hmem
          (SubT_addrs_subset v s hsub _ (mem_addrsT_self s))
      cases t with
      | mk a c ch =>
        rw [show addrsT (ATree.mk a c ch) = a :: addrsF ch from rfl] at hnd
        rw [show (ATree.mk a c ch).addr = a from rfl] at heq
        rw [heq] at hx
        exact (List.nodup_cons.1 hnd).1 hx
    | step hmem2 hsub2 =>
      rename_i v2
      have hx : s.addr ∈ addrsT v :=
        SubT_addrs_subset v s hsub _ (mem_addrsT_self s)
      have hx2 : s.addr ∈ addrsT v2 := by
        rw [heq]
        exact SubT_addrs_subset v2 w2 hsub2 _ (mem_addrsT_self w2)
      cases t with
      | mk a c ch =>
        rw [show addrsT (ATree.mk a c ch) = a :: addrsF ch from rfl] at hnd
        have hvv : v = v2 :=
          forest_addr_disjoint ch (List.nodup_cons.1 hnd).2 v v2 hmem hmem2
            s.addr hx hx2
        refine ih w2 ?_ ?_ heq
        · exact mem_addrs_nodup ch v hmem (List.nodup_cons.1 hnd).2
        · rw [hvv]; exact hsub2

/-- In an id-distinct tree the subtree carrying an id is unique. -/
theorem subT_id_unique (u w1 : ATree) (h1 : SubT u w1) :
    ∀ w2, (idsT u).Nodup → SubT u w2 → w1.core.id = w2.core.id →
      w1 = w2 := by
  induction h1 with
  | refl t =>
    intro w2 hnd h2 heq
    cases h2 with
    | refl => rfl
    | step hmem hsub =>
      rename_i v
      exfalso
      have hx : w2.core.id ∈ idsF (ATree.children t) :=
        mem_idsF _ v _ hmem
          (SubT_ids_subset v w2 hsub _ (mem_idsT_self w2))
      cases t with
      | mk a c ch =>
        rw [show idsT (ATree.mk a c ch) = c.id :: idsF ch from rfl] at hnd
        rw [show (ATree.mk a c ch).core = c from rfl] at heq
        rw [← heq] at hx
        exact (List.nodup_cons.1 hnd).1 hx
  | step hmem hsub ih =>
    rename_i t v s
    intro w2 hnd h2 heq
    cases h2 with
    | refl =>
      exfalso
      have hx : s.core.id ∈ idsF (ATree.children t) :=
        mem_idsF _ v _ hmem
          (SubT_ids_subset v s hsub _ (mem_idsT_self s))
      cases t with
      | mk a c ch =>
        rw [show idsT (ATree.mk a c ch) = c.id :: idsF ch from rfl] at hnd
        rw [show (ATree.mk a c ch).core = c from rfl] at heq
        rw [heq] at hx
        exact (List.nodup_cons.1 hnd).1 hx
    | step hmem2 hsub2 =>
      rename_i v2
      have hx : s.core.id ∈ idsT v :=
        SubT_ids_subset v s hsub _ (mem_idsT_self s)
      have hx2 : s.core.id ∈ idsT v2 := by
        rw [heq]
        exact SubT_ids_subset v2 w2 hsub2 _ (mem_idsT_self w2)
      cases t with
      | mk a c ch =>
        rw [show idsT (ATree.mk a c ch) = c.id :: idsF ch from rfl] at hnd
        have hvv : v = v2 :=
          forest_id_disjoint ch (List.nodup_cons.1 hnd).2 v v2 hmem hmem2
            s.core.id hx hx2
        refine ih w2 ?_ ?_ heq
        · exact mem_ids_nodup ch v hmem (List.nodup_cons.1 hnd).2
        · rw [hvv]; exact hsub2
/-- The children-address list a node's heap record holds midway through
filter's pruning pass: a child already processed (its address in `Q`) is
present iff it survived pruning; an unprocessed child is still present. -/
def curCh (qp : NCore → Bool) (Q : List Nat) (ch : List ATree) : List Nat :=
  (ch.filter (fun v => if v.addr ∈ Q then survB qp v else true)).map
    ATree.addr

mutual

/-- Mid-prune heap invariant for a tree: every node's record is live with
its children list filtered per the processed set `Q`. -/
def InvT (qp : NCore → Bool) (Q : List Nat) (st : St) (p : Option Nat) :
    ATree → Prop
  | ATree.mk a c ch =>
      st.nodes a = some (c.toObj p (curCh qp Q ch)) ∧ InvF qp Q st a ch

/-- Mid-prune heap invariant for a forest of siblings below address `a`. -/
def InvF (qp : NCore → Bool) (Q : List Nat) (st : St) (a : Nat) :
    List ATree → Prop
  | [] => True
  | t :: ts => InvT qp Q st (some a) t ∧ InvF qp Q st a ts

end

/-- A forest member extracted with parent `a`. -/
theorem OkF_mem (st : St) (a : Nat) (F : List ATree) (h : OkF st a F) :
    ∀ v ∈ F, OkT st (some a) v := by
  induction F with
  | nil => intro v hv; simp at hv
  | cons t ts ih =>
    intro v hv
    rcases List.mem_cons.1 hv with hva | hvb
    · rw [hva]; exact h.1
    · exact ih h.2 v hvb

/-- A forest member holds the invariant with parent `a`. -/
theorem InvF_mem (qp : NCore → Bool) (Q : List Nat) (st : St) (a : Nat)
    (F : List ATree) (h : InvF qp Q st a F) :
    ∀ v ∈ F, InvT qp Q st (some a) v := by
  induction F with
  | nil => intro v hv; simp at hv
  | cons t ts ih =>
    intro v hv
    rcases List.mem_cons.1 hv with hva | hvb
    · rw [hva]; exact h.1
    · exact ih h.2 v hvb

/-- Before any processing the filtered children list is the full one. -/
theorem curCh_nil (qp : NCore → Bool) (ch : List ATree) :
    curCh qp [] ch = ch.map ATree.addr := by
  unfold curCh
  rw [List.filter_eq_self.2 (by intro v _; simp)]

/-- Once every child is processed the filtered children list is exactly the
surviving children, i.e. the pruned forest's addresses. -/
theorem curCh_full (qp : NCore → Bool) (Q : List Nat) (ch : List ATree)
    (h : ∀ v ∈ ch, v.addr ∈ Q) :
    curCh qp Q ch = (pruneF qp ch).map ATree.addr := by
  unfold curCh
  rw [pruneF_eq, List.map_map]
  have h1 : ch.filter (fun v => if v.addr ∈ Q then survB qp v else true) =
      ch.filter (survB qp) := by
    refine List.filter_congr ?_
    intro v hv
    rw [if_pos (h v hv)]
  rw [h1]
  refine (List.map_congr_left ?_).symm
  intro v _
  simp [Function.comp, pruneT_addr]

mutual

/-- The untouched heap satisfies the invariant with nothing processed. -/
theorem InvT_of_OkT (qp : NCore → Bool) (st : St) (p : Option Nat)
    (t : ATree) (h : OkT st p t) : InvT qp [] st p t := by
  cases t with
  | mk a c ch =>
    refine ⟨?_, InvF_of_OkF qp st a ch h.2⟩
    rw [curCh_nil]
    exact h.1

/-- Forest version of `InvT_of_OkT`. -/
theorem InvF_of_OkF (qp : NCore → Bool) (st : St) (a : Nat)
    (F : List ATree) (h : OkF st a F) : InvF qp [] st a F := by
  cases F with
  | nil => trivial
  | cons t ts =>
    exact ⟨InvT_of_OkT qp st (some a) t h.1, InvF_of_OkF qp st a ts h.2⟩

end

mutual

/-- After every address of the tree is processed, the invariant heap
contains exactly the pruned tree. -/
theorem InvT_to_OkT (qp : NCore → Bool) (Q : List Nat) (st : St)
    (p : Option Nat) (t : ATree) (h : InvT qp Q st p t)
    (hQ : ∀ b ∈ addrsT t, b ∈ Q) : OkT st p (pruneT qp t) := by
  cases t with
  | mk a c ch =>
    refine ⟨?_, ?_⟩
    · have h1 := h.1
      rw [curCh_full qp Q ch
        (fun v hv => hQ v.addr (child_addrs_subset (ATree.mk a c ch) v hv
          _ (mem_addrsT_self v)))] at h1
      exact h1
    · refine InvF_to_OkF qp Q st a ch h.2 ?_
      intro b hb
      refine hQ b ?_
      rw [show addrsT (ATree.mk a c ch) = a :: addrsF ch from rfl]
      exact List.mem_cons_of_mem a hb

/-- Forest version of `InvT_to_OkT`. -/
theorem InvF_to_OkF (qp : NCore → Bool) (Q : List Nat) (st : St) (a : Nat)
    (F : List ATree) (h : InvF qp Q st a F)
    (hQ : ∀ b ∈ addrsF F, b ∈ Q) : OkF st a (pruneF qp F) := by
  cases F with
  | nil => trivial
  | cons t ts =>
    rw [pruneF_cons]
    have ht : OkT st (some a) (pruneT qp t) :=
      InvT_to_OkT qp Q st (some a) t h.1
        (fun b hb => hQ b (by
          rw [show addrsF (t :: ts) = addrsT t ++ addrsF ts from rfl]
          exact List.mem_append_left _ hb))
    have hts : OkF st a (pruneF qp ts) :=
      InvF_to_OkF qp Q st a ts h.2
        (fun b hb => hQ b (by
          rw [show addrsF (t :: ts) = addrsT t ++ addrsF ts from rfl]
          exact List.mem_append_right _ hb))
    by_cases hs : survB qp t = true
    · rw [if_pos hs]; exact ⟨ht, hts⟩
    · rw [if_neg hs]; exact hts

end
/-- The record an invariant heap holds at a tree's root address. -/
theorem InvT_record (qp : NCore → Bool) (Q : List Nat) (st : St)
    (p : Option Nat) (t : ATree) (h : InvT qp Q st p t) :
    st.nodes t.addr =
      some (t.core.toObj p (curCh qp Q (ATree.children t))) := by
  cases t with
  | mk a c ch => exact h.1

/-- `curCh` unfolds on cons. -/
theorem curCh_cons (qp : NCore → Bool) (Q : List Nat) (x : ATree)
    (xs : List ATree) :
    curCh qp Q (x :: xs) =
      if (if x.addr ∈ Q then survB qp x else true) = true then
        x.addr :: curCh qp Q xs
      else curCh qp Q xs := by
  by_cases hk : (if x.addr ∈ Q then survB qp x else true) = true
  · rw [if_pos hk]
    unfold curCh
    rw [List.filter_cons, if_pos hk]
    rfl
  · rw [if_neg hk]
    unfold curCh
    rw [List.filter_cons, if_neg hk]

/-- Marking one more address as processed leaves a children list unchanged
when any child at that address survived. -/
theorem curCh_keep_eq (qp : NCore → Bool) (Q : List Nat) (w : ATree)
    (ch : List ATree)
    (h : ∀ x ∈ ch, x.addr = w.addr → survB qp x = true) :
    curCh qp (Q ++ [w.addr]) ch = curCh qp Q ch := by
  unfold curCh
  refine congrArg (List.map ATree.addr) (List.filter_congr ?_)
  intro x hx
  by_cases hxa : x.addr = w.addr
  · have hs := h x hx hxa
    have hm : x.addr ∈ Q ++ [w.addr] := by
      rw [hxa]; exact List.mem_append_right _ (List.mem_singleton.2 rfl)
    rw [if_pos hm, hs]
    by_cases hq : x.addr ∈ Q
    · rw [if_pos hq]
    · rw [if_neg hq]
  · have hm : (x.addr ∈ Q ++ [w.addr]) ↔ (x.addr ∈ Q) := by
      rw [List.mem_append, List.mem_singleton]
      exact ⟨fun h2 => h2.resolve_right hxa, Or.inl⟩
    by_cases hq : x.addr ∈ Q
    · rw [if_pos (hm.2 hq), if_pos hq]
    · rw [if_neg (fun h2 => hq (hm.1 h2)), if_neg hq]

/-- Effect of the heap rewrite made when pruning node `w` from its parent:
dropping the id-matching entries from the parent's current children list is
exactly the children list with `w` additionally marked processed. -/
theorem curCh_prune_eq (qp : NCore → Bool) (Q : List Nat) (st : St)
    (pa : Nat) (w : ATree) (ch : List ATree)
    (hrec : ∀ x ∈ ch, InvT qp Q st (some pa) x)
    (haun : ∀ x ∈ ch, x.addr = w.addr → x = w)
    (hiun : ∀ x ∈ ch, x.core.id = w.core.id → x = w)
    (hQ : w.addr ∉ Q)
    (hs : survB qp w = false) :
    (curCh qp Q ch).filter (fun c => (getN st c).id != w.core.id) =
      curCh qp (Q ++ [w.addr]) ch := by
  induction ch with
  | nil => rfl
  | cons x xs ih =>
    have ihx := ih (fun y hy => hrec y (List.mem_cons_of_mem x hy))
      (fun y hy => haun y (List.mem_cons_of_mem x hy))
      (fun y hy => hiun y (List.mem_cons_of_mem x hy))
    have hgetx : getN st x.addr =
        x.core.toObj (some pa) (curCh qp Q (ATree.children x)) := by
      unfold getN
      rw [InvT_record qp Q st (some pa) x (hrec x (List.mem_cons_self x xs))]
      rfl
    have hidx : (getN st x.addr).id = x.core.id := by
      rw [hgetx]; rfl
    by_cases hxw : x = w
    · have hko : (if x.addr ∈ Q then survB qp x else true) = true := by
        rw [hxw, if_neg hQ]
      have hkn : (if x.addr ∈ Q ++ [w.addr] then survB qp x else true) =
          false := by
        rw [if_pos (by
          rw [hxw]
          exact List.mem_append_right _ (List.mem_singleton.2 rfl))]
        rw [hxw]; exact hs
      rw [curCh_cons, if_pos hko, curCh_cons qp (Q ++ [w.addr]), hkn]
      rw [if_neg (by simp)]
      rw [List.filter_cons]
      rw [show ((getN st x.addr).id != w.core.id) = false from by
        rw [hidx, hxw]; simp]
      rw [if_neg (by simp)]
      exact ihx
    · have hxa : x.addr ≠ w.addr := fun h2 => hxw (haun x (List.mem_cons_self x xs) h2)
      have hxi : x.core.id ≠ w.core.id :=
        fun h2 => hxw (hiun x (List.mem_cons_self x xs) h2)
      have hmm : (x.addr ∈ Q ++ [w.addr]) ↔ (x.addr ∈ Q) := by
        rw [List.mem_append, List.mem_singleton]
        exact ⟨fun h2 => h2.resolve_right hxa, Or.inl⟩
      by_cases hko : (if x.addr ∈ Q then survB qp x else true) = true
      · have hkn : (if x.addr ∈ Q ++ [w.addr] then survB qp x else true) =
            true := by
          by_cases hq : x.addr ∈ Q
          · rw [if_pos (hmm.2 hq)]
            rw [if_pos hq] at hko
            exact hko
          · rw [if_neg (fun h2 => hq (hmm.1 h2))]
        rw [curCh_cons, if_pos hko, curCh_cons qp (Q ++ [w.addr]), hkn]
        rw [if_pos rfl]
        rw [List.filter_cons]
        rw [show ((getN st x.addr).id != w.core.id) = true from by
          rw [hidx]; simp [hxi]]
        rw [if_pos rfl, ihx]
      · have hkn : ¬((if x.addr ∈ Q ++ [w.addr] then survB qp x else true) =
            true) := by
          by_cases hq : x.addr ∈ Q
          · rw [if_pos (hmm.2 hq)]
            rw [if_pos hq] at hko
            exact hko
          · exfalso
            rw [if_neg hq] at hko
            exact hko rfl
        rw [curCh_cons, if_neg hko, curCh_cons qp (Q ++ [w.addr]),
          if_neg hkn]
        exact ihx
/-- A proper subtree has a parent node inside the tree. -/
theorem parent_exists (u w : ATree) (h : SubT u w) (hne : w ≠ u) :
    ∃ v0, SubT u v0 ∧ w ∈ ATree.children v0 := by
  induction h with
  | refl t => exact absurd rfl hne
  | step hmem hsub ih =>
    rename_i t v s
    by_cases hvs : s = v
    · rw [hvs]
      exact ⟨t, SubT.refl t, hmem⟩
    · obtain ⟨v0, hv0, hmem0⟩ := ih hvs
      exact ⟨v0, SubT.step hmem hv0, hmem0⟩

/-- A subtree of a forest member. -/
def MemSubF (F : List ATree) (w : ATree) : Prop :=
  ∃ v ∈ F, SubT v w

/-- In an address-distinct forest, a subtree of any member is determined by
its root address. -/
theorem subF_addr_unique (F : List ATree) (hnd : (addrsF F).Nodup)
    (w1 w2 : ATree) (h1 : MemSubF F w1) (h2 : MemSubF F w2)
    (heq : w1.addr = w2.addr) : w1 = w2 := by
  obtain ⟨v1, hv1, hs1⟩ := h1
  obtain ⟨v2, hv2, hs2⟩ := h2
  have hx1 : w1.addr ∈ addrsT v1 :=
    SubT_addrs_subset v1 w1 hs1 _ (mem_addrsT_self w1)
  have hx2 : w1.addr ∈ addrsT v2 := by
    rw [heq]
    exact SubT_addrs_subset v2 w2 hs2 _ (mem_addrsT_self w2)
  have hv : v1 = v2 :=
    forest_addr_disjoint F hnd v1 v2 hv1 hv2 w1.addr hx1 hx2
  refine subT_addr_unique v1 w1 hs1 w2 (mem_addrs_nodup F v1 hv1 hnd) ?_ heq
  rw [hv]; exact hs2

/-- A member's size bounds below the forest's. -/
theorem sizeT_le_of_mem (F : List ATree) (v : ATree) (hv : v ∈ F) :
    sizeT v ≤ sizeF F := by
  induction F with
  | nil => simp at hv
  | cons t ts ih =>
    rw [show sizeF (t :: ts) = sizeT t + sizeF ts from rfl]
    rcases List.mem_cons.1 hv with hva | hvb
    · rw [hva]; omega
    · have h := ih hvb; omega

/-- Uniqueness of the parent link: in an address-distinct tree a child
address determines both the parent node and the child. -/
theorem parent_unique (u : ATree) (hnd : (addrsT u).Nodup) :
    ∀ v v0 w w0, SubT u v → SubT u v0 → w ∈ ATree.children v →
      w0 ∈ ATree.children v0 → w.addr = w0.addr → v = v0 ∧ w = w0 := by
  have hgen : ∀ n (u2 : ATree), sizeT u2 ≤ n → (addrsT u2).Nodup →
      ∀ v v0 w w0, SubT u2 v → SubT u2 v0 → w ∈ ATree.children v →
        w0 ∈ ATree.children v0 → w.addr = w0.addr → v = v0 ∧ w = w0 := by
    intro n
    induction n with
    | zero =>
      intro u2 hsz
      exfalso
      cases u2 with
      | mk a c ch =>
        rw [show sizeT (ATree.mk a c ch) = 1 + sizeF ch from rfl] at hsz
        omega
    | succ m ih =>
      intro u2 hsz hnd2 v v0 w w0 hv hv0 hw hw0 heq
      cases hv with
      | refl =>
        cases hv0 with
        | refl =>
          refine ⟨rfl, ?_⟩
          refine forest_addr_disjoint (ATree.children u2) ?_ w w0 hw hw0
            w.addr (mem_addrsT_self w) (by rw [heq]; exact mem_addrsT_self w0)
          cases u2 with
          | mk a c ch =>
            rw [show addrsT (ATree.mk a c ch) = a :: addrsF ch from rfl]
              at hnd2
            exact (List.nodup_cons.1 hnd2).2
        | step hmemc hsubc =>
          rename_i c0
          exfalso
          have hx : w0.addr ∈ addrsF (ATree.children c0) :=
            inner_addr_mem c0 v0 w0 hsubc hw0
          cases u2 with
          | mk a c ch =>
            rw [show addrsT (ATree.mk a c ch) = a :: addrsF ch from rfl]
              at hnd2
            exact root_not_inner ch (List.nodup_cons.1 hnd2).2 w c0 hw hmemc
              w0.addr hx heq
      | step hmemc hsubc =>
        rename_i c1
        cases hv0 with
        | refl =>
          exfalso
          have hx : w.addr ∈ addrsF (ATree.children c1) :=
            inner_addr_mem c1 v w hsubc hw
          cases u2 with
          | mk a c ch =>
            rw [show addrsT (ATree.mk a c ch) = a :: addrsF ch from rfl]
              at hnd2
            exact root_not_inner ch (List.nodup_cons.1 hnd2).2 w0 c1 hw0 hmemc
              w.addr hx heq.symm
        | step hmemc0 hsubc0 =>
          rename_i c2
          have hcc : c1 = c2 := by
            have hx1 : w.addr ∈ addrsT c1 := by
              refine SubT_addrs_subset c1 v hsubc _ ?_
              exact child_addrs_subset v w hw _ (mem_addrsT_self w)
            have hx2 : w.addr ∈ addrsT c2 := by
              rw [heq]
              refine SubT_addrs_subset c2 v0 hsubc0 _ ?_
              exact child_addrs_subset v0 w0 hw0 _ (mem_addrsT_self w0)
            cases u2 with
            | mk a c ch =>
              rw [show addrsT (ATree.mk a c ch) = a :: addrsF ch from rfl]
                at hnd2
              exact forest_addr_disjoint ch (List.nodup_cons.1 hnd2).2 c1 c2
                hmemc hmemc0 w.addr hx1 hx2
          subst hcc
          refine ih c1 ?_ ?_ v v0 w w0 hsubc hsubc0 hw hw0 heq
          · cases u2 with
            | mk a c ch =>
              rw [show sizeT (ATree.mk a c ch) = 1 + sizeF ch from rfl]
                at hsz
              have h2 : sizeT c1 ≤ sizeF ch := sizeT_le_of_mem ch c1 hmemc
              omega
          · exact child_addrs_nodup u2 c1 hnd2 hmemc
  exact hgen (sizeT u) u (le_refl _) hnd

/-- A forest address comes from some member. -/
theorem mem_addrsF_inv (F : List ATree) (b : Nat) (hb : b ∈ addrsF F) :
    ∃ v ∈ F, b ∈ addrsT v := by
  induction F with
  | nil => simp [addrsF] at hb
  | cons t ts ih =>
    rw [show addrsF (t :: ts) = addrsT t ++ addrsF ts from rfl] at hb
    rcases List.mem_append.1 hb with hba | hbb
    · exact ⟨t, List.mem_cons_self t ts, hba⟩
    · obtain ⟨v, hv1, hv2⟩ := ih hbb
      exact ⟨v, List.mem_cons_of_mem t hv1, hv2⟩

/-- Every address of a tree is the root address of one of its subtrees. -/
theorem addr_to_sub (u : ATree) (b : Nat) (hb : b ∈ addrsT u) :
    ∃ w, SubT u w ∧ w.addr = b := by
  have hgen : ∀ n (u2 : ATree), sizeT u2 ≤ n → ∀ b2, b2 ∈ addrsT u2 →
      ∃ w, SubT u2 w ∧ w.addr = b2 := by
    intro n
    induction n with
    | zero =>
      intro u2 hsz
      exfalso
      cases u2 with
      | mk a c ch =>
        rw [show sizeT (ATree.mk a c ch) = 1 + sizeF ch from rfl] at hsz
        omega
    | succ m ih =>
      intro u2 hsz b2 hb2
      cases u2 with
      | mk a c ch =>
        rw [show addrsT (ATree.mk a c ch) = a :: addrsF ch from rfl] at hb2
        rcases List.mem_cons.1 hb2 with hba | hbb
        · exact ⟨ATree.mk a c ch, SubT.refl _, hba.symm⟩
        · obtain ⟨v, hv1, hv2⟩ := mem_addrsF_inv ch b2 hbb
          obtain ⟨w, hw1, hw2⟩ := ih v (by
            rw [show sizeT (ATree.mk a c ch) = 1 + sizeF ch from rfl] at hsz
            have h2 : sizeT v ≤ sizeF ch := sizeT_le_of_mem ch v hv1
            omega) b2 hv2
          exact ⟨w, SubT.step hv1 hw1, hw2⟩
  exact hgen (sizeT u) u (le_refl _) b hb

/-- Depth-first pre-order addresses, via `flatMap`. -/
theorem addrsF_eq_flatMap (F : List ATree) :
    addrsF F = F.flatMap addrsT := by
  induction F with
  | nil => rfl
  | cons t ts ih =>
    rw [show addrsF (t :: ts) = addrsT t ++ addrsF ts from rfl,
      List.flatMap_cons, ih]
/-- The BFS enumeration unfolds on cons. -/
theorem bfsF_cons (t : ATree) (ts : List ATree) :
    bfsF (t :: ts) = t.addr :: bfsF (ts ++ ATree.children t) := by
  simp [bfsF]

/-- The BFS enumeration is a permutation of the depth-first one. -/
theorem bfsF_perm (F : List ATree) : List.Perm (bfsF F) (addrsF F) := by
  have hgen : ∀ n (F2 : List ATree), sizeF F2 ≤ n →
      List.Perm (bfsF F2) (addrsF F2) := by
    intro n
    induction n with
    | zero =>
      intro F2 hsz
      rw [sizeF_le_zero F2 hsz]
      simp [bfsF, addrsF]
    | succ m ih =>
      intro F2 hsz
      cases F2 with
      | nil => simp [bfsF, addrsF]
      | cons t ts =>
        rw [bfsF_cons]
        cases t with
        | mk a c ch =>
          have hp := ih (ts ++ ATree.children (ATree.mk a c ch)) (by
            rw [sizeF_append]
            rw [show sizeF (ATree.mk a c ch :: ts) =
              sizeT (ATree.mk a c ch) + sizeF ts from rfl,
              show sizeT (ATree.mk a c ch) = 1 + sizeF ch from rfl] at hsz
            rw [show ATree.children (ATree.mk a c ch) = ch from rfl]
            omega)
          refine List.Perm.trans (List.Perm.cons _ hp) ?_
          rw [addrsF_append]
          rw [show addrsF (ATree.mk a c ch :: ts) =
            addrsT (ATree.mk a c ch) ++ addrsF ts from rfl,
            show addrsT (ATree.mk a c ch) = a :: addrsF ch from rfl,
            show (ATree.mk a c ch).addr = a from rfl,
            show ATree.children (ATree.mk a c ch) = ch from rfl,
            List.cons_append]
          refine List.Perm.cons a ?_
          exact List.perm_append_comm
  exact hgen (sizeF F) F (le_refl _)

/-- A subtree address appears in the BFS enumeration. -/
theorem mem_bfsF (F : List ATree) (b : Nat) (hb : b ∈ addrsF F) :
    b ∈ bfsF F := ((bfsF_perm F).mem_iff).2 hb

/-- The heap BFS loop of `filter` computes the pure BFS enumeration. -/
theorem bfsFlatten_eq_pure (fuel : Nat) :
    ∀ (st : St) (F : List ATree), sizeF F ≤ fuel →
    (∀ v ∈ F, ∃ p, OkT st p v) →
    bfsFlatten fuel st (F.map ATree.addr) = bfsF F := by
  induction fuel with
  | zero =>
    intro st F hsz _
    rw [sizeF_le_zero F hsz]
    simp [bfsFlatten, bfsF]
  | succ m ih =>
    intro st F hsz hok
    cases F with
    | nil => simp [bfsFlatten, bfsF]
    | cons t ts =>
      rw [show (t :: ts).map ATree.addr =
        t.addr :: ts.map ATree.addr from rfl]
      rw [show bfsFlatten (m + 1) st (t.addr :: ts.map ATree.addr) =
        t.addr :: bfsFlatten m st
          (ts.map ATree.addr ++ (getN st t.addr).children) from rfl]
      obtain ⟨p, hp⟩ := hok t (List.mem_cons_self t ts)
      have hch : (getN st t.addr).children = (ATree.children t).map
          ATree.addr := by
        rw [getN_eq_of_nodes _ _ _ (OkT_record st p t hp)]
        rfl
      have hokk : ∀ v ∈ ts ++ ATree.children t, ∃ p2, OkT st p2 v := by
        intro v hv
        rcases List.mem_append.1 hv with hva | hvb
        · exact hok v (List.mem_cons_of_mem t hva)
        · exact ⟨some t.addr, OkT_children st p t hp v hvb⟩
      have hsz2 : sizeF (ts ++ ATree.children t) ≤ m := by
        rw [sizeF_append]
        have h1 : sizeF (t :: ts) = sizeT t + sizeF ts := rfl
        have h2 := sizeT_eq t
        omega
      rw [hch, ← List.map_append, bfsF_cons]
      exact congrArg (List.cons t.addr)
        (ih st (ts ++ ATree.children t) hsz2 hokk)

/-- In the BFS enumeration every subtree's children come after it: whatever
split isolates a subtree's address puts all of its children's addresses in
the tail. -/
theorem bfs_parent_first :
    ∀ (n : Nat) (F : List ATree), sizeF F ≤ n → (addrsF F).Nodup →
    ∀ (A : List Nat) (b : Nat) (B : List Nat), bfsF F = A ++ b :: B →
    ∀ w, MemSubF F w → w.addr = b →
    ∀ c ∈ ATree.children w, ATree.addr c ∈ B := by
  intro n
  induction n with
  | zero =>
    intro F hsz _ A b B hsplit
    exfalso
    rw [sizeF_le_zero F hsz] at hsplit
    simp [bfsF] at hsplit
  | succ m ih =>
    intro F hsz hnd A b B hsplit w hw hwb c hc
    cases F with
    | nil =>
      exfalso
      simp [bfsF] at hsplit
    | cons t ts =>
      rw [bfsF_cons] at hsplit
      have hnd2 : (addrsF (ts ++ ATree.children t)).Nodup := by
        rw [addrsF_append]
        cases t with
        | mk a0 c0 ch0 =>
          rw [show addrsF (ATree.mk a0 c0 ch0 :: ts) =
            addrsT (ATree.mk a0 c0 ch0) ++ addrsF ts from rfl,
            show addrsT (ATree.mk a0 c0 ch0) = a0 :: addrsF ch0 from rfl,
            List.cons_append] at hnd
          have h1 : (addrsF ch0 ++ addrsF ts).Nodup :=
            List.Nodup.of_cons hnd
          rw [show ATree.children (ATree.mk a0 c0 ch0) = ch0 from rfl]
          exact (List.perm_append_comm).nodup_iff.1 h1
      have hsz2 : sizeF (ts ++ ATree.children t) ≤ m := by
        rw [sizeF_append]
        have h1 : sizeF (t :: ts) = sizeT t + sizeF ts := rfl
        have h2 := sizeT_eq t
        omega
      cases A with
      | nil =>
        rw [List.nil_append] at hsplit
        injection hsplit with hb hB
        have hwt : w = t := by
          refine subF_addr_unique (t :: ts) hnd w t hw
            ⟨t, List.mem_cons_self t ts, SubT.refl t⟩ ?_
          rw [hwb, ← hb]
        rw [← hB]
        refine mem_bfsF _ _ ?_
        rw [addrsF_append]
        refine List.mem_append_right _ ?_
        rw [← hwt]
        exact mem_addrsF _ c _ hc (mem_addrsT_self c)
      | cons a0 A2 =>
        rw [List.cons_append] at hsplit
        injection hsplit with ha0 hrest
        have hbt : b ≠ t.addr := by
          intro hcontra
          have hndb : (bfsF (t :: ts)).Nodup :=
            ((bfsF_perm (t :: ts)).nodup_iff).2 hnd
          rw [bfsF_cons, hrest] at hndb
          have h2 := (List.nodup_cons.1 hndb).1
          refine h2 (List.mem_append_right _ ?_)
          rw [← hcontra]
          exact List.mem_cons_self _ _
        have hw2 : MemSubF (ts ++ ATree.children t) w := by
          obtain ⟨v, hv, hsv⟩ := hw
          rcases List.mem_cons.1 hv with hvt | hvts
          · rw [hvt] at hsv
            cases hsv with
            | refl => exact absurd hwb.symm hbt
            | step hmem0 hsub0 =>
              rename_i c0
              exact ⟨c0, List.mem_append_right _ hmem0, hsub0⟩
          · exact ⟨v, List.mem_append_left _ hvts, hsv⟩
        exact ih (ts ++ ATree.children t) hsz2 hnd2 A2 b B hrest w hw2 hwb
          c hc
/-- Replacing the children list of a rebuilt record rebuilds with the new
list. -/
theorem toObj_children_update (c : NCore) (p : Option Nat)
    (l l2 : List Nat) : { c.toObj p l with children := l2 } = c.toObj p l2 :=
  rfl

/-- The invariant passes from a tree to a child. -/
theorem InvT_child (qp : NCore → Bool) (Q : List Nat) (st : St)
    (t x : ATree) (p : Option Nat) (hx : x ∈ ATree.children t)
    (h : InvT qp Q st p t) : InvT qp Q st (some (ATree.addr t)) x := by
  cases t with
  | mk a c ch => exact InvF_mem qp Q st a ch h.2 x hx

/-- The invariant restricts to any subtree, with some parent value. -/
theorem InvT_of_SubT (qp : NCore → Bool) (Q : List Nat) (st : St)
    (u v : ATree) (hsub : SubT u v) :
    ∀ p, InvT qp Q st p u → ∃ p2, InvT qp Q st p2 v := by
  induction hsub with
  | refl t => exact fun p h => ⟨p, h⟩
  | step hmem _ ih =>
    intro p h
    exact ih _ (InvT_child qp Q st _ _ p hmem h)

mutual

/-- Marking a surviving node processed preserves the invariant with the
heap untouched. -/
theorem Inv_keep_T (qp : NCore → Bool) (Q : List Nat) (st : St)
    (u w : ATree) (hndA : (addrsT u).Nodup) (hsubw : SubT u w)
    (hs : survB qp w = true) (t : ATree) (p : Option Nat)
    (hsub : SubT u t) (h : InvT qp Q st p t) :
    InvT qp (Q ++ [ATree.addr w]) st p t := by
  cases t with
  | mk a c ch =>
    refine ⟨?_, Inv_keep_F qp Q st u w hndA hsubw hs ch a
      (fun x hx => SubT_trans u _ x hsub
        (SubT_child (ATree.mk a c ch) x hx)) h.2⟩
    rw [curCh_keep_eq qp Q w ch ?_]
    · exact h.1
    · intro x hx heq
      have hsx : SubT u x := SubT_trans u _ x hsub
        (SubT_child (ATree.mk a c ch) x hx)
      rw [subT_addr_unique u x hsx w hndA hsubw heq]
      exact hs

/-- Forest version of `Inv_keep_T`. -/
theorem Inv_keep_F (qp : NCore → Bool) (Q : List Nat) (st : St)
    (u w : ATree) (hndA : (addrsT u).Nodup) (hsubw : SubT u w)
    (hs : survB qp w = true) (F : List ATree) (a : Nat)
    (hsubs : ∀ x ∈ F, SubT u x) (h : InvF qp Q st a F) :
    InvF qp (Q ++ [ATree.addr w]) st a F := by
  cases F with
  | nil => trivial
  | cons t ts =>
    exact ⟨Inv_keep_T qp Q st u w hndA hsubw hs t (some a)
        (hsubs t (List.mem_cons_self t ts)) h.1,
      Inv_keep_F qp Q st u w hndA hsubw hs ts a
        (fun x hx => hsubs x (List.mem_cons_of_mem t hx)) h.2⟩

end

mutual

/-- Pruning a dead leaf `w` out of its parent's record preserves the
invariant with `w` marked processed. -/
theorem Inv_prune_T (qp : NCore → Bool) (Q : List Nat) (st : St)
    (u w v0 : ATree) (hndA : (addrsT u).Nodup) (hndI : (idsT u).Nodup)
    (hsubv0 : SubT u v0) (hw : w ∈ ATree.children v0)
    (hQw : ATree.addr w ∉ Q) (hs : survB qp w = false)
    (t : ATree) (p : Option Nat) (hsub : SubT u t) (h : InvT qp Q st p t) :
    InvT qp (Q ++ [ATree.addr w])
      (setNode st (ATree.addr v0)
        { getN st (ATree.addr v0) with
          children := (getN st (ATree.addr v0)).children.filter
            (fun c2 => (getN st c2).id != w.core.id) }) p t := by
  have hsubw : SubT u w :=
    SubT_trans u v0 w hsubv0 (SubT_child v0 w hw)
  cases t with
  | mk a c ch =>
    have hchsub : ∀ x ∈ ch, SubT u x := fun x hx =>
      SubT_trans u _ x hsub (SubT_child (ATree.mk a c ch) x hx)
    refine ⟨?_, Inv_prune_F qp Q st u w v0 hndA hndI hsubv0 hw hQw hs ch a
      hchsub h.2⟩
    by_cases hav : a = ATree.addr v0
    · have htv0 : ATree.mk a c ch = v0 :=
        subT_addr_unique u (ATree.mk a c ch) hsub v0 hndA hsubv0 hav
      rw [hav, setNode_nodes_self]
      refine congrArg some ?_
      have hgv0 : getN st (ATree.addr v0) =
          c.toObj p (curCh qp Q ch) := by
        rw [← hav]
        exact getN_eq_of_nodes _ _ _ h.1
      rw [hgv0, toObj_children_update]
      rw [show (c.toObj p (curCh qp Q ch)).children = curCh qp Q ch from rfl]
      rw [curCh_prune_eq qp Q st a w ch
        (InvF_mem qp Q st a ch h.2)
        (fun x hx heq =>
          subT_addr_unique u x (hchsub x hx) w hndA hsubw heq)
        (fun x hx heq =>
          subT_id_unique u x (hchsub x hx) w hndI hsubw heq)
        hQw hs]
    · rw [setNode_nodes_ne st (ATree.addr v0) _ a hav]
      rw [curCh_keep_eq qp Q w ch ?_]
      · exact h.1
      · intro x hx heq
        exfalso
        have hxw : x = w :=
          subT_addr_unique u x (hchsub x hx) w hndA hsubw heq
        have hpar := parent_unique u hndA (ATree.mk a c ch) v0 w w hsub
          hsubv0 (hxw ▸ hx) hw rfl
        refine hav ?_
        rw [← hpar.1]
        rfl

/-- Forest version of `Inv_prune_T`. -/
theorem Inv_prune_F (qp : NCore → Bool) (Q : List Nat) (st : St)
    (u w v0 : ATree) (hndA : (addrsT u).Nodup) (hndI : (idsT u).Nodup)
    (hsubv0 : SubT u v0) (hw : w ∈ ATree.children v0)
    (hQw : ATree.addr w ∉ Q) (hs : survB qp w = false)
    (F : List ATree) (a : Nat) (hsubs : ∀ x ∈ F, SubT u x)
    (h : InvF qp Q st a F) :
    InvF qp (Q ++ [ATree.addr w])
      (setNode st (ATree.addr v0)
        { getN st (ATree.addr v0) with
          children := (getN st (ATree.addr v0)).children.filter
            (fun c2 => (getN st c2).id != w.core.id) }) a F := by
  cases F with
  | nil => trivial
  | cons t ts =>
    exact ⟨Inv_prune_T qp Q st u w v0 hndA hndI hsubv0 hw hQw hs t (some a)
        (hsubs t (List.mem_cons_self t ts)) h.1,
      Inv_prune_F qp Q st u w v0 hndA hndI hsubv0 hw hQw hs ts a
        (fun x hx => hsubs x (List.mem_cons_of_mem t hx)) h.2⟩

end
/-- The id stored by a rebuilt record. -/
theorem toObj_id (c : NCore) (p : Option Nat) (l : List Nat) :
    (c.toObj p l).id = c.id := rfl

/-- The scalar fields of a rebuilt record. -/
theorem toObj_core (c : NCore) (p : Option Nat) (l : List Nat) :
    (c.toObj p l).core = c := rfl

/-- The parent link of a rebuilt record. -/
theorem toObj_parent (c : NCore) (p : Option Nat) (l : List Nat) :
    (c.toObj p l).parent = p := rfl

/-- The children list of a rebuilt record. -/
theorem toObj_ch (c : NCore) (p : Option Nat) (l : List Nat) :
    (c.toObj p l).children = l := rfl

/-- A non-survivor fails the predicate and loses all children. -/
theorem survB_false (qp : NCore → Bool) (w : ATree)
    (h : survB qp w = false) :
    qp w.core = false ∧ pruneF qp (ATree.children w) = [] := by
  unfold survB at h
  rcases Bool.or_eq_false_iff.1 h with ⟨h1, h2⟩
  refine ⟨h1, ?_⟩
  have h3 : (pruneF qp (ATree.children w)).isEmpty = true := by
    cases hq : (pruneF qp (ATree.children w)).isEmpty
    · rw [hq] at h2; simp at h2
    · rfl
  exact List.isEmpty_iff.1 h3

/-- Main accounting of filter's pruning pass: processing any suffix of the
reverse BFS enumeration from a state satisfying the invariant for the
processed prefix ends with no error, the invariant extended over the whole
list, and no change outside the tree (nor to tasks or counters) — provided
the root itself survives. -/
theorem pruneFold_run (qp : NCore → Bool) (P : NodeObj → Except Unit Bool)
    (hP : ∀ n, P n = Except.ok (qp n.core))
    (u : ATree) (hndA : (addrsT u).Nodup) (hndI : (idsT u).Nodup)
    (hsurv : survB qp u = true) :
    ∀ (S Q : List Nat) (st : St),
      (bfsF [u]).reverse = Q ++ S →
      InvT qp Q st none u →
      (pruneFold P st S).2 = false ∧
      InvT qp (Q ++ S) (pruneFold P st S).1 none u ∧
      (∀ b, b ∉ addrsT u → (pruneFold P st S).1.nodes b = st.nodes b) ∧
      (pruneFold P st S).1.tasks = st.tasks ∧
      (pruneFold P st S).1.nextN = st.nextN ∧
      (pruneFold P st S).1.nextT = st.nextT := by
  intro S
  induction S with
  | nil =>
    intro Q st hsplit hinv
    rw [show pruneFold P st [] = (st, false) from rfl]
    rw [List.append_nil]
    exact ⟨rfl, hinv, fun b _ => rfl, rfl, rfl, rfl⟩
  | cons b S2 ih =>
    intro Q st hsplit hinv
    have hndL : (bfsF [u]).Nodup := by
      refine ((bfsF_perm [u]).nodup_iff).2 ?_
      rw [show addrsF [u] = addrsT u ++ addrsF [] from rfl]
      rw [show addrsF ([] : List ATree) = [] from rfl, List.append_nil]
      exact hndA
    have hndR : ((bfsF [u]).reverse).Nodup := List.nodup_reverse.2 hndL
    have hbQ : b ∉ Q := by
      rw [hsplit] at hndR
      obtain ⟨_, _, hdisj⟩ := List.nodup_append.1 hndR
      intro hcontra
      exact hdisj hcontra (List.mem_cons_self b S2)
    have hbU : b ∈ addrsT u := by
      have h1 : b ∈ (bfsF [u]).reverse := by
        rw [hsplit]
        exact List.mem_append_right _ (List.mem_cons_self b S2)
      have h2 : b ∈ bfsF [u] := List.mem_reverse.1 h1
      have h3 := ((bfsF_perm [u]).mem_iff).1 h2
      rw [show addrsF [u] = addrsT u ++ addrsF [] from rfl] at h3
      rw [show addrsF ([] : List ATree) = [] from rfl,
        List.append_nil] at h3
      exact h3
    obtain ⟨w, hsubw, hwb⟩ := addr_to_sub u b hbU
    have hQc : ∀ c ∈ ATree.children w, ATree.addr c ∈ Q := by
      intro c hc
      have hL : bfsF [u] = S2.reverse ++ b :: Q.reverse := by
        have h1 : bfsF [u] = ((bfsF [u]).reverse).reverse := by
          rw [List.reverse_reverse]
        rw [h1, hsplit, List.reverse_append, List.reverse_cons,
          List.append_assoc, List.singleton_append]
      have h2 := bfs_parent_first (sizeF [u]) [u] (le_refl _) (by
        rw [show addrsF [u] = addrsT u ++ addrsF [] from rfl]
        rw [show addrsF ([] : List ATree) = [] from rfl, List.append_nil]
        exact hndA) S2.reverse b Q.reverse hL w
        ⟨u, List.mem_cons_self u [], hsubw⟩ hwb c hc
      exact List.mem_reverse.1 h2
    have hfullQ : curCh qp Q (ATree.children w) =
        (pruneF qp (ATree.children w)).map ATree.addr :=
      curCh_full qp Q (ATree.children w) hQc
    cases hsw : survB qp w with
    | true =>
      obtain ⟨pw, hwInv⟩ := InvT_of_SubT qp Q st u w hsubw none hinv
      have hn : getN st b = w.core.toObj pw (curCh qp Q (ATree.children w)) := by
        rw [← hwb]
        exact getN_eq_of_nodes _ _ _ (InvT_record qp Q st pw w hwInv)
      have hcond : ¬(qp (getN st b).core = false ∧
          (getN st b).children = []) := by
        rw [hn, toObj_core, toObj_ch, hfullQ]
        unfold survB at hsw
        rcases Bool.or_eq_true_iff.1 hsw with h1 | h1
        · intro hc; rw [hc.1] at h1; cases h1
        · intro hc
          have h2 := List.map_eq_nil_iff.1 hc.2
          rw [h2] at h1
          simp at h1
      have hstep : pruneStep P st b = Except.ok st := by
        simp only [pruneStep, hP]
        rw [if_neg hcond]
      have hfold : pruneFold P st (b :: S2) = pruneFold P st S2 := by
        simp only [pruneFold, hstep]
      have hinv2 : InvT qp (Q ++ [b]) st none u := by
        rw [← hwb]
        exact Inv_keep_T qp Q st u w hndA hsubw hsw u none (SubT.refl u) hinv
      have hsplit2 : (bfsF [u]).reverse = (Q ++ [b]) ++ S2 := by
        rw [hsplit, List.append_assoc, List.singleton_append]
      obtain ⟨r1, r2, r3, r4, r5, r6⟩ := ih (Q ++ [b]) st hsplit2 hinv2
      rw [hfold]
      refine ⟨r1, ?_, r3, r4, r5, r6⟩
      rw [show Q ++ b :: S2 = (Q ++ [b]) ++ S2 from by
        rw [List.append_assoc, List.singleton_append]]
      exact r2
    | false =>
      have hwu : w ≠ u := by
        intro hcontra
        rw [hcontra] at hsw
        rw [hsurv] at hsw
        cases hsw
      obtain ⟨v0, hsubv0, hwch⟩ := parent_exists u w hsubw hwu
      obtain ⟨pv, hv0Inv⟩ := InvT_of_SubT qp Q st u v0 hsubv0 none hinv
      have hwInv : InvT qp Q st (some (ATree.addr v0)) w :=
        InvT_child qp Q st v0 w pv hwch hv0Inv
      have hn : getN st b = w.core.toObj (some (ATree.addr v0))
          (curCh qp Q (ATree.children w)) := by
        rw [← hwb]
        exact getN_eq_of_nodes _ _ _
          (InvT_record qp Q st (some (ATree.addr v0)) w hwInv)
      obtain ⟨hqw, hpw⟩ := survB_false qp w hsw
      have hchnil : (getN st b).children = [] := by
        rw [hn, toObj_ch, hfullQ, hpw]
        rfl
      have hcond : qp (getN st b).core = false ∧
          (getN st b).children = [] := by
        refine ⟨?_, hchnil⟩
        rw [hn, toObj_core]
        exact hqw
      have hpar : (getN st b).parent = some (ATree.addr v0) := by
        rw [hn, toObj_parent]
      have hstep : pruneStep P st b = Except.ok (setNode st (ATree.addr v0)
          { getN st (ATree.addr v0) with
            children := (getN st (ATree.addr v0)).children.filter
              (fun c2 => (getN st c2).id != (getN st b).id) }) := by
        simp only [pruneStep, hP]
        rw [if_pos hcond, hpar]
      have hid : (getN st b).id = w.core.id := by
        rw [hn, toObj_id]
      have hst2 : (setNode st (ATree.addr v0)
          { getN st (ATree.addr v0) with
            children := (getN st (ATree.addr v0)).children.filter
              (fun c2 => (getN st c2).id != (getN st b).id) }) =
          (setNode st (ATree.addr v0)
          { getN st (ATree.addr v0) with
            children := (getN st (ATree.addr v0)).children.filter
              (fun c2 => (getN st c2).id != w.core.id) }) := by
        simp only [hid]
      rw [hst2] at hstep
      have hQwb : ATree.addr w ∉ Q := by rw [hwb]; exact hbQ
      have hinv2 : InvT qp (Q ++ [ATree.addr w])
          (setNode st (ATree.addr v0)
          { getN st (ATree.addr v0) with
            children := (getN st (ATree.addr v0)).children.filter
              (fun c2 => (getN st c2).id != w.core.id) }) none u :=
        Inv_prune_T qp Q st u w v0 hndA hndI hsubv0 hwch hQwb hsw u none
          (SubT.refl u) hinv
      have hfold : pruneFold P st (b :: S2) =
          pruneFold P (setNode st (ATree.addr v0)
          { getN st (ATree.addr v0) with
            children := (getN st (ATree.addr v0)).children.filter
              (fun c2 => (getN st c2).id != w.core.id) }) S2 := by
        simp only [pruneFold, hstep]
      have hsplit2 : (bfsF [u]).reverse = (Q ++ [b]) ++ S2 := by
        rw [hsplit, List.append_assoc, List.singleton_append]
      have hinv2b : InvT qp (Q ++ [b])
          (setNode st (ATree.addr v0)
          { getN st (ATree.addr v0) with
            children := (getN st (ATree.addr v0)).children.filter
              (fun c2 => (getN st c2).id != w.core.id) }) none u := by
        rw [show Q ++ [b] = Q ++ [ATree.addr w] from by rw [hwb]]
        exact hinv2
      obtain ⟨r1, r2, r3, r4, r5, r6⟩ := ih (Q ++ [b]) _ hsplit2 hinv2b
      rw [hfold]
      have hv0mem : ATree.addr v0 ∈ addrsT u :=
        SubT_addrs_subset u v0 hsubv0 _ (mem_addrsT_self v0)
      refine ⟨r1, ?_, ?_, ?_, ?_, ?_⟩
      · rw [show Q ++ b :: S2 = (Q ++ [b]) ++ S2 from by
          rw [List.append_assoc, List.singleton_append]]
        exact r2
      · intro b2 hb2
        rw [r3 b2 hb2]
        refine setNode_nodes_ne st (ATree.addr v0) _ b2 ?_
        intro hcontra
        rw [hcontra] at hb2
        exact hb2 hv0mem
      · rw [r4, setNode_tasks]
      · rw [r5, setNode_nextN]
      · rw [r6, setNode_nextT]
/-- Line-update of a rebuilt record relabels the scalar fields. -/
theorem toObj_line_update (c : NCore) (p : Option Nat) (l : List Nat)
    (k : Nat) :
    { c.toObj p l with line := k } = ({ c with line := k } : NCore).toObj p l :=
  rfl

/-- Length of the depth-first address enumeration of a forest. -/
theorem addrsF_length (F : List ATree) : (addrsF F).length = sizeF F := by
  induction F with
  | nil => rfl
  | cons t ts ih =>
    rw [show addrsF (t :: ts) = addrsT t ++ addrsF ts from rfl,
      List.length_append, addrsT_length, ih]
    rfl

/-- `flat` over a pruned heap tree enumerates the tree's descendants in
depth-first pre-order. -/
theorem flatAddrs_eq (fuel : Nat) :
    ∀ (st : St) (t : ATree) (p : Option Nat), OkT st p t →
    sizeT t ≤ fuel → flatAddrs fuel st t.addr = addrsF (ATree.children t) := by
  induction fuel with
  | zero =>
    intro st t p _ hsz
    exfalso
    cases t with
    | mk a c ch =>
      rw [show sizeT (ATree.mk a c ch) = 1 + sizeF ch from rfl] at hsz
      omega
  | succ m ih =>
    intro st t p hok hsz
    rw [show flatAddrs (m + 1) st t.addr =
      (getN st t.addr).children.flatMap
        (fun c => c :: flatAddrs m st c) from rfl]
    have hch : (getN st t.addr).children =
        (ATree.children t).map ATree.addr := by
      rw [getN_eq_of_nodes _ _ _ (OkT_record st p t hok)]
      rfl
    rw [hch, addrsF_eq_flatMap]
    have hall : ∀ c ∈ ATree.children t,
        flatAddrs m st (ATree.addr c) = addrsF (ATree.children c) := by
      intro c hc
      refine ih st c (some t.addr) (OkT_children st p t hok c hc) ?_
      have h1 : sizeT c ≤ sizeF (ATree.children t) :=
        sizeT_le_of_mem _ c hc
      have h2 := sizeT_eq t
      omega
    have hgen : ∀ (l : List ATree),
        (∀ c ∈ l, flatAddrs m st (ATree.addr c) = addrsF (ATree.children c)) →
        (l.map ATree.addr).flatMap (fun b => b :: flatAddrs m st b) =
          l.flatMap addrsT := by
      intro l
      induction l with
      | nil => intro _; rfl
      | cons x xs ihl =>
        intro ha
        rw [List.map_cons, List.flatMap_cons, List.flatMap_cons]
        rw [ha x (List.mem_cons_self x xs),
          ihl (fun c hc => ha c (List.mem_cons_of_mem x hc))]
        have hx : addrsT x = x.addr :: addrsF (ATree.children x) := by
          cases x; rfl
        rw [hx]
    exact hgen (ATree.children t) hall

/-- The renumbering loop with an explicit next line number: the shape
`renumber`'s `enum`-fold takes. -/
def renumAux : Nat → St → List Nat → St
  | _, st, [] => st
  | k, st, a :: rest =>
      renumAux (k + 1) (setNode st a { getN st a with line := k }) rest

/-- `renumber` is the explicit loop started at line 1. -/
theorem renumber_eq (st : St) (l : List Nat) :
    renumber st l = renumAux 1 st l := by
  have hgen : ∀ (l2 : List Nat) (n : Nat) (st2 : St),
      (l2.enumFrom n).foldl
        (fun s p => setNode s p.2 { getN s p.2 with line := p.1 + 1 }) st2 =
      renumAux (n + 1) st2 l2 := by
    intro l2
    induction l2 with
    | nil => intro n st2; rfl
    | cons a rest ihl =>
      intro n st2
      rw [show (a :: rest).enumFrom n =
        (n, a) :: rest.enumFrom (n + 1) from rfl, List.foldl_cons]
      exact ihl (n + 1) _
  exact hgen l 0 st

/-- The renumbering loop splits over append. -/
theorem renumAux_append (l1 l2 : List Nat) :
    ∀ (k : Nat) (st : St),
    renumAux k st (l1 ++ l2) =
      renumAux (k + l1.length) (renumAux k st l1) l2 := by
  induction l1 with
  | nil => intro k st; rfl
  | cons a rest ihl =>
    intro k st
    rw [List.cons_append]
    rw [show renumAux k st (a :: (rest ++ l2)) =
      renumAux (k + 1) (setNode st a { getN st a with line := k })
        (rest ++ l2) from rfl]
    rw [ihl (k + 1) _]
    rw [show renumAux k st (a :: rest) =
      renumAux (k + 1) (setNode st a { getN st a with line := k })
        rest from rfl]
    rw [show k + 1 + rest.length = k + (a :: rest).length from by
      simp; omega]

/-- The renumbering loop only rewrites the listed addresses. -/
theorem renumAux_frame (l : List Nat) :
    ∀ (k : Nat) (st : St) (b : Nat), b ∉ l →
    (renumAux k st l).nodes b = st.nodes b := by
  induction l with
  | nil => intro k st b _; rfl
  | cons a rest ihl =>
    intro k st b hb
    rw [show renumAux k st (a :: rest) =
      renumAux (k + 1) (setNode st a { getN st a with line := k })
        rest from rfl]
    rw [ihl (k + 1) _ b (fun h2 => hb (List.mem_cons_of_mem a h2))]
    exact setNode_nodes_ne st a _ b
      (fun h2 => hb (h2 ▸ List.mem_cons_self a rest))

/-- The renumbering loop keeps tasks and both counters. -/
theorem renumAux_pres (l : List Nat) :
    ∀ (k : Nat) (st : St),
    (renumAux k st l).tasks = st.tasks ∧
    (renumAux k st l).nextN = st.nextN ∧
    (renumAux k st l).nextT = st.nextT := by
  induction l with
  | nil => intro k st; exact ⟨rfl, rfl, rfl⟩
  | cons a rest ihl =>
    intro k st
    rw [show renumAux k st (a :: rest) =
      renumAux (k + 1) (setNode st a { getN st a with line := k })
        rest from rfl]
    obtain ⟨h1, h2, h3⟩ := ihl (k + 1)
      (setNode st a { getN st a with line := k })
    exact ⟨by rw [h1, setNode_tasks], by rw [h2, setNode_nextN],
      by rw [h3, setNode_nextT]⟩
mutual

/-- The next free number after relabelling a tree. -/
theorem relabelT_snd (k : Nat) (t : ATree) :
    (relabelT k t).2 = k + sizeT t := by
  cases t with
  | mk a c ch =>
    rw [show (relabelT k (ATree.mk a c ch)).2 =
      (relabelF (k + 1) ch).2 from rfl]
    rw [relabelF_snd (k + 1) ch]
    rw [show sizeT (ATree.mk a c ch) = 1 + sizeF ch from rfl]
    omega

/-- The next free number after relabelling a forest. -/
theorem relabelF_snd (k : Nat) (F : List ATree) :
    (relabelF k F).2 = k + sizeF F := by
  cases F with
  | nil => rfl
  | cons t ts =>
    rw [show (relabelF k (t :: ts)).2 =
      (relabelF (relabelT k t).2 ts).2 from rfl]
    rw [relabelF_snd (relabelT k t).2 ts, relabelT_snd k t]
    rw [show sizeF (t :: ts) = sizeT t + sizeF ts from rfl]
    omega

end

/-- Relabelling keeps the root address. -/
theorem relabelT_addr (k : Nat) (t : ATree) :
    (relabelT k t).1.addr = t.addr := by
  cases t; rfl

mutual

/-- Relabelling keeps a tree's depth-first address enumeration. -/
theorem relabelT_addrs (k : Nat) (t : ATree) :
    addrsT (relabelT k t).1 = addrsT t := by
  cases t with
  | mk a c ch =>
    rw [show (relabelT k (ATree.mk a c ch)).1 =
      ATree.mk a { c with line := k } (relabelF (k + 1) ch).1 from rfl]
    rw [show addrsT (ATree.mk a { c with line := k }
      (relabelF (k + 1) ch).1) =
      a :: addrsF (relabelF (k + 1) ch).1 from rfl]
    rw [show addrsT (ATree.mk a c ch) = a :: addrsF ch from rfl]
    rw [relabelF_addrs (k + 1) ch]

/-- Relabelling keeps a forest's depth-first address enumeration. -/
theorem relabelF_addrs (k : Nat) (F : List ATree) :
    addrsF (relabelF k F).1 = addrsF F := by
  cases F with
  | nil => rfl
  | cons t ts =>
    rw [show (relabelF k (t :: ts)).1 =
      (relabelT k t).1 :: (relabelF (relabelT k t).2 ts).1 from rfl]
    rw [show addrsF ((relabelT k t).1 :: (relabelF (relabelT k t).2 ts).1) =
      addrsT (relabelT k t).1 ++
        addrsF (relabelF (relabelT k t).2 ts).1 from rfl]
    rw [show addrsF (t :: ts) = addrsT t ++ addrsF ts from rfl]
    rw [relabelT_addrs k t, relabelF_addrs (relabelT k t).2 ts]

end

/-- Relabelling keeps root addresses across a forest. -/
theorem relabelF_roots (k : Nat) (F : List ATree) :
    (relabelF k F).1.map ATree.addr = F.map ATree.addr := by
  induction F generalizing k with
  | nil => rfl
  | cons t ts ih =>
    rw [show (relabelF k (t :: ts)).1 =
      (relabelT k t).1 :: (relabelF (relabelT k t).2 ts).1 from rfl]
    rw [List.map_cons, List.map_cons, relabelT_addr, ih]

/-- Gluing adjacent `range'` blocks. -/
theorem range'_glue (m : Nat) :
    ∀ (s n : Nat),
    List.range' s m ++ List.range' (s + m) n = List.range' s (m + n) := by
  induction m with
  | zero => intro s n; simp
  | succ m2 ih =>
    intro s n
    rw [List.range'_succ, List.cons_append]
    rw [show s + (m2 + 1) = (s + 1) + m2 from by omega]
    rw [ih (s + 1) n]
    rw [show m2 + 1 + n = (m2 + n) + 1 from by omega, List.range'_succ]

mutual

/-- Relabelling a tree writes exactly the next `sizeT` consecutive numbers
in depth-first pre-order. -/
theorem preLines_relabelT (k : Nat) (t : ATree) :
    preLinesT (relabelT k t).1 = List.range' k (sizeT t) := by
  cases t with
  | mk a c ch =>
    rw [show (relabelT k (ATree.mk a c ch)).1 =
      ATree.mk a { c with line := k } (relabelF (k + 1) ch).1 from rfl]
    rw [show preLinesT (ATree.mk a { c with line := k }
      (relabelF (k + 1) ch).1) =
      k :: preLinesF (relabelF (k + 1) ch).1 from rfl]
    rw [preLines_relabelF (k + 1) ch]
    rw [show sizeT (ATree.mk a c ch) = 1 + sizeF ch from rfl]
    rw [show 1 + sizeF ch = sizeF ch + 1 from by omega, List.range'_succ]

/-- Relabelling a forest writes exactly the next `sizeF` consecutive
numbers in depth-first pre-order. -/
theorem preLines_relabelF (k : Nat) (F : List ATree) :
    preLinesF (relabelF k F).1 = List.range' k (sizeF F) := by
  cases F with
  | nil => rfl
  | cons t ts =>
    rw [show (relabelF k (t :: ts)).1 =
      (relabelT k t).1 :: (relabelF (relabelT k t).2 ts).1 from rfl]
    rw [show preLinesF ((relabelT k t).1 ::
      (relabelF (relabelT k t).2 ts).1) =
      preLinesT (relabelT k t).1 ++
        preLinesF (relabelF (relabelT k t).2 ts).1 from rfl]
    rw [preLines_relabelT k t, preLines_relabelF (relabelT k t).2 ts]
    rw [relabelT_snd k t]
    rw [show sizeF (t :: ts) = sizeT t + sizeF ts from rfl]
    exact range'_glue (sizeT t) k (sizeF ts)

end
/-- Running the renumbering loop over a forest's depth-first addresses turns
a heap containing the forest into one containing the relabelled forest. -/
theorem renum_extract :
    ∀ (n : Nat) (F : List ATree) (k : Nat) (st : St) (pa : Nat),
    sizeF F ≤ n → OkF st pa F → (addrsF F).Nodup →
    OkF (renumAux k st (addrsF F)) pa (relabelF k F).1 := by
  intro n
  induction n with
  | zero =>
    intro F k st pa hsz hok hnd
    rw [sizeF_le_zero F hsz]
    trivial
  | succ m ih =>
    intro F k st pa hsz hok hnd
    cases F with
    | nil => trivial
    | cons t ts =>
      cases t with
      | mk a c ch =>
        rw [show addrsF (ATree.mk a c ch :: ts) =
          (a :: addrsF ch) ++ addrsF ts from rfl] at hnd ⊢
        obtain ⟨hnd1, hnd2, hdisj⟩ := List.nodup_append.1 hnd
        obtain ⟨hach, hndch⟩ := List.nodup_cons.1 hnd1
        obtain ⟨hokt, hokts⟩ := hok
        obtain ⟨hrec, hokch⟩ := hokt
        rw [renumAux_append]
        rw [show (a :: addrsF ch).length = 1 + sizeF ch from by
          rw [List.length_cons, addrsF_length]; omega]
        rw [show renumAux k st (a :: addrsF ch) =
          renumAux (k + 1) (setNode st a { getN st a with line := k })
            (addrsF ch) from rfl]
        have hszch : sizeF ch ≤ m := by
          rw [show sizeF (ATree.mk a c ch :: ts) =
            sizeT (ATree.mk a c ch) + sizeF ts from rfl,
            show sizeT (ATree.mk a c ch) = 1 + sizeF ch from rfl] at hsz
          omega
        have hszts : sizeF ts ≤ m := by
          rw [show sizeF (ATree.mk a c ch :: ts) =
            sizeT (ATree.mk a c ch) + sizeF ts from rfl,
            show sizeT (ATree.mk a c ch) = 1 + sizeF ch from rfl] at hsz
          omega
        have hok1 : OkF (setNode st a { getN st a with line := k }) a ch :=
          OkF_mono st _ a ch hokch
            (fun b hb => setNode_nodes_ne st a _ b
              (fun h2 => hach (h2 ▸ hb)))
        have hst2 := ih ch (k + 1)
          (setNode st a { getN st a with line := k }) a hszch hok1 hndch
        have hok2ts : OkF (renumAux (k + 1)
            (setNode st a { getN st a with line := k }) (addrsF ch))
            pa ts := by
          refine OkF_mono st _ pa ts hokts ?_
          intro b hb
          rw [renumAux_frame (addrsF ch) (k + 1) _ b
            (fun h2 => hdisj (List.mem_cons_of_mem a h2) hb)]
          exact setNode_nodes_ne st a _ b
            (fun h2 => hdisj (h2 ▸ List.mem_cons_self a _) hb)
        have hst3 := ih ts (k + (1 + sizeF ch))
          (renumAux (k + 1) (setNode st a { getN st a with line := k })
            (addrsF ch)) pa hszts hok2ts hnd2
        rw [show relabelF k (ATree.mk a c ch :: ts) =
          ((relabelT k (ATree.mk a c ch)).1 ::
            (relabelF (relabelT k (ATree.mk a c ch)).2 ts).1,
           (relabelF (relabelT k (ATree.mk a c ch)).2 ts).2) from rfl]
        rw [show (relabelT k (ATree.mk a c ch)).2 = k + (1 + sizeF ch) from
          by rw [relabelT_snd]; rfl]
        refine ⟨?_, hst3⟩
        rw [show (relabelT k (ATree.mk a c ch)).1 =
          ATree.mk a { c with line := k } (relabelF (k + 1) ch).1 from rfl]
        refine ⟨?_, ?_⟩
        · rw [renumAux_frame (addrsF ts) _ _ a
            (fun h2 => hdisj (List.mem_cons_self a _) h2)]
          rw [renumAux_frame (addrsF ch) (k + 1) _ a hach]
          rw [setNode_nodes_self]
          rw [getN_eq_of_nodes _ _ _ hrec, toObj_line_update]
          rw [show (relabelF (k + 1) ch).1.map ATree.addr =
            ch.map ATree.addr from relabelF_roots (k + 1) ch]
        · refine OkF_mono _ _ a (relabelF (k + 1) ch).1 hst2 ?_
          intro b hb
          rw [relabelF_addrs (k + 1) ch] at hb
          exact renumAux_frame (addrsF ts) _ _ b
            (fun h2 => hdisj (List.mem_cons_of_mem a hb) h2)
mutual

/-- Pruning selects a subsequence of a tree's addresses. -/
theorem pruneT_addrs_sub (qp : NCore → Bool) (t : ATree) :
    (addrsT (pruneT qp t)).Sublist (addrsT t) := by
  cases t with
  | mk a c ch =>
    rw [show pruneT qp (ATree.mk a c ch) =
      ATree.mk a c (pruneF qp ch) from rfl]
    rw [show addrsT (ATree.mk a c (pruneF qp ch)) =
      a :: addrsF (pruneF qp ch) from rfl]
    rw [show addrsT (ATree.mk a c ch) = a :: addrsF ch from rfl]
    exact List.Sublist.cons₂ a (pruneF_addrs_sub qp ch)

/-- Pruning selects a subsequence of a forest's addresses. -/
theorem pruneF_addrs_sub (qp : NCore → Bool) (F : List ATree) :
    (addrsF (pruneF qp F)).Sublist (addrsF F) := by
  cases F with
  | nil => exact List.Sublist.refl _
  | cons t ts =>
    rw [pruneF_cons,
      show addrsF (t :: ts) = addrsT t ++ addrsF ts from rfl]
    by_cases hs : survB qp t = true
    · rw [if_pos hs]
      rw [show addrsF (pruneT qp t :: pruneF qp ts) =
        addrsT (pruneT qp t) ++ addrsF (pruneF qp ts) from rfl]
      exact List.Sublist.append (pruneT_addrs_sub qp t)
        (pruneF_addrs_sub qp ts)
    · rw [if_neg hs]
      exact List.Sublist.trans (pruneF_addrs_sub qp ts)
        (List.sublist_append_right _ _)

end

/-- Every node of a pruned forest satisfies the predicate or kept at least
one child: the claim's "every retained node satisfies P or has a retained
descendant", for all nodes below the root. -/
theorem prune_retained :
    ∀ (n : Nat) (qp : NCore → Bool) (F : List ATree), sizeF F ≤ n →
    ∀ v ∈ pruneF qp F, ∀ x, SubT v x →
    qp (ATree.core x) = true ∨ ATree.children x ≠ [] := by
  intro n
  induction n with
  | zero =>
    intro qp F hsz v hv
    exfalso
    rw [sizeF_le_zero F hsz] at hv
    simp [pruneF] at hv
  | succ m ih =>
    intro qp F hsz v hv x hsx
    obtain ⟨y, hy, hsy, hvy⟩ := mem_pruneF qp F v hv
    cases hsx with
    | refl =>
      rw [hvy, pruneT_core, pruneT_children]
      unfold survB at hsy
      rcases Bool.or_eq_true_iff.1 hsy with h1 | h1
      · exact Or.inl h1
      · right
        intro hcontra
        rw [hcontra] at h1
        simp at h1
    | step hmem hsub =>
      rename_i c0
      have hc0 : c0 ∈ pruneF qp (ATree.children y) := by
        rw [hvy, pruneT_children] at hmem
        exact hmem
      refine ih qp (ATree.children y) ?_ c0 hc0 x hsub
      have h1 : sizeT y ≤ sizeF F := sizeT_le_of_mem F y hy
      have h2 := sizeT_eq y
      omega
/-- A tree's address list starts at its root. -/
theorem addrsT_eq (t : ATree) :
    addrsT t = ATree.addr t :: addrsF (ATree.children t) := by
  cases t; rfl

mutual

/-- For a predicate blind to the payload slot, survival under pruning is
preserved by cloning. -/
theorem CRel_survB (qp : NCore → Bool)
    (hqd : ∀ (c2 : NCore) (d : NData), qp { c2 with data := d } = qp c2)
    (stO stN : St) (t u : ATree) (h : CRel stO stN t u) :
    survB qp u = survB qp t := by
  cases t with
  | mk a c ch =>
  cases u with
  | mk a2 c2 ch2 =>
    obtain ⟨e1, e2, e3, e4, e5, hd, hch⟩ := h
    have hcore : qp c2 = qp c := by
      cases c2 with
      | mk ty li da co idv le =>
      cases c with
      | mk ty2 li2 da2 co2 id2 le2 =>
        have f1 : ty = ty2 := e1
        have f2 : li = li2 := e2
        have f3 : co = co2 := e3
        have f4 : idv = id2 := e4
        have f5 : le = le2 := e5
        subst f1
        subst f2
        subst f3
        subst f4
        subst f5
        exact hqd (NCore.mk ty li da2 co idv le) da
    have hlen : (pruneF qp ch2).length = (pruneF qp ch).length :=
      CRelF_prune_len qp hqd stO stN ch ch2 hch
    have hemp : (pruneF qp ch2).isEmpty = (pruneF qp ch).isEmpty := by
      cases h1 : pruneF qp ch with
      | nil =>
        cases h2 : pruneF qp ch2 with
        | nil => rfl
        | cons v vs =>
          exfalso
          rw [h1, h2] at hlen
          simp at hlen
      | cons v vs =>
        cases h2 : pruneF qp ch2 with
        | nil =>
          exfalso
          rw [h1, h2] at hlen
          simp at hlen
        | cons v2 vs2 => rfl
    unfold survB
    rw [show ATree.core (ATree.mk a2 c2 ch2) = c2 from rfl,
      show ATree.core (ATree.mk a c ch) = c from rfl,
      show ATree.children (ATree.mk a2 c2 ch2) = ch2 from rfl,
      show ATree.children (ATree.mk a c ch) = ch from rfl,
      hcore, hemp]

/-- Cloning keeps how many trees of a forest survive pruning. -/
theorem CRelF_prune_len (qp : NCore → Bool)
    (hqd : ∀ (c2 : NCore) (d : NData), qp { c2 with data := d } = qp c2)
    (stO stN : St) (F F2 : List ATree) (h : CRelF stO stN F F2) :
    (pruneF qp F2).length = (pruneF qp F).length := by
  cases F with
  | nil =>
    cases F2 with
    | nil => rfl
    | cons v vs => exact h.elim
  | cons t ts =>
    cases F2 with
    | nil => exact h.elim
    | cons v vs =>
      rw [pruneF_cons, pruneF_cons]
      rw [CRel_survB qp hqd stO stN t v h.1]
      by_cases hs : survB qp t = true
      · rw [if_pos hs, if_pos hs]
        rw [List.length_cons, List.length_cons]
        rw [CRelF_prune_len qp hqd stO stN ts vs h.2]
      · rw [if_neg hs, if_neg hs]
        exact CRelF_prune_len qp hqd stO stN ts vs h.2

end
/-- Full behaviour of `Node.filter` on a well-formed receiver when the root
survives: it works on a deep clone `u` of the receiver, returns the clone's
root, prunes exactly per `pruneF`, renumbers the result's lines in
depth-first pre-order from 1, and leaves the receiver's heap cells
untouched. -/
theorem filter_spec (fuel : Nat) (st : St) (t : ATree) (qp : NCore → Bool)
    (P : NodeObj → Except Unit Bool)
    (hwf : WfSt st) (hok : OkT st none t) (hndI : (idsT t).Nodup)
    (htask : ∀ b ∈ taskAddrsT t, b < st.nextT)
    (hP : ∀ n, P n = Except.ok (qp n.core))
    (hqd : ∀ (c2 : NCore) (d : NData), qp { c2 with data := d } = qp c2)
    (hfuel : sizeT t ≤ fuel)
    (hsurv : survB qp t = true) :
    ∃ u : ATree,
      CRel st (Node.filter fuel st (ATree.addr t) P).1 t u ∧
      (Node.filter fuel st (ATree.addr t) P).2 = ATree.addr u ∧
      OkT (Node.filter fuel st (ATree.addr t) P).1 none
        (ATree.mk (ATree.addr u) (ATree.core u)
          ((relabelF 1 (pruneF qp (ATree.children u))).1)) ∧
      (∀ b, b < st.nextN →
        (Node.filter fuel st (ATree.addr t) P).1.nodes b = st.nodes b) ∧
      (∀ b, b < st.nextT →
        (Node.filter fuel st (ATree.addr t) P).1.tasks b = st.tasks b) ∧
      OkT (Node.filter fuel st (ATree.addr t) P).1 none t := by
  obtain ⟨u, hcaddr, hwf1, hnN, hnT, hnodesP, htasksP, hokU, hfresh, hndA,
    hrel⟩ := cloneRoot_spec fuel st t none hwf hok htask hfuel
  obtain ⟨st1, hst1⟩ : ∃ s, (cloneRoot fuel st (ATree.addr t)).1 = s :=
    ⟨_, rfl⟩
  rw [hst1] at hwf1 hnN hnT hnodesP htasksP hokU hfresh hrel
  have hsizeU : sizeT u = sizeT t := CRel_size st st1 t u hrel
  have hndIu : (idsT u).Nodup := by
    rw [CRel_ids st st1 t u hrel]
    exact hndI
  have hsurvU : survB qp u = true := by
    rw [CRel_survB qp hqd st st1 t u hrel]
    exact hsurv
  have hflat : bfsFlatten fuel st1 [ATree.addr u] = bfsF [u] := by
    rw [show [ATree.addr u] = [u].map ATree.addr from rfl]
    refine bfsFlatten_eq_pure fuel st1 [u] ?_ ?_
    · rw [show sizeF [u] = sizeT u + sizeF [] from rfl,
        show sizeF ([] : List ATree) = 0 from rfl]
      omega
    · intro v hv
      rw [List.mem_singleton.1 hv]
      exact ⟨none, hokU⟩
  obtain ⟨r1, r2, r3, r4, r5, r6⟩ :=
    pruneFold_run qp P hP u hndA hndIu hsurvU ((bfsF [u]).reverse) [] st1
      rfl (InvT_of_OkT qp st1 none u hokU)
  obtain ⟨st2, hst2⟩ : ∃ s, (pruneFold P st1 ((bfsF [u]).reverse)).1 = s :=
    ⟨_, rfl⟩
  rw [hst2] at r2 r3 r4 r5 r6
  have hokP : OkT st2 none (pruneT qp u) := by
    refine InvT_to_OkT qp ([] ++ (bfsF [u]).reverse) st2 none u r2 ?_
    intro b hb
    rw [List.nil_append]
    refine List.mem_reverse.2 (mem_bfsF [u] b ?_)
    rw [show addrsF [u] = addrsT u ++ addrsF [] from rfl,
      show addrsF ([] : List ATree) = [] from rfl, List.append_nil]
    exact hb
  have hndch : (addrsF (ATree.children u)).Nodup := by
    rw [addrsT_eq] at hndA
    exact (List.nodup_cons.1 hndA).2
  have hndpr : (addrsF (pruneF qp (ATree.children u))).Nodup :=
    (pruneF_addrs_sub qp (ATree.children u)).nodup hndch
  have hfa : flatAddrs fuel st2 (ATree.addr u) =
      addrsF (pruneF qp (ATree.children u)) := by
    have h1 := flatAddrs_eq fuel st2 (pruneT qp u) none hokP (by
      have h2 := pruneT_size_le qp u
      omega)
    rw [pruneT_addr, pruneT_children] at h1
    exact h1
  have hokF : OkF st2 (ATree.addr u) (pruneF qp (ATree.children u)) := by
    refine (OkF_iff st2 (ATree.addr u) _).2 ?_
    intro v hv
    have h2 := OkT_children st2 none (pruneT qp u) hokP v (by
      rw [pruneT_children]
      exact hv)
    rw [pruneT_addr] at h2
    exact h2
  have hre := renum_extract (sizeF (pruneF qp (ATree.children u)))
    (pruneF qp (ATree.children u)) 1 st2 (ATree.addr u) (le_refl _) hokF
    hndpr
  obtain ⟨st3, hst3⟩ :
      ∃ s, renumAux 1 st2 (addrsF (pruneF qp (ATree.children u))) = s :=
    ⟨_, rfl⟩
  obtain ⟨p1, p2, p3⟩ :=
    renumAux_pres (addrsF (pruneF qp (ATree.children u))) 1 st2
  rw [hst3] at hre p1 p2 p3
  have hnotin : ATree.addr u ∉ addrsF (pruneF qp (ATree.children u)) := by
    intro hcontra
    have h2 := (pruneF_addrs_sub qp (ATree.children u)).subset hcontra
    rw [addrsT_eq] at hndA
    exact (List.nodup_cons.1 hndA).1 h2
  have hfeq : Node.filter fuel st (ATree.addr t) P = (st3, ATree.addr u) := by
    simp only [Node.filter]
    rw [hcaddr, hst1, hflat, hst2, r1, if_neg Bool.false_ne_true]
    rw [hfa, renumber_eq, hst3]
  have hlow : ∀ b, b < st.nextN → st3.nodes b = st.nodes b := by
    intro b hb
    have hbU : b ∉ addrsT u := by
      intro hcontra
      have h2 := (hfresh b hcontra).1
      omega
    have hbP : b ∉ addrsF (pruneF qp (ATree.children u)) := by
      intro hcontra
      refine hbU ?_
      rw [addrsT_eq]
      exact List.mem_cons_of_mem _
        ((pruneF_addrs_sub qp (ATree.children u)).subset hcontra)
    rw [← hst3, renumAux_frame _ 1 st2 b hbP, r3 b hbU]
    exact hnodesP b hb
  refine ⟨u, ?_, ?_, ?_, ?_, ?_, ?_⟩
  · rw [hfeq]
    refine CRel_weaken st st st1 st3 t u hrel htask (fun b _ => rfl)
      (le_refl _) ?_ ?_
    · intro b _
      rw [p1, r4]
    · refine le_of_eq ?_
      rw [p3, r6]
  · rw [hfeq]
  · rw [hfeq]
    refine ⟨?_, hre⟩
    rw [show ((relabelF 1 (pruneF qp (ATree.children u))).1).map ATree.addr =
      (pruneF qp (ATree.children u)).map ATree.addr from relabelF_roots 1 _]
    rw [← hst3, renumAux_frame _ 1 st2 (ATree.addr u) hnotin]
    have h2 := OkT_record st2 none (pruneT qp u) hokP
    rw [pruneT_addr, pruneT_core, pruneT_children] at h2
    exact h2
  · rw [hfeq]
    exact hlow
  · rw [hfeq]
    intro b hb
    rw [show St.tasks (st3, ATree.addr u).1 = st3.tasks from rfl, p1, r4]
    exact htasksP b hb
  · rw [hfeq]
    refine OkT_mono st st3 none t hok ?_
    intro b hb
    exact hlow b (OkT_addr_lt st none t hwf hok b hb)
/-- A heap holding a single root node that will fail the filter predicate. -/
def exSt4 : St :=
  { nodes := fun x => if x = 0 then
      some ⟨NodeType.ROOT, 1, NData.text "", none, [], false, 50, none⟩
    else none
    tasks := fun _ => none
    nextN := 1
    nextT := 0 }

/-- A predicate no node satisfies (and that never raises). -/
def Pfalse : NodeObj → Except Unit Bool := fun _ => Except.ok false

/-- C1 counterexample: filtering a single-node tree with an always-false
predicate. The root is processed last; failing the predicate with no
children, its pruning step dereferences `parent.children` on the undefined
parent, the TypeError is caught, and `filter` returns the clone as it
stands. The returned (retained) root fails the predicate and has no
children, hence no retained descendant — refuting "every retained node
either satisfies P or has a retained descendant" as stated for all nodes. -/
theorem C1_filter_counterexample :
    (Node.filter 3 exSt4 0 Pfalse).2 = 1 ∧
    getN (Node.filter 3 exSt4 0 Pfalse).1 1 =
      ⟨NodeType.ROOT, 1, NData.text "", none, [], false, 50, none⟩ ∧
    Pfalse (getN (Node.filter 3 exSt4 0 Pfalse).1 1) = Except.ok false :=
  ⟨rfl, rfl, rfl⟩
/-- Relabelling keeps the node count of a forest. -/
theorem relabelF_size (k : Nat) (F : List ATree) :
    sizeF (relabelF k F).1 = sizeF F := by
  rw [← addrsF_length, relabelF_addrs, addrsF_length]

/-- C1: for a non-raising, payload-blind predicate over a root whose pruned
form survives, `filter` works on a deep clone `u` of the receiver and
returns its root; the result extracted from the heap is exactly the clone
pruned by `pruneF` (a child is dropped iff it fails the predicate and all
its own children were already pruned — reverse-BFS order makes each node's
final children list present when it is processed) and then renumbered; a
retained node below the root satisfies the predicate or still has a child,
i.e. a retained descendant; and the receiver's heap cells are untouched, so
the receiver is unchanged. -/
theorem C1_filterPrunes (fuel : Nat) (st : St) (t : ATree)
    (qp : NCore → Bool) (P : NodeObj → Except Unit Bool)
    (hwf : WfSt st) (hok : OkT st none t) (hndI : (idsT t).Nodup)
    (htask : ∀ b ∈ taskAddrsT t, b < st.nextT)
    (hP : ∀ n, P n = Except.ok (qp n.core))
    (hqd : ∀ (c2 : NCore) (d : NData), qp { c2 with data := d } = qp c2)
    (hfuel : sizeT t ≤ fuel)
    (hsurv : survB qp t = true) :
    ∃ u : ATree,
      CRel st (Node.filter fuel st (ATree.addr t) P).1 t u ∧
      (Node.filter fuel st (ATree.addr t) P).2 = ATree.addr u ∧
      OkT (Node.filter fuel st (ATree.addr t) P).1 none
        (ATree.mk (ATree.addr u) (ATree.core u)
          ((relabelF 1 (pruneF qp (ATree.children u))).1)) ∧
      pruneF qp (ATree.children u) =
        ((ATree.children u).filter (survB qp)).map (pruneT qp) ∧
      (∀ v ∈ pruneF qp (ATree.children u), ∀ x, SubT v x →
        qp (ATree.core x) = true ∨ ATree.children x ≠ []) ∧
      (∀ b, b < st.nextN →
        (Node.filter fuel st (ATree.addr t) P).1.nodes b = st.nodes b) ∧
      (∀ b, b < st.nextT →
        (Node.filter fuel st (ATree.addr t) P).1.tasks b = st.tasks b) ∧
      OkT (Node.filter fuel st (ATree.addr t) P).1 none t := by
  obtain ⟨u, c1, c2, c3, c4, c5, c6⟩ :=
    filter_spec fuel st t qp P hwf hok hndI htask hP hqd hfuel hsurv
  exact ⟨u, c1, c2, c3, pruneF_eq qp (ATree.children u),
    fun v hv x hx =>
      prune_retained (sizeF (ATree.children u)) qp (ATree.children u)
        (le_refl _) v hv x hx,
    c4, c5, c6⟩

/-- C3: with the same side conditions, the tree `filter` returns carries
line numbers that, read in depth-first pre-order with the root excluded,
are exactly the contiguous integers 1, 2, 3, … -/
theorem C3_filterLines (fuel : Nat) (st : St) (t : ATree)
    (qp : NCore → Bool) (P : NodeObj → Except Unit Bool)
    (hwf : WfSt st) (hok : OkT st none t) (hndI : (idsT t).Nodup)
    (htask : ∀ b ∈ taskAddrsT t, b < st.nextT)
    (hP : ∀ n, P n = Except.ok (qp n.core))
    (hqd : ∀ (c2 : NCore) (d : NData), qp { c2 with data := d } = qp c2)
    (hfuel : sizeT t ≤ fuel)
    (hsurv : survB qp t = true) :
    ∃ w : ATree,
      (Node.filter fuel st (ATree.addr t) P).2 = ATree.addr w ∧
      OkT (Node.filter fuel st (ATree.addr t) P).1 none w ∧
      preLinesF (ATree.children w) =
        List.range' 1 (sizeF (ATree.children w)) := by
  obtain ⟨u, _, c2, c3, _, _, _⟩ :=
    filter_spec fuel st t qp P hwf hok hndI htask hP hqd hfuel hsurv
  refine ⟨ATree.mk (ATree.addr u) (ATree.core u)
    ((relabelF 1 (pruneF qp (ATree.children u))).1), ?_, c3, ?_⟩
  · rw [c2]
    rfl
  · rw [show ATree.children (ATree.mk (ATree.addr u) (ATree.core u)
      ((relabelF 1 (pruneF qp (ATree.children u))).1)) =
      (relabelF 1 (pruneF qp (ATree.children u))).1 from rfl]
    rw [preLines_relabelF, relabelF_size]
/-- A two-node extracted tree for the filter witnesses. -/
def exT5 : ATree :=
  ATree.mk 0 ⟨NodeType.ROOT, 1, NData.text "", false, 60, none⟩
    [ATree.mk 1 ⟨NodeType.OTHER, 7, NData.text "k", false, 61, none⟩ []]

/-- The heap containing the filter-witness tree. -/
def exSt5 : St :=
  { nodes := fun x =>
      if x = 0 then
        some ⟨NodeType.ROOT, 1, NData.text "", none, [1], false, 60, none⟩
      else if x = 1 then
        some ⟨NodeType.OTHER, 7, NData.text "k", some 0, [], false, 61, none⟩
      else none
    tasks := fun _ => none
    nextN := 2
    nextT := 0 }

/-- An always-true pure predicate on scalar fields. -/
def qpT : NCore → Bool := fun _ => true

/-- Its lift to heap records, never raising. -/
def PT : NodeObj → Except Unit Bool := fun n => Except.ok (qpT n.core)

/-- Witness for C1: the filter theorem applied to the concrete two-node
heap with an always-true predicate. -/
theorem C1_filterPrunes_witness :
    ∃ u : ATree,
      CRel exSt5 (Node.filter 9 exSt5 (ATree.addr exT5) PT).1 exT5 u ∧
      (Node.filter 9 exSt5 (ATree.addr exT5) PT).2 = ATree.addr u ∧
      OkT (Node.filter 9 exSt5 (ATree.addr exT5) PT).1 none
        (ATree.mk (ATree.addr u) (ATree.core u)
          ((relabelF 1 (pruneF qpT (ATree.children u))).1)) ∧
      pruneF qpT (ATree.children u) =
        ((ATree.children u).filter (survB qpT)).map (pruneT qpT) ∧
      (∀ v ∈ pruneF qpT (ATree.children u), ∀ x, SubT v x →
        qpT (ATree.core x) = true ∨ ATree.children x ≠ []) ∧
      (∀ b, b < exSt5.nextN →
        (Node.filter 9 exSt5 (ATree.addr exT5) PT).1.nodes b =
          exSt5.nodes b) ∧
      (∀ b, b < exSt5.nextT →
        (Node.filter 9 exSt5 (ATree.addr exT5) PT).1.tasks b =
          exSt5.tasks b) ∧
      OkT (Node.filter 9 exSt5 (ATree.addr exT5) PT).1 none exT5 :=
  C1_filterPrunes 9 exSt5 exT5 qpT PT
    ⟨fun a ha => by
      have h2 : (2 : Nat) ≤ a := ha
      simp [exSt5, show a ≠ 0 by omega, show a ≠ 1 by omega],
     fun a _ => rfl⟩
    ⟨rfl, ⟨rfl, trivial⟩, trivial⟩
    (by decide)
    (fun b hb => absurd hb (List.not_mem_nil b))
    (fun n => rfl)
    (fun c2 d => rfl)
    (by decide)
    rfl

/-- Witness for C3: the contiguous-renumbering theorem applied to the
concrete two-node heap with an always-true predicate. -/
theorem C3_filterLines_witness :
    ∃ w : ATree,
      (Node.filter 9 exSt5 (ATree.addr exT5) PT).2 = ATree.addr w ∧
      OkT (Node.filter 9 exSt5 (ATree.addr exT5) PT).1 none w ∧
      preLinesF (ATree.children w) =
        List.range' 1 (sizeF (ATree.children w)) :=
  C3_filterLines 9 exSt5 exT5 qpT PT
    ⟨fun a ha => by
      have h2 : (2 : Nat) ≤ a := ha
      simp [exSt5, show a ≠ 0 by omega, show a ≠ 1 by omega],
     fun a _ => rfl⟩
    ⟨rfl, ⟨rfl, trivial⟩, trivial⟩
    (by decide)
    (fun b hb => absurd hb (List.not_mem_nil b))
    (fun n => rfl)
    (fun c2 d => rfl)
    (by decide)
    rfl
